import Mathlib

/-!
# Work queue manager (`workq.c`, `workq.h`)

A shallow embedding of the work queue manager and of the interleavings of its
three entry points with the server threads it creates.

* Pointers are `Option Nat` (`none` is `NULL`); the heap maps an address to the
  `workq_ele_t` stored there, `none` when the address is not allocated.
* `int` fields are `Int`.  No arithmetic of the program leaves the range of
  `int` on a reachable state: `counter` is only incremented below
  `parallelism` and only decremented by a server that was counted.
* Every POSIX primitive returns the status the environment hands it (`Env`);
  a primitive that fails has no other effect.
* Code that runs between acquiring the mutex and releasing it (by
  `pthread_mutex_unlock` or by entering a condition wait) is one step of the
  thread that runs it.  The tests of `valid`, which the code makes before it
  takes the mutex, the call of the engine and the destruction of the
  primitives are steps of their own.
-/

namespace Workq

/-! ## Constants -/

/-- Value of `EINVAL` (from the system header `errno.h`, Linux). -/
def EINVAL : Int := 22

/-- Value of `ENOMEM` (from the system header `errno.h`, Linux). -/
def ENOMEM : Int := 12

/-- Value of `ETIMEDOUT` (from the system header `errno.h`, Linux). -/
def ETIMEDOUT : Int := 110

/-- The constant `WORKQ_VALID` (workq.h:49). -/
def WORKQ_VALID : Int := 0xdec1992

/-! ## Data model -/

/-- The type `workq_ele_t` (workq.h:28-31). -/
structure workq_ele_t where
  next : Option Nat
  data : Nat
deriving DecidableEq

/-- The type `workq_t` (workq.h:36-47).  The mutex, the condition variable and the
attribute object carry no data of their own: what happens to them is recorded
as events. -/
structure workq_t where
  first : Option Nat
  last : Option Nat
  valid : Int
  quit : Int
  parallelism : Int
  counter : Int
  idle : Int
  engine : Nat
deriving DecidableEq

/-- The heap of queue entries. -/
abbrev Heap := Nat → Option workq_ele_t

/-- The heap with nothing allocated. -/
def Heap.empty : Heap := fun _ => none

/-- Statuses handed back by the primitives during one step. -/
structure Env where
  lock : Int
  unlock : Int
  signal : Int
  broadcast : Int
  create : Int
  wait : Int
  mutex_destroy : Int
  cond_destroy : Int
  attr_destroy : Int
  attr_init : Int
  attr_setdetachstate : Int
  mutex_init : Int
  cond_init : Int
deriving DecidableEq

/-- The environment in which every primitive succeeds. -/
def Env.ok : Env := ⟨0, 0, 0, 0, 0, 0, 0, 0, 0, 0, 0, 0, 0⟩

/-- Calls of primitives and of the engine, and the two places where the queue
is relinked (`link`: workq.c:277-281, `unlink`: workq.c:96-98). -/
inductive Event
  | attr_init (st : Int)
  | attr_setdetachstate (st : Int)
  | attr_destroy (st : Int)
  | mutex_init (st : Int)
  | mutex_destroy (st : Int)
  | mutex_lock (st : Int)
  | mutex_unlock (st : Int)
  | cond_init (st : Int)
  | cond_destroy (st : Int)
  | cond_signal (st : Int)
  | cond_broadcast (st : Int)
  | cond_wait
  | cond_timedwait
  | cond_wake (st : Int)
  | create (st : Int)
  | malloc (r : Option Nat)
  | free (a : Nat)
  | engine (fn : Nat) (data : Nat)
  | engine_ret
  | link (data : Nat)
  | unlink (data : Nat)
deriving DecidableEq

/-- Where a thread stands between two of its steps. -/
inductive Thread
  /-- In `workq_add` between line 266 and the `pthread_mutex_lock` of line 267. -/
  | add_locking (item : Nat) (element : Nat)
  /-- The call of `workq_add` has returned `st`. -/
  | add_done (st : Int)
  /-- In `workq_destroy` between the test of line 194 and the lock of line 196. -/
  | destroy_locking
  /-- Inside `pthread_cond_wait` (workq.c:231). -/
  | destroy_waiting
  /-- In `workq_destroy` after the unlock of line 238 succeeded. -/
  | destroy_unlocked
  /-- The call of `workq_destroy` has returned `st`. -/
  | destroy_done (st : Int)
  /-- The thread `workq_server` was created and has not yet run line 47. -/
  | server_start
  /-- Inside `pthread_cond_timedwait` (workq.c:62). -/
  | server_waiting
  /-- The server has unlinked `we` and released the mutex (workq.c:99). -/
  | server_dequeued (we : Nat) (timedout : Bool)
  /-- Inside `wq->engine (we->data)` (workq.c:103). -/
  | server_engine (we : Nat) (timedout : Bool)
  /-- The thread `workq_server` has returned. -/
  | server_done
deriving DecidableEq

/-- What one step of one thread leaves behind. -/
structure Out where
  wq : workq_t
  heap : Heap
  next : Thread
  spawn : Bool
  events : List Event

/-- Outcome of a step: it completes, or it dereferences `NULL` or memory that
is not allocated, or the loop of the server runs out of fuel. -/
inductive Res
  | ok (o : Out)
  | ub
  | fuel

/-! ## workq_init -/

/-- The function `workq_init` (workq.c:153-185): status, queue, events. -/
def workq_init (wq : workq_t) (threads : Int) (engine : Nat) (env : Env) :
    Int × workq_t × List Event :=
  if env.attr_init ≠ 0 then
    (env.attr_init, wq, [.attr_init env.attr_init])
  else if env.attr_setdetachstate ≠ 0 then
    (env.attr_setdetachstate, wq,
      [.attr_init 0, .attr_setdetachstate env.attr_setdetachstate,
       .attr_destroy env.attr_destroy])
  else if env.mutex_init ≠ 0 then
    (env.mutex_init, wq,
      [.attr_init 0, .attr_setdetachstate 0, .mutex_init env.mutex_init,
       .attr_destroy env.attr_destroy])
  else if env.cond_init ≠ 0 then
    (env.cond_init, wq,
      [.attr_init 0, .attr_setdetachstate 0, .mutex_init 0, .cond_init env.cond_init,
       .mutex_destroy env.mutex_destroy, .attr_destroy env.attr_destroy])
  else
    (0,
     { wq with
       quit := 0, first := none, last := none, parallelism := threads,
       counter := 0, idle := 0, engine := engine, valid := WORKQ_VALID },
     [.attr_init 0, .attr_setdetachstate 0, .mutex_init 0, .cond_init 0])

/-! ## workq_server -/

/-- Places of `workq_server` at which the mutex is held. -/
inductive Pt
  /-- The test of the inner `while` (workq.c:57), reached with `timedout = 0`. -/
  | inner
  /-- After the inner loop (workq.c:93). -/
  | take (timedout : Bool)
  /-- The two exit tests (workq.c:114-142). -/
  | tests (timedout : Bool)
deriving DecidableEq

/-- The function `workq_server` from a place where it holds the mutex up to the
place where it lets it go (workq.c:51-143, 145).  The first argument bounds the
number of places passed; `workq_server_locked_total` shows that 3 are enough. -/
def workq_server_locked : Nat → Pt → workq_t → Heap → Env → List Event → Res
  | 0, _, _, _, _, _ => .fuel
  | n + 1, .inner, wq, h, env, evs =>
    if wq.first = none ∧ wq.quit = 0 then
      .ok ⟨wq, h, .server_waiting, false, evs ++ [.cond_timedwait]⟩
    else
      workq_server_locked n (.take false) wq h env evs
  | n + 1, .take t, wq, h, env, evs =>
    match wq.first with
    | some we =>
      match h we with
      | none => .ub
      | some e =>
        let wq1 := { wq with first := e.next }
        let wq2 := if wq1.last = some we then { wq1 with last := none } else wq1
        if env.unlock ≠ 0 then
          .ok ⟨wq2, h, .server_done, false,
            evs ++ [.unlink e.data, .mutex_unlock env.unlock]⟩
        else
          .ok ⟨wq2, h, .server_dequeued we t, false,
            evs ++ [.unlink e.data, .mutex_unlock 0]⟩
    | none => workq_server_locked n (.tests t) wq h env evs
  | n + 1, .tests t, wq, h, env, evs =>
    if wq.first = none ∧ wq.quit ≠ 0 then
      let wq1 := { wq with counter := wq.counter - 1 }
      if wq1.counter = 0 then
        .ok ⟨wq1, h, .server_done, false,
          evs ++ [.cond_broadcast env.broadcast, .mutex_unlock env.unlock]⟩
      else
        .ok ⟨wq1, h, .server_done, false, evs ++ [.mutex_unlock env.unlock]⟩
    else if wq.first = none ∧ t = true then
      .ok ⟨{ wq with counter := wq.counter - 1 }, h, .server_done, false,
        evs ++ [.mutex_unlock env.unlock]⟩
    else
      workq_server_locked n .inner wq h env evs

/-- Fuel that is enough for any run of `workq_server_locked`. -/
def workq_server_fuel : Nat := 4

/-- First step of a server: the lock of line 47 and what follows. -/
def workq_server_begin (wq : workq_t) (h : Heap) (env : Env) : Res :=
  if env.lock ≠ 0 then
    .ok ⟨wq, h, .server_done, false, [.mutex_lock env.lock]⟩
  else
    workq_server_locked workq_server_fuel .inner wq h env [.mutex_lock 0]

/-- Return of `pthread_cond_timedwait` with status `env.wait` (workq.c:62-90)
and what follows. -/
def workq_server_wake (wq : workq_t) (h : Heap) (env : Env) : Res :=
  if env.wait = ETIMEDOUT then
    workq_server_locked workq_server_fuel (.take true) wq h env [.cond_wake env.wait]
  else if env.wait ≠ 0 then
    .ok ⟨{ wq with counter := wq.counter - 1 }, h, .server_done, false,
      [.cond_wake env.wait, .mutex_unlock env.unlock]⟩
  else
    workq_server_locked workq_server_fuel .inner wq h env [.cond_wake 0]

/-- The call `wq->engine (we->data)` (workq.c:103). -/
def workq_server_call (wq : workq_t) (h : Heap) (we : Nat) (t : Bool) : Res :=
  match h we with
  | none => .ub
  | some e => .ok ⟨wq, h, .server_engine we t, false, [.engine wq.engine e.data]⟩

/-- Return of the engine, `free (we)`, the lock of line 105 and what follows. -/
def workq_server_resume (wq : workq_t) (h : Heap) (we : Nat) (t : Bool) (env : Env) : Res :=
  match h we with
  | none => .ub
  | some _ =>
    let h1 := Function.update h we none
    if env.lock ≠ 0 then
      .ok ⟨wq, h1, .server_done, false, [.engine_ret, .free we, .mutex_lock env.lock]⟩
    else
      workq_server_locked workq_server_fuel (.tests t) wq h1 env
        [.engine_ret, .free we, .mutex_lock 0]

/-! ## workq_add -/

/-- The function `workq_add` up to line 266: the test of `valid`, `malloc` (which returns
`m`) and the initialisation of the item. -/
def workq_add_entry (wq : workq_t) (h : Heap) (element : Nat) (m : Option Nat) :
    Thread × Heap × List Event :=
  if wq.valid ≠ WORKQ_VALID then
    (.add_done EINVAL, h, [])
  else
    match m with
    | none => (.add_done ENOMEM, h, [.malloc none])
    | some item =>
      (.add_locking item element,
       Function.update h item (some ⟨none, element⟩), [.malloc (some item)])

/-- The enqueue of `workq_add` (workq.c:277-281): `none` when `wq->last` is
dereferenced and is `NULL` or not allocated. -/
def workq_add_link (wq : workq_t) (h : Heap) (item : Nat) : Option (workq_t × Heap) :=
  match wq.first with
  | none => some ({ wq with first := some item, last := some item }, h)
  | some _ =>
    match wq.last with
    | none => none
    | some l =>
      match h l with
      | none => none
      | some e =>
        some ({ wq with last := some item },
              Function.update h l (some { e with next := some item }))

/-- The function `workq_add` from the lock of line 267 to its return (workq.c:267-307). -/
def workq_add_locked (wq : workq_t) (h : Heap) (item element : Nat) (env : Env) : Res :=
  if env.lock ≠ 0 then
    .ok ⟨wq, Function.update h item none, .add_done env.lock, false,
      [.mutex_lock env.lock, .free item]⟩
  else
    match workq_add_link wq h item with
    | none => .ub
    | some (wq1, h1) =>
      if wq1.idle > 0 then
        if env.signal ≠ 0 then
          .ok ⟨wq1, h1, .add_done env.signal, false,
            [.mutex_lock 0, .link element, .cond_signal env.signal,
             .mutex_unlock env.unlock]⟩
        else
          .ok ⟨wq1, h1, .add_done 0, false,
            [.mutex_lock 0, .link element, .cond_signal 0, .mutex_unlock env.unlock]⟩
      else if wq1.counter < wq1.parallelism then
        if env.create ≠ 0 then
          .ok ⟨wq1, h1, .add_done env.create, false,
            [.mutex_lock 0, .link element, .create env.create,
             .mutex_unlock env.unlock]⟩
        else
          .ok ⟨{ wq1 with counter := wq1.counter + 1 }, h1, .add_done 0, true,
            [.mutex_lock 0, .link element, .create 0, .mutex_unlock env.unlock]⟩
      else
        .ok ⟨wq1, h1, .add_done 0, false,
          [.mutex_lock 0, .link element, .mutex_unlock env.unlock]⟩

/-- The function `workq_add` run without any other thread stepping in between: its two
parts one after the other. -/
def workq_add (wq : workq_t) (h : Heap) (element : Nat) (m : Option Nat) (env : Env) : Res :=
  match workq_add_entry wq h element m with
  | (.add_locking item el, h1, evs) =>
    match workq_add_locked wq h1 item el env with
    | .ok o => .ok { o with events := evs ++ o.events }
    | r => r
  | (t, h1, evs) => .ok ⟨wq, h1, t, false, evs⟩

/-! ## workq_destroy -/

/-- The test of line 194. -/
def workq_destroy_entry (wq : workq_t) : Thread :=
  if wq.valid ≠ WORKQ_VALID then .destroy_done EINVAL else .destroy_locking

/-- The unlock of line 238. -/
def workq_destroy_release (wq : workq_t) (h : Heap) (env : Env) (evs : List Event) : Res :=
  if env.unlock ≠ 0 then
    .ok ⟨wq, h, .destroy_done env.unlock, false, evs ++ [.mutex_unlock env.unlock]⟩
  else
    .ok ⟨wq, h, .destroy_unlocked, false, evs ++ [.mutex_unlock 0]⟩

/-- The test of the `while` of line 230: wait, or leave the loop.  It is reached
from line 219 and from every successful return of the wait; in both cases
`counter > 0` was tested (line 210) with the mutex held since. -/
def workq_destroy_while (wq : workq_t) (h : Heap) (env : Env) (evs : List Event) : Res :=
  if wq.counter > 0 then
    .ok ⟨wq, h, .destroy_waiting, false, evs ++ [.cond_wait]⟩
  else
    workq_destroy_release wq h env evs

/-- The function `workq_destroy` from the lock of line 196 until it lets the mutex go
(workq.c:196-240). -/
def workq_destroy_locked (wq : workq_t) (h : Heap) (env : Env) : Res :=
  if env.lock ≠ 0 then
    .ok ⟨wq, h, .destroy_done env.lock, false, [.mutex_lock env.lock]⟩
  else
    let wq1 := { wq with valid := 0 }
    if wq1.counter > 0 then
      let wq2 := { wq1 with quit := 1 }
      if wq2.idle > 0 then
        if env.broadcast ≠ 0 then
          .ok ⟨wq2, h, .destroy_done env.broadcast, false,
            [.mutex_lock 0, .cond_broadcast env.broadcast, .mutex_unlock env.unlock]⟩
        else
          workq_destroy_while wq2 h env [.mutex_lock 0, .cond_broadcast 0]
      else
        workq_destroy_while wq2 h env [.mutex_lock 0]
    else
      workq_destroy_release wq1 h env [.mutex_lock 0]

/-- Return of `pthread_cond_wait` with status `env.wait` (workq.c:231-236) and
what follows. -/
def workq_destroy_wake (wq : workq_t) (h : Heap) (env : Env) : Res :=
  if env.wait ≠ 0 then
    .ok ⟨wq, h, .destroy_done env.wait, false,
      [.cond_wake env.wait, .mutex_unlock env.unlock]⟩
  else
    workq_destroy_while wq h env [.cond_wake 0]

/-- Lines 241-244. -/
def workq_destroy_final (wq : workq_t) (h : Heap) (env : Env) : Res :=
  .ok ⟨wq, h,
    .destroy_done
      (if env.mutex_destroy ≠ 0 then env.mutex_destroy
       else if env.cond_destroy ≠ 0 then env.cond_destroy else env.attr_destroy),
    false,
    [.mutex_destroy env.mutex_destroy, .cond_destroy env.cond_destroy,
     .attr_destroy env.attr_destroy]⟩

/-! ## The threads together -/

/-- The queue, the heap and the threads that use them. -/
structure Sys where
  wq : workq_t
  heap : Heap
  pool : List Thread
  trace : List (Nat × Event)
  ub : Bool

/-- What the scheduler and the environment decide. -/
inductive Label
  /-- A caller enters `workq_add (wq, element)`; `malloc` returns `m`. -/
  | call_add (element : Nat) (m : Option Nat)
  /-- A caller enters `workq_destroy (wq)`. -/
  | call_destroy
  /-- Thread `tid` takes its next step; the primitives return what `env` says. -/
  | run (tid : Nat) (env : Env)

/-- The state right after `workq_init` left `wq`. -/
def Sys.start (wq : workq_t) : Sys :=
  ⟨wq, Heap.empty, [], [], false⟩

/-- Record the outcome of a step of thread `tid`. -/
def Sys.apply (s : Sys) (tid : Nat) : Res → Sys
  | .ok o =>
    { wq := o.wq, heap := o.heap,
      pool := s.pool.set tid o.next ++ (if o.spawn then [Thread.server_start] else []),
      trace := s.trace ++ o.events.map (fun e => (tid, e)),
      ub := s.ub }
  | _ => { s with ub := true }

/-- The step of a thread that stands at `th`. -/
def thread_step (wq : workq_t) (h : Heap) (env : Env) : Thread → Option Res
  | .add_locking item el => some (workq_add_locked wq h item el env)
  | .destroy_locking => some (workq_destroy_locked wq h env)
  | .destroy_waiting => some (workq_destroy_wake wq h env)
  | .destroy_unlocked => some (workq_destroy_final wq h env)
  | .server_start => some (workq_server_begin wq h env)
  | .server_waiting => some (workq_server_wake wq h env)
  | .server_dequeued we t => some (workq_server_call wq h we t)
  | .server_engine we t => some (workq_server_resume wq h we t env)
  | .add_done _ => none
  | .destroy_done _ => none
  | .server_done => none

/-- One step of the whole.  A label that cannot happen (`malloc` returning a
block that is in use, a thread that does not exist or has returned) leaves the
state as it is. -/
def step (s : Sys) : Label → Sys
  | .call_add element m =>
    match m.bind s.heap with
    | some _ => s
    | none =>
      let r := workq_add_entry s.wq s.heap element m
      { s with
        heap := r.2.1, pool := s.pool ++ [r.1],
        trace := s.trace ++ r.2.2.map (fun e => (s.pool.length, e)) }
  | .call_destroy =>
    { s with pool := s.pool ++ [workq_destroy_entry s.wq] }
  | .run tid env =>
    match s.pool.get? tid with
    | none => s
    | some th =>
      match thread_step s.wq s.heap env th with
      | none => s
      | some r => s.apply tid r

/-- Run a schedule. -/
def exec (s : Sys) (ls : List Label) : Sys :=
  ls.foldl step s

/-! ## Observations -/

/-- The thread is a server that has not returned. -/
def Thread.live : Thread → Bool
  | .server_start => true
  | .server_waiting => true
  | .server_dequeued _ _ => true
  | .server_engine _ _ => true
  | _ => false

/-- The thread is a server between unlinking an item and the return of the
engine it calls on it. -/
def Thread.busy : Thread → Bool
  | .server_dequeued _ _ => true
  | .server_engine _ _ => true
  | _ => false

/-- The thread is a server inside the engine. -/
def Thread.in_engine : Thread → Bool
  | .server_engine _ _ => true
  | _ => false

/-- Payloads linked into the queue, in the order of linking. -/
def linked (tr : List (Nat × Event)) : List Nat :=
  tr.filterMap fun e => match e.2 with | .link d => some d | _ => none

/-- Payloads unlinked from the queue, in the order of unlinking. -/
def taken (tr : List (Nat × Event)) : List Nat :=
  tr.filterMap fun e => match e.2 with | .unlink d => some d | _ => none

/-- Payloads given to the engine, in the order of the calls. -/
def engined (tr : List (Nat × Event)) : List Nat :=
  tr.filterMap fun e => match e.2 with | .engine _ d => some d | _ => none

/-- The entries at the addresses of `q`, holding the payloads of `q`, are linked
from `p` on, each to the next, the last to `NULL`. -/
def Chain (h : Heap) : Option Nat → List (Nat × Nat) → Prop
  | p, [] => p = none
  | p, (a, d) :: q => p = some a ∧ ∃ nxt, h a = some ⟨nxt, d⟩ ∧ Chain h nxt q

/-- Follow at most `n` links from `p` and collect the payloads; `none` when a
link leaves the heap or `n` links do not reach `NULL`. -/
def payloads (h : Heap) : Nat → Option Nat → Option (List Nat)
  | _, none => some []
  | 0, some _ => none
  | n + 1, some a =>
    match h a with
    | none => none
    | some e => (payloads h n e.next).map (e.data :: ·)

/-! ## Quantities used by the invariants -/

/-- One for a server that has not returned, 0 for any other thread. -/
def Thread.liveN (t : Thread) : Int := if t.live then 1 else 0

/-- One for a server between unlinking an item and the return of its engine. -/
def Thread.busyN (t : Thread) : Int := if t.busy then 1 else 0

/-- Number of servers that have not returned. -/
def lives (pool : List Thread) : Int := (pool.map Thread.liveN).sum

/-- Number of servers between unlinking an item and the return of its engine. -/
def busies (pool : List Thread) : Int := (pool.map Thread.busyN).sum

/-- The invariant of the counters for a queue of bound `N`. -/
def NumInv (N : Int) (s : Sys) : Prop :=
  s.wq.parallelism = N ∧ s.wq.idle = 0 ∧ lives s.pool ≤ s.wq.counter ∧
  s.wq.counter ≤ max N 0

/-- Payloads linked by the events `es`. -/
def links (es : List Event) : List Nat :=
  es.filterMap fun e => match e with | .link d => some d | _ => none

/-- Payloads unlinked by the events `es`. -/
def unlinks (es : List Event) : List Nat :=
  es.filterMap fun e => match e with | .unlink d => some d | _ => none

/-- Payloads given to the engine by the events `es`. -/
def calls (es : List Event) : List Nat :=
  es.filterMap fun e => match e with | .engine _ d => some d | _ => none

/-- The state reached from a queue that `workq_init` has just left, after the
schedule `ls`. -/
def after_init (wq0 : workq_t) (N : Int) (engine : Nat) (env : Env) (ls : List Label) : Sys :=
  exec (Sys.start (workq_init wq0 N engine env).2.1) ls

/-- Addresses of queue entries that a thread holds outside the queue. -/
def Thread.held : Thread → Multiset Nat
  | .add_locking item _ => {item}
  | .server_dequeued we _ => {we}
  | .server_engine we _ => {we}
  | _ => 0

/-- All entries held by the threads of a pool. -/
def holds (pool : List Thread) : Multiset Nat := (pool.map Thread.held).sum

/-- What the heap must hold for a thread: the item `workq_add` has filled in,
the entry a server has unlinked. -/
def Owns (h : Heap) : Thread → Prop
  | .add_locking item el => h item = some ⟨none, el⟩
  | .server_dequeued we _ => ∃ e, h we = some e
  | .server_engine we _ => ∃ e, h we = some e
  | _ => True

/-- The payload a server has unlinked and not yet given to the engine. -/
def pend (h : Heap) : Thread → Multiset Nat
  | .server_dequeued we _ =>
    match h we with
    | some e => {e.data}
    | none => 0
  | _ => 0

/-- Payloads unlinked and not yet given to the engine. -/
def pends (h : Heap) (pool : List Thread) : Multiset Nat := (pool.map (pend h)).sum

/-- What a step does to the payloads on their way to the engine: nothing, or it
unlinks one (which is then pending, unless the unlock of line 99 failed), or
it gives a pending one to the engine. -/
def Deliv (h : Heap) (th : Thread) (env : Env) (o : Out) : Prop :=
  (unlinks o.events = [] ∧ calls o.events = [] ∧ pend o.heap o.next = pend h th) ∨
  (∃ d, th.live = true ∧ unlinks o.events = [d] ∧ calls o.events = [] ∧ pend h th = 0 ∧
    (pend o.heap o.next = {d} ∨ (pend o.heap o.next = 0 ∧ env.unlock ≠ 0))) ∨
  (∃ d, th.live = true ∧ unlinks o.events = [] ∧ calls o.events = [d] ∧
    pend h th = {d} ∧ pend o.heap o.next = 0)

/-- The invariant of the queue, of the heap and of the trace. -/
def HInv (wq : workq_t) (h : Heap) (tr : List (Nat × Event)) (pool : List Thread) : Prop :=
  ∃ q : List (Nat × Nat),
    Chain h wq.first q ∧
    wq.last = (q.map Prod.fst).getLast? ∧
    (((q.map Prod.fst : List Nat) : Multiset Nat) + holds pool).Nodup ∧
    (∀ t ∈ pool, Owns h t) ∧
    linked tr = taken tr ++ q.map Prod.snd ∧
    ((engined tr : Multiset Nat) + pends h pool ≤ (taken tr : Multiset Nat))

/-- No primitive fails: every status is 0, except that a timed wait may time
out. -/
def Env.clean (env : Env) : Prop :=
  env.lock = 0 ∧ env.unlock = 0 ∧ env.signal = 0 ∧ env.broadcast = 0 ∧ env.create = 0 ∧
  (env.wait = 0 ∨ env.wait = ETIMEDOUT)

instance : DecidablePred Env.clean := fun env => by
  unfold Env.clean
  infer_instance

/-- A label under which no primitive fails. -/
def Label.clean : Label → Prop
  | .run _ env => env.clean
  | _ => True

instance : DecidablePred Label.clean := fun l => by
  cases l <;> unfold Label.clean <;> infer_instance

/-- The invariant of the queue on a state. -/
def Sys.HInv (s : Sys) : Prop :=
  s.ub = false ∧ Workq.HInv s.wq s.heap s.trace s.pool

/-- The payloads given to the engine, followed by those under way, were unlinked
in that order. -/
def Ordered (s : Sys) : Prop :=
  ∃ pl : List Nat, (pl : Multiset Nat) = pends s.heap s.pool ∧
    List.Sublist (engined s.trace ++ pl) (taken s.trace)

/-- The thread is in `workq_destroy` past the statement that clears `valid`. -/
def Thread.past_lock : Thread → Bool
  | .destroy_waiting => true
  | .destroy_unlocked => true
  | _ => false

/-- The thread is inside `workq_add`, between the test of `valid` and the lock. -/
def Thread.adding : Thread → Bool
  | .add_locking _ _ => true
  | _ => false

/-- The field `valid` is `WORKQ_VALID` or 0, and it is 0 once a thread is past line 199. -/
def ValidInv (s : Sys) : Prop :=
  (s.wq.valid = WORKQ_VALID ∨ s.wq.valid = 0) ∧
  (s.wq.valid = WORKQ_VALID → ∀ t ∈ s.pool, t.past_lock = false)

/-- The state of a queue that has been run down with no `workq_add` under way:
nothing can move any more but calls of `workq_destroy`. -/
def Frozen (s : Sys) : Prop :=
  s.wq.valid ≠ WORKQ_VALID ∧ s.wq.counter = 0 ∧ lives s.pool ≤ 0 ∧
  ∀ t ∈ s.pool, t.adding = false

/-- The invariant of a schedule in which no primitive fails, for a bound `N`. -/
def CleanInv (N : Int) (s : Sys) : Prop :=
  lives s.pool = s.wq.counter ∧ (1 ≤ N → s.wq.first ≠ none → 0 < s.wq.counter) ∧
  (taken s.trace : Multiset Nat) = (engined s.trace : Multiset Nat) + pends s.heap s.pool

/-! ## Concrete runs -/

/-- An uninitialised `workq_t`: whatever was in memory. -/
def demo_wq : workq_t := ⟨some 7, some 9, 1, 1, 1, 1, 1, 1⟩

/-- An environment whose timed wait times out. -/
def Env.timeout : Env := { Env.ok with wait := ETIMEDOUT }

/-- An environment in which `pthread_cond_init` fails with status 5. -/
def Env.cond_fails : Env := { Env.ok with cond_init := 5 }

/-- One caller adds 1, 2 and 3 to a queue of bound 2 and then enters
`workq_destroy`, which waits; two servers work the queue off and return. -/
def sched_work : List Label :=
  [.call_add 1 (some 100), .run 0 Env.ok, .call_add 2 (some 101), .run 2 Env.ok,
   .call_add 3 (some 102), .run 4 Env.ok,
   .run 1 Env.ok, .run 3 Env.ok, .run 1 Env.ok, .run 1 Env.ok, .run 3 Env.ok,
   .call_destroy, .run 5 Env.ok, .run 1 Env.ok, .run 1 Env.ok, .run 1 Env.ok,
   .run 3 Env.ok, .run 3 Env.ok]

/-- One caller adds 1 and then 2 to a queue of bound 2; the first server unlinks
1, the second unlinks 2 and calls the engine before the first does. -/
def sched_swap : List Label :=
  [.call_add 1 (some 100), .run 0 Env.ok, .call_add 2 (some 101), .run 2 Env.ok,
   .run 1 Env.ok, .run 3 Env.ok, .run 3 Env.ok, .run 1 Env.ok]

/-- One caller adds 7 to a queue of bound 1; the server unlinks it and has not
yet called the engine. -/
def sched_limbo : List Label :=
  [.call_add 7 (some 100), .run 0 Env.ok, .run 1 Env.ok]

/-- One caller adds 7 to a queue of bound 1; the server unlinks it, its
`pthread_mutex_unlock` fails with status 1 and it returns. -/
def sched_drop : List Label :=
  [.call_add 7 (some 100), .run 0 Env.ok, .run 1 { Env.ok with unlock := 1 }]

/-- One caller adds 7 to a queue of bound 0 and then destroys it; nothing else
runs. -/
def sched_zero : List Label :=
  [.call_add 7 (some 100), .run 0 Env.ok, .call_destroy, .run 1 Env.ok, .run 1 Env.ok]

/-- A caller enters `workq_add` on a queue of bound 1 and passes the test of
`valid`; another caller runs `workq_destroy` up to its unlock; the first caller
then links its item and creates a server; `workq_destroy` returns. -/
def sched_late_add : List Label :=
  [.call_add 7 (some 100), .call_destroy, .run 1 Env.ok, .run 0 Env.ok, .run 1 Env.ok]

/-! ## The trace of one thread -/

/-- The events of thread `tid`, in order. -/
def thread_events (tid : Nat) (tr : List (Nat × Event)) : List Event :=
  (tr.filter fun e => e.1 == tid).map Prod.snd

/-- Statuses of the calls of `pthread_cond_broadcast` in a trace. -/
def broadcasts (tr : List (Nat × Event)) : List Int :=
  tr.filterMap fun e => match e.2 with | .cond_broadcast st => some st | _ => none

/-- Statuses of the calls of `pthread_cond_signal` in a trace. -/
def signals (tr : List (Nat × Event)) : List Int :=
  tr.filterMap fun e => match e.2 with | .cond_signal st => some st | _ => none

/-- Whether a thread holds the mutex after one more of its events: a successful
lock and the return from a condition wait take it, a successful unlock and the
entry into a condition wait let it go. -/
def mutex_after (held : Bool) : Event → Bool
  | .mutex_lock st => if st = 0 then true else held
  | .mutex_unlock st => if st = 0 then false else held
  | .cond_wait => false
  | .cond_timedwait => false
  | .cond_wake _ => true
  | _ => held

/-- Whether a thread holds the mutex after the events `es`. -/
def holds_mutex (es : List Event) : Bool :=
  es.foldl mutex_after false

/-- Every call of the engine in the events `es` of one thread comes right after
an unlinking and a successful unlock, and what follows it, if anything, starts
with the return of the engine, the `free` and the lock of line 105. -/
def Bracketed (es : List Event) : Prop :=
  ∀ pre post fn d, es = pre ++ .engine fn d :: post →
    (∃ pre1 d1, pre = pre1 ++ [.unlink d1, .mutex_unlock 0]) ∧
    (post = [] ∨ ∃ we st post1, post = .engine_ret :: .free we :: .mutex_lock st :: post1)

/-- How the events of a thread end, by where the thread stands: with the
unlinking and the successful unlock for a server about to call the engine,
and not with a call of the engine for a thread that is not inside it. -/
def Ends : Option Thread → List Event → Prop
  | some (.server_dequeued _ _), es => ∃ pre d, es = pre ++ [.unlink d, .mutex_unlock 0]
  | some (.server_engine _ _), _ => True
  | _, es => ∀ pre fn d, es ≠ pre ++ [.engine fn d]

/-- The invariant of the calls of the engine. -/
def CallInv (s : Sys) : Prop :=
  ∀ tid, Bracketed (thread_events tid s.trace) ∧
    Ends (s.pool.get? tid) (thread_events tid s.trace)

/-! ## More concrete runs -/

/-- One `workq_add`, and the server it creates unlinks the item (bound at least
1). -/
def sched_dequeue : List Label :=
  [.call_add 7 (some 100), .run 0 Env.ok, .run 1 Env.ok]

/-- One `workq_add`; the server it creates is inside the engine when
`workq_destroy` is called and takes the mutex (bound at least 1). -/
def sched_busy_destroy : List Label :=
  sched_dequeue ++ [.run 1 Env.ok, .call_destroy, .run 2 Env.ok]

/-- An empty valid queue of bound 1 with no server. -/
def demo_empty : workq_t := ⟨none, none, WORKQ_VALID, 0, 1, 0, 0, 5⟩

/-- An environment in which `pthread_create` fails with status 11. -/
def Env.create_fails : Env := { Env.ok with create := 11 }

/-- One caller adds 1 and then 2 to a queue of bound 2; no server has run yet. -/
def sched_two_adds : List Label :=
  [.call_add 1 (some 100), .run 0 Env.ok, .call_add 2 (some 101), .run 2 Env.ok]

/-- One caller adds 7; the server that is created works it off and goes to
sleep in the timed wait. -/
def sched_sleep : List Label :=
  [.call_add 7 (some 100), .run 0 Env.ok, .run 1 Env.ok, .run 1 Env.ok, .run 1 Env.ok]

/-- After `sched_sleep`, a caller adds 8 while the server sleeps. -/
def sched_sleep_add : List Label :=
  sched_sleep ++ [.call_add 8 (some 101), .run 2 Env.ok]

/-- After `sched_sleep`, a caller enters `workq_destroy`, which takes the mutex
and waits. -/
def sched_sleep_destroy : List Label :=
  sched_sleep ++ [.call_destroy, .run 2 Env.ok]

/-- One caller adds 7 and `pthread_create` fails; the caller then destroys the
queue. -/
def sched_no_server : List Label :=
  [.call_add 7 (some 100), .run 0 Env.create_fails, .call_destroy, .run 1 Env.ok,
   .run 1 Env.ok]

/-- One `workq_add (el)`, whose item `malloc` puts at `a`, and the locked part
of the call. -/
def sched_first_add (el a : Nat) : List Label :=
  [.call_add el (some a), .run 0 Env.ok]

/-- The server created by the first `workq_add` unlinks the item, calls the
engine, and after the return of the engine finds the queue empty and waits. -/
def sched_serve : List Label :=
  [.run 1 Env.ok, .run 1 Env.ok, .run 1 Env.ok]

/-- The timed wait of the server expires. -/
def sched_expire : List Label :=
  [.run 1 Env.timeout]

/-- A second `workq_add (el)`, whose item `malloc` puts at `b`. -/
def sched_second_add (el b : Nat) : List Label :=
  [.call_add el (some b), .run 2 Env.ok]

/-! ## The exits of a server -/

/-- The value of `timedout` at a place of the loop of the server. -/
def Pt.timedout : Pt → Bool
  | .inner => false
  | .take t => t
  | .tests t => t

/-- The value of `timedout` with which the server reaches line 93 from a place
of the loop when the queue is not empty. -/
def Pt.carried : Pt → Bool
  | .take t => t
  | _ => false

/-- What the Draining exit (workq.c:114-131) leaves: `counter` one less, a
broadcast if that is 0, the unlock, the return. -/
def draining (wq : workq_t) (h : Heap) (env : Env) (evs : List Event) : Out :=
  ⟨{ wq with counter := wq.counter - 1 }, h, .server_done, false,
    evs ++ (if wq.counter - 1 = 0 then
      [.cond_broadcast env.broadcast, .mutex_unlock env.unlock]
    else [.mutex_unlock env.unlock])⟩

/-- What the Retiring exit (workq.c:138-147) leaves: `counter` one less, the
unlock, the return. -/
def retiring (wq : workq_t) (h : Heap) (env : Env) (evs : List Event) : Out :=
  ⟨{ wq with counter := wq.counter - 1 }, h, .server_done, false,
    evs ++ [.mutex_unlock env.unlock]⟩

/-- The thread is a server, returned or not. -/
def Thread.server : Thread → Bool
  | .server_start => true
  | .server_waiting => true
  | .server_dequeued _ _ => true
  | .server_engine _ _ => true
  | .server_done => true
  | _ => false

/-- Statuses of the calls of `pthread_create` in a trace. -/
def creates (tr : List (Nat × Event)) : List Int :=
  tr.filterMap fun e => match e.2 with | .create st => some st | _ => none

/-- The invariant of the field `idle`: it is 0, no `pthread_cond_signal` has
been called, and every `pthread_cond_broadcast` was called by a server. -/
def IdleInv (s : Sys) : Prop :=
  s.wq.idle = 0 ∧ signals s.trace = [] ∧
  ∀ tid st, (tid, Event.cond_broadcast st) ∈ s.trace →
    ∃ th, s.pool.get? tid = some th ∧ th.server = true

/-- While a call of `workq_destroy` waits for the servers, `quit` is set. -/
def RundownInv (s : Sys) : Prop :=
  (∃ tid, s.pool.get? tid = some .destroy_waiting) → s.wq.quit ≠ 0

/-- The timed wait does not fail: it returns 0 or `ETIMEDOUT`. -/
def Env.wait_ok (env : Env) : Prop :=
  env.wait = 0 ∨ env.wait = ETIMEDOUT

instance : DecidablePred Env.wait_ok := fun env => by
  unfold Env.wait_ok
  infer_instance

/-- A label under which the timed wait does not fail. -/
def Label.wait_ok : Label → Prop
  | .run _ env => env.wait_ok
  | _ => True

instance : DecidablePred Label.wait_ok := fun l => by
  cases l <;> unfold Label.wait_ok <;> infer_instance

/-- A call of `workq_add` has returned a status other than 0. -/
def add_failed (pool : List Thread) : Prop :=
  ∃ st, st ≠ 0 ∧ Thread.add_done st ∈ pool

/-- No item is stranded, unless a `workq_add` has failed. -/
def StrandInv (s : Sys) : Prop :=
  add_failed s.pool ∨ (s.wq.first ≠ none → 0 < s.wq.counter)

/-- The invariant of a queue whose bound is not positive: no server, no call of
`pthread_create`, nothing unlinked, nothing given to the engine. -/
def ZeroInv (s : Sys) : Prop :=
  s.wq.counter = 0 ∧ s.wq.idle = 0 ∧ s.wq.parallelism ≤ 0 ∧
  (∀ t ∈ s.pool, t.server = false) ∧
  creates s.trace = [] ∧ taken s.trace = [] ∧ engined s.trace = []

/-! ## The statuses a call of `workq_destroy` has seen -/

/-- The status a primitive has returned, 0 for an event that has none. -/
def Event.status : Event → Int
  | .attr_init st => st
  | .attr_setdetachstate st => st
  | .attr_destroy st => st
  | .mutex_init st => st
  | .mutex_destroy st => st
  | .mutex_lock st => st
  | .mutex_unlock st => st
  | .cond_init st => st
  | .cond_destroy st => st
  | .cond_signal st => st
  | .cond_broadcast st => st
  | .cond_wake st => st
  | .create st => st
  | _ => 0

/-- The events of a call of `workq_destroy` that has taken the mutex and has
seen no primitive fail. -/
def Rundown (es : List Event) : Prop :=
  (∃ tl, es = .mutex_lock 0 :: tl) ∧ ∀ ev ∈ es, ev.status = 0

/-- What the events of a thread are, by where the thread stands in
`workq_destroy`: none before the lock; after it only successful calls, the
last of them the unlock of line 238 once the rundown is over, followed by the
three destroy calls once the call has returned 0. -/
def DestroyEnds : Option Thread → List Event → Prop
  | none, es => es = []
  | some .destroy_locking, es => es = []
  | some .destroy_waiting, es => Rundown es
  | some .destroy_unlocked, es => Rundown es ∧ ∃ pre, es = pre ++ [.mutex_unlock 0]
  | some (.destroy_done st), es =>
    st = 0 → Rundown es ∧
      ∃ pre, es = pre ++ [.mutex_unlock 0, .mutex_destroy 0, .cond_destroy 0,
        .attr_destroy 0]
  | _, _ => True

/-- The invariant of the calls of `workq_destroy`. -/
def DestroyInv (s : Sys) : Prop :=
  ∀ tid, DestroyEnds (s.pool.get? tid) (thread_events tid s.trace)

/-- The thread is a server whose next step takes the mutex, or has it back from
the wait, and enters the loop. -/
def Thread.entering : Thread → Bool
  | .server_start => true
  | .server_waiting => true
  | .server_engine _ _ => true
  | _ => false

/-- The run `sched_work` followed by the last two steps of its call of
`workq_destroy`, which returns 0. -/
def sched_work_done : List Label :=
  sched_work ++ [.run 5 Env.ok, .run 5 Env.ok]

/-- Two items are added to a queue of bound 1 and `workq_destroy` is called
before the server has run: `quit` is set with both items in the queue. -/
def sched_backlog : List Label :=
  [.call_add 1 (some 100), .run 0 Env.ok, .call_add 2 (some 101), .run 2 Env.ok,
   .call_destroy, .run 3 Env.ok]

/-! ## Environments in which a primitive fails -/

/-- An environment in which `pthread_mutex_lock` fails with status 22. -/
def Env.lock_fails : Env := { Env.ok with lock := 22 }

/-- An environment in which the wait on the condition variable fails with
status 22. -/
def Env.wait_fails : Env := { Env.ok with wait := 22 }

/-- A queue in rundown: empty, `quit` set, one server left. -/
def demo_quit : workq_t := ⟨none, none, 0, 1, 1, 1, 0, 5⟩

/-- One `workq_add` on a queue of bound at least 1; the lock of the server it
creates fails and the server returns. -/
def sched_lock_fails : List Label :=
  [.call_add 7 (some 100), .run 0 Env.ok, .run 1 Env.lock_fails]

/-- After `sched_sleep_destroy` (the server sleeps, `workq_destroy` has set `quit`
and waits), the timed wait of the server fails. -/
def sched_rundown_wait_fails : List Label :=
  sched_sleep_destroy ++ [.run 1 Env.wait_fails]

/-- After `sched_sleep_add` on a queue of bound 1 (the server sleeps, a second
item has been linked), the timed wait of the server fails. -/
def sched_strand : List Label :=
  sched_sleep_add ++ [.run 1 Env.wait_fails]

/-! ## Sums over the pool -/

theorem sum_map_set {M : Type} [AddCommMonoid M] (f : Thread → M) :
    ∀ (l : List Thread) (i : Nat) (t th : Thread), l.get? i = some th →
      ((l.set i t).map f).sum + f th = (l.map f).sum + f t := by
  intro l
  induction l with
  | nil => intro i t th hi; simp at hi
  | cons a l ih =>
    intro i t th hi
    cases i with
    | zero =>
      simp at hi
      subst hi
      simp only [List.set, List.map_cons, List.sum_cons]
      abel
    | succ i =>
      have hi2 : l.get? i = some th := by simpa using hi
      have := ih i t th hi2
      simp only [List.set, List.map_cons, List.sum_cons, add_assoc, this]

/-! ## What a step does to the counters -/

theorem workq_server_locked_num (h : Heap) (env : Env) :
    ∀ (n : Nat) (p : Pt) (wq : workq_t) (evs : List Event) (o : Out),
      workq_server_locked n p wq h env evs = .ok o →
      o.wq.parallelism = wq.parallelism ∧ o.wq.idle = wq.idle ∧ o.wq.engine = wq.engine ∧
      o.wq.valid = wq.valid ∧ o.wq.quit = wq.quit ∧ o.spawn = false ∧ o.heap = h ∧
      (o.wq.counter = wq.counter ∧ o.next.live = true ∨
       o.next = .server_done ∧
         (o.wq.counter = wq.counter - 1 ∨ o.wq.counter = wq.counter)) := by
  intro n
  induction n with
  | zero => intro p wq evs o hr; simp [workq_server_locked] at hr
  | succ n ih =>
    intro p wq evs o hr
    cases p with
    | inner =>
      simp only [workq_server_locked] at hr
      split at hr
      · cases hr; simp [Thread.live]
      · exact ih _ _ _ _ hr
    | take t =>
      simp only [workq_server_locked] at hr
      split at hr
      · split at hr
        · cases hr
        · split at hr <;> cases hr <;> simp [Thread.live] <;> split <;> simp
      · exact ih _ _ _ _ hr
    | tests t =>
      simp only [workq_server_locked] at hr
      split at hr
      · split at hr <;> cases hr <;> simp
      · split at hr
        · cases hr; simp
        · exact ih _ _ _ _ hr

theorem add_link_fields (wq : workq_t) (h : Heap) (item : Nat) (wq1 : workq_t) (h1 : Heap)
    (hl : workq_add_link wq h item = some (wq1, h1)) :
    wq1.parallelism = wq.parallelism ∧ wq1.idle = wq.idle ∧ wq1.engine = wq.engine ∧
    wq1.valid = wq.valid ∧ wq1.counter = wq.counter ∧ wq1.quit = wq.quit := by
  unfold workq_add_link at hl
  revert hl
  split
  · intro hl; cases hl; simp
  · split
    · intro hl; cases hl
    · split
      · intro hl; cases hl
      · intro hl; cases hl; simp

theorem server_step_num (h : Heap) (env : Env) (n : Nat) (p : Pt) (wq : workq_t)
    (evs : List Event) (o : Out) (th : Thread)
    (hr : workq_server_locked n p wq h env evs = .ok o) (hth : th.liveN = 1) :
    o.wq.parallelism = wq.parallelism ∧ o.wq.idle = wq.idle ∧ o.wq.engine = wq.engine ∧
    (o.wq.valid = wq.valid ∨ o.wq.valid = 0) ∧
    o.next.liveN + (if o.spawn then 1 else 0) + wq.counter ≤ th.liveN + o.wq.counter ∧
    (o.wq.counter ≤ wq.counter ∨
      (wq.counter < wq.parallelism ∧ o.wq.counter = wq.counter + 1)) := by
  obtain ⟨h1, h2, h3, h4, -, h5, -, h6⟩ := workq_server_locked_num _ _ _ _ _ _ _ hr
  refine ⟨h1, h2, h3, Or.inl h4, ?_, ?_⟩
  · rw [h5, hth]
    rcases h6 with ⟨h6, h7⟩ | ⟨h6, h7 | h7⟩
    · simp [Thread.liveN, h7, h6]
    · simp [Thread.liveN, Thread.live, h7, h6]
    · simp [Thread.liveN, Thread.live, h7, h6]
  · rcases h6 with ⟨h6, h7⟩ | ⟨h6, h7 | h7⟩ <;> left <;> omega

theorem thread_step_num (wq : workq_t) (h : Heap) (env : Env) (th : Thread) (o : Out)
    (hr : thread_step wq h env th = some (.ok o)) :
    o.wq.parallelism = wq.parallelism ∧ o.wq.idle = wq.idle ∧ o.wq.engine = wq.engine ∧
    (o.wq.valid = wq.valid ∨ o.wq.valid = 0) ∧
    o.next.liveN + (if o.spawn then 1 else 0) + wq.counter ≤ th.liveN + o.wq.counter ∧
    (o.wq.counter ≤ wq.counter ∨
      (wq.counter < wq.parallelism ∧ o.wq.counter = wq.counter + 1)) := by
  cases th with
  | add_locking item el =>
    simp only [thread_step, workq_add_locked, Option.some.injEq] at hr
    split at hr
    · cases hr; simp [Thread.liveN, Thread.live]
    · split at hr
      · cases hr
      · rename_i wq1 h1 hl
        obtain ⟨h1, h2, h3, h4, h5, -⟩ := add_link_fields wq h item wq1 _ hl
        split at hr
        · split at hr <;> cases hr <;> simp [Thread.liveN, Thread.live, *]
        · split at hr
          · rename_i hlt
            split at hr <;> cases hr <;> simp [Thread.liveN, Thread.live, *]
            omega
          · cases hr; simp [Thread.liveN, Thread.live, *]
  | destroy_locking =>
    simp only [thread_step, workq_destroy_locked, workq_destroy_while, workq_destroy_release,
      Option.some.injEq] at hr
    repeat' split at hr
    all_goals cases hr
    all_goals simp [Thread.liveN, Thread.live]
  | destroy_waiting =>
    simp only [thread_step, workq_destroy_wake, workq_destroy_while, workq_destroy_release,
      Option.some.injEq] at hr
    repeat' split at hr
    all_goals cases hr
    all_goals simp [Thread.liveN, Thread.live]
  | destroy_unlocked =>
    simp only [thread_step, workq_destroy_final, Option.some.injEq] at hr
    cases hr
    simp [Thread.liveN, Thread.live]
  | server_start =>
    simp only [thread_step, workq_server_begin, Option.some.injEq] at hr
    split at hr
    · cases hr; simp [Thread.liveN, Thread.live]
    · exact server_step_num _ _ _ _ _ _ _ _ hr rfl
  | server_waiting =>
    simp only [thread_step, workq_server_wake, Option.some.injEq] at hr
    split at hr
    · exact server_step_num _ _ _ _ _ _ _ _ hr rfl
    · split at hr
      · cases hr; simp [Thread.liveN, Thread.live]
      · exact server_step_num _ _ _ _ _ _ _ _ hr rfl
  | server_dequeued we t =>
    simp only [thread_step, workq_server_call, Option.some.injEq] at hr
    split at hr
    · cases hr
    · cases hr; simp [Thread.liveN, Thread.live]
  | server_engine we t =>
    simp only [thread_step, workq_server_resume, Option.some.injEq] at hr
    split at hr
    · cases hr
    · split at hr
      · cases hr; simp [Thread.liveN, Thread.live]
      · exact server_step_num _ _ _ _ _ _ _ _ hr rfl
  | add_done st => simp [thread_step] at hr
  | destroy_done st => simp [thread_step] at hr
  | server_done => simp [thread_step] at hr

/-! ## Invariants of schedules -/

theorem exec_inv (P : Sys → Prop) (hstep : ∀ s l, P s → P (step s l)) :
    ∀ (ls : List Label) (s : Sys), P s → P (exec s ls) := by
  intro ls
  induction ls with
  | nil => intro s hs; exact hs
  | cons l ls ih => intro s hs; exact ih (step s l) (hstep s l hs)

theorem exec_append (s : Sys) (l1 l2 : List Label) :
    exec s (l1 ++ l2) = exec (exec s l1) l2 := by
  simp [exec, List.foldl_append]

theorem liveN_nonneg (t : Thread) : 0 ≤ t.liveN := by
  unfold Thread.liveN; split <;> simp

theorem busyN_le_liveN (t : Thread) : t.busyN ≤ t.liveN := by
  cases t <;> simp [Thread.busyN, Thread.liveN, Thread.busy, Thread.live]

theorem busies_le_lives (pool : List Thread) : busies pool ≤ lives pool := by
  induction pool with
  | nil => simp [busies, lives]
  | cons a l ih =>
    simp only [busies, lives, List.map_cons, List.sum_cons] at *
    have := busyN_le_liveN a
    omega

theorem busies_eq_countP (pool : List Thread) :
    busies pool = ((pool.countP Thread.busy : Nat) : Int) := by
  induction pool with
  | nil => simp [busies]
  | cons a l ih =>
    simp only [busies, List.map_cons, List.sum_cons, List.countP_cons] at *
    rw [ih]
    cases hb : a.busy <;> simp [Thread.busyN, hb]
    omega

theorem lives_append (p q : List Thread) : lives (p ++ q) = lives p + lives q := by
  simp [lives]

theorem lives_set (pool : List Thread) (i : Nat) (t th : Thread)
    (hi : pool.get? i = some th) :
    lives (pool.set i t) = lives pool + t.liveN - th.liveN := by
  have := sum_map_set Thread.liveN pool i t th hi
  simp only [lives]
  omega

/-- The step of a thread, seen from the whole: nothing happens, or the step is
undefined and only `ub` is raised, or thread `tid` standing at `th` produces `o`. -/
theorem step_run_cases (s : Sys) (tid : Nat) (env : Env) :
    step s (.run tid env) = s ∨
    step s (.run tid env) = { s with ub := true } ∨
    ∃ th o, s.pool.get? tid = some th ∧
      thread_step s.wq s.heap env th = some (.ok o) ∧
      step s (.run tid env) = s.apply tid (.ok o) := by
  cases hth : s.pool.get? tid with
  | none => left; simp only [step, hth]
  | some th =>
    cases hr : thread_step s.wq s.heap env th with
    | none => left; simp only [step, hth, hr]
    | some r =>
      cases r with
      | ok o => right; right; exact ⟨th, o, rfl, hr, by simp only [step, hth, hr]⟩
      | ub => right; left; simp only [step, hth, hr, Sys.apply]
      | fuel => right; left; simp only [step, hth, hr, Sys.apply]

theorem add_entry_liveN (wq : workq_t) (h : Heap) (el : Nat) (m : Option Nat) :
    (workq_add_entry wq h el m).1.liveN = 0 := by
  unfold workq_add_entry
  split
  · rfl
  · split <;> rfl

theorem destroy_entry_liveN (wq : workq_t) : (workq_destroy_entry wq).liveN = 0 := by
  unfold workq_destroy_entry
  split <;> rfl

theorem numInv_step (N : Int) (s : Sys) (l : Label) (hs : NumInv N s) :
    NumInv N (step s l) := by
  obtain ⟨h1, h2, h3, h4⟩ := hs
  cases l with
  | call_add el m =>
    simp only [step]
    split
    · exact ⟨h1, h2, h3, h4⟩
    · refine ⟨h1, h2, ?_, h4⟩
      simp only [lives_append]
      simp [lives, add_entry_liveN]
      exact h3
  | call_destroy =>
    refine ⟨h1, h2, ?_, h4⟩
    simp only [step, lives_append]
    simp [lives, destroy_entry_liveN]
    exact h3
  | run tid env =>
    rcases step_run_cases s tid env with he | he | ⟨th, o, hth, hr, he⟩
    · rw [he]; exact ⟨h1, h2, h3, h4⟩
    · rw [he]; exact ⟨h1, h2, h3, h4⟩
    · rw [he]
      obtain ⟨g1, g2, g3, g4, g5, g6⟩ := thread_step_num _ _ _ _ _ hr
      refine ⟨by simp [Sys.apply, g1, h1], by simp [Sys.apply, g2, h2], ?_, ?_⟩
      · simp only [Sys.apply, lives_append, lives_set _ _ _ _ hth]
        have e1 : lives ([] : List Thread) = 0 := rfl
        have e2 : lives [Thread.server_start] = 1 := rfl
        cases hsp : o.spawn
        · simp only [hsp, if_false, e1, Bool.false_eq_true] at g5 ⊢; omega
        · simp only [hsp, if_true, e2] at g5 ⊢; omega
      · simp only [Sys.apply]
        rcases g6 with g6 | ⟨g6, g7⟩
        · omega
        · have : s.wq.counter + 1 ≤ N := by omega
          rw [g7]
          exact le_trans this (le_max_left _ _)

theorem workq_init_ok (wq0 : workq_t) (N : Int) (engine : Nat) (env : Env)
    (hinit : (workq_init wq0 N engine env).1 = 0) :
    (workq_init wq0 N engine env).2.1 =
      { wq0 with quit := 0, first := none, last := none, parallelism := N,
                 counter := 0, idle := 0, engine := engine, valid := WORKQ_VALID } := by
  unfold workq_init at hinit ⊢
  split at hinit
  · simp_all
  · split at hinit
    · simp_all
    · split at hinit
      · simp_all
      · split at hinit
        · simp_all
        · simp [*]

theorem numInv_start (wq0 : workq_t) (N : Int) (engine : Nat) (env : Env)
    (hinit : (workq_init wq0 N engine env).1 = 0) :
    NumInv N (Sys.start (workq_init wq0 N engine env).2.1) := by
  rw [workq_init_ok _ _ _ _ hinit]
  simp [NumInv, Sys.start, lives]

theorem numInv_exec (wq0 : workq_t) (N : Int) (engine : Nat) (env : Env)
    (hinit : (workq_init wq0 N engine env).1 = 0) (ls : List Label) :
    NumInv N (after_init wq0 N engine env ls) :=
  exec_inv (NumInv N) (numInv_step N) ls _ (numInv_start wq0 N engine env hinit)

/-! ## Bounds on the counter and on the servers at work -/

theorem workq_server_locked_counter_le (h : Heap) (env : Env) (n : Nat) (p : Pt) (wq : workq_t)
    (evs : List Event) (o : Out) (hr : workq_server_locked n p wq h env evs = .ok o) :
    o.wq.counter ≤ wq.counter := by
  obtain ⟨-, -, -, -, -, -, -, h6⟩ := workq_server_locked_num _ _ _ _ _ _ _ hr
  rcases h6 with ⟨h6, -⟩ | ⟨-, h6 | h6⟩ <;> omega

theorem thread_step_counter_le (wq : workq_t) (h : Heap) (env : Env) (th : Thread) (o : Out)
    (hr : thread_step wq h env th = some (.ok o))
    (hth : ∀ item el, th ≠ .add_locking item el) :
    o.wq.counter ≤ wq.counter := by
  cases th with
  | add_locking item el => exact absurd rfl (hth item el)
  | destroy_locking =>
    simp only [thread_step, workq_destroy_locked, workq_destroy_while, workq_destroy_release,
      Option.some.injEq] at hr
    repeat' split at hr
    all_goals cases hr
    all_goals simp
  | destroy_waiting =>
    simp only [thread_step, workq_destroy_wake, workq_destroy_while, workq_destroy_release,
      Option.some.injEq] at hr
    repeat' split at hr
    all_goals cases hr
    all_goals simp
  | destroy_unlocked =>
    simp only [thread_step, workq_destroy_final, Option.some.injEq] at hr
    cases hr
    simp
  | server_start =>
    simp only [thread_step, workq_server_begin, Option.some.injEq] at hr
    split at hr
    · cases hr; simp
    · exact workq_server_locked_counter_le _ _ _ _ _ _ _ hr
  | server_waiting =>
    simp only [thread_step, workq_server_wake, Option.some.injEq] at hr
    split at hr
    · exact workq_server_locked_counter_le _ _ _ _ _ _ _ hr
    · split at hr
      · cases hr; simp
      · exact workq_server_locked_counter_le _ _ _ _ _ _ _ hr
  | server_dequeued we t =>
    simp only [thread_step, workq_server_call, Option.some.injEq] at hr
    split at hr
    · cases hr
    · cases hr; simp
  | server_engine we t =>
    simp only [thread_step, workq_server_resume, Option.some.injEq] at hr
    split at hr
    · cases hr
    · split at hr
      · cases hr; simp
      · exact workq_server_locked_counter_le _ _ _ _ _ _ _ hr
  | add_done st => simp [thread_step] at hr
  | destroy_done st => simp [thread_step] at hr
  | server_done => simp [thread_step] at hr

theorem step_counter (s : Sys) (l : Label) :
    (step s l).wq.counter ≤ s.wq.counter ∨
    ∃ tid env item el, l = .run tid env ∧ s.pool.get? tid = some (.add_locking item el) ∧
      s.wq.counter < s.wq.parallelism ∧ (step s l).wq.counter = s.wq.counter + 1 := by
  cases l with
  | call_add el m =>
    left
    simp only [step]
    split <;> simp
  | call_destroy => left; simp [step]
  | run tid env =>
    rcases step_run_cases s tid env with he | he | ⟨th, o, hth, hr, he⟩
    · left; rw [he]
    · left; rw [he]
    · rw [he]
      by_cases hadd : ∃ item el, th = .add_locking item el
      · obtain ⟨item, el, rfl⟩ := hadd
        obtain ⟨-, -, -, -, -, g6⟩ := thread_step_num _ _ _ _ _ hr
        rcases g6 with g6 | ⟨g6, g7⟩
        · left; exact g6
        · right; exact ⟨tid, env, item, el, rfl, hth, g6, g7⟩
      · left
        refine thread_step_counter_le _ _ _ _ _ hr ?_
        intro item el hc
        exact hadd ⟨item, el, hc⟩

theorem two_le_countP (p : Thread → Bool) :
    ∀ (l : List Thread) (i j : Nat) (a b : Thread), i < j →
      l.get? i = some a → l.get? j = some b → p a = true → p b = true →
      2 ≤ l.countP p := by
  intro l
  induction l with
  | nil => intro i j a b _ hi; simp at hi
  | cons x l ih =>
    intro i j a b hij hi hj ha hb
    cases j with
    | zero => omega
    | succ j =>
      have hj2 : l.get? j = some b := by simpa using hj
      cases i with
      | zero =>
        have hx : x = a := by simpa using hi
        subst hx
        have hmem : b ∈ l := List.get?_mem hj2
        have : 0 < l.countP p := List.countP_pos_iff.mpr ⟨b, hmem, hb⟩
        simp only [List.countP_cons, ha, if_true]
        omega
      | succ i =>
        have hi2 : l.get? i = some a := by simpa using hi
        have := ih i j a b (by omega) hi2 hj2 ha hb
        simp only [List.countP_cons]
        omega

theorem not_two_of_countP_le_one (p : Thread → Bool) (l : List Thread) (i j : Nat)
    (a b : Thread) (hc : l.countP p ≤ 1) (hij : i ≠ j)
    (hi : l.get? i = some a) (hj : l.get? j = some b) (ha : p a = true) (hb : p b = true) :
    False := by
  rcases Nat.lt_or_gt_of_ne hij with h | h
  · have := two_le_countP p l i j a b h hi hj ha hb; omega
  · have := two_le_countP p l j i b a h hj hi hb ha; omega

/-- C1: in every state reachable from a successful `workq_init (wq, N, engine)`
with `N >= 0`, `counter <= parallelism = N`; a step raises `counter` only if it
is the locked part of `workq_add`, taken with `counter < parallelism`, and then
by exactly one. -/
theorem C1_counter_le_parallelism (wq0 : workq_t) (N : Int) (engine : Nat) (env : Env)
    (hN : 0 ≤ N) (hinit : (workq_init wq0 N engine env).1 = 0)
    (ls : List Label) (l : Label) :
    (after_init wq0 N engine env ls).wq.counter ≤
      (after_init wq0 N engine env ls).wq.parallelism ∧
    (after_init wq0 N engine env ls).wq.parallelism = N ∧
    ((step (after_init wq0 N engine env ls) l).wq.counter ≤
        (after_init wq0 N engine env ls).wq.counter ∨
      ∃ tid env1 item el, l = .run tid env1 ∧
        (after_init wq0 N engine env ls).pool.get? tid =
          some (.add_locking item el) ∧
        (after_init wq0 N engine env ls).wq.counter <
          (after_init wq0 N engine env ls).wq.parallelism ∧
        (step (after_init wq0 N engine env ls) l).wq.counter =
          (after_init wq0 N engine env ls).wq.counter + 1) := by
  obtain ⟨h1, -, -, h4⟩ := numInv_exec wq0 N engine env hinit ls
  refine ⟨?_, h1, step_counter _ l⟩
  rw [h1]
  rwa [max_eq_left hN] at h4

/-- C2: in every state reachable from a successful `workq_init` with bound `N`,
the number of servers between unlinking an item and the return of the engine
is at most `N` (at most 0 when `N` is negative); with `N = 1` no two servers
are in that window together, so a second call of the engine does not begin
before the first has returned. -/
theorem C2_busy_le_bound (wq0 : workq_t) (N : Int) (engine : Nat) (env : Env)
    (hinit : (workq_init wq0 N engine env).1 = 0) (ls : List Label) :
    (((after_init wq0 N engine env ls).pool.countP Thread.busy : Nat)
      : Int) ≤ max N 0 ∧
    (N = 1 → ∀ (i j : Nat) (a b : Thread), i ≠ j →
      (after_init wq0 N engine env ls).pool.get? i = some a →
      (after_init wq0 N engine env ls).pool.get? j = some b →
      ¬ (a.busy = true ∧ b.busy = true)) := by
  obtain ⟨-, -, h3, h4⟩ := numInv_exec wq0 N engine env hinit ls
  have hb := busies_le_lives (after_init wq0 N engine env ls).pool
  rw [busies_eq_countP] at hb
  have hle : (((after_init wq0 N engine env ls).pool.countP
      Thread.busy : Nat) : Int) ≤ max N 0 := by omega
  refine ⟨hle, ?_⟩
  intro hN i j a b hij hi hj hab
  subst hN
  have h1 : (after_init wq0 1 engine env ls).pool.countP
      Thread.busy ≤ 1 := by
    simp at hle
    omega
  exact not_two_of_countP_le_one _ _ i j a b h1 hij hi hj hab.1 hab.2

/-! ## The linked queue -/

theorem chain_frame (h h1 : Heap) :
    ∀ (q : List (Nat × Nat)) (p : Option Nat),
      (∀ a ∈ q.map Prod.fst, h1 a = h a) → Chain h p q → Chain h1 p q := by
  intro q
  induction q with
  | nil => intro p _ hc; exact hc
  | cons x q ih =>
    intro p hs hc
    obtain ⟨a, d⟩ := x
    obtain ⟨hp, nxt, ha, hq⟩ := hc
    refine ⟨hp, nxt, ?_, ih nxt (fun b hb => hs b (by simp at hb ⊢; exact Or.inr hb)) hq⟩
    rw [hs a (by simp)]
    exact ha

theorem chain_alloc (h : Heap) :
    ∀ (q : List (Nat × Nat)) (p : Option Nat), Chain h p q →
      ∀ a ∈ q.map Prod.fst, h a ≠ none := by
  intro q
  induction q with
  | nil => intro p _ a ha; simp at ha
  | cons x q ih =>
    intro p hc b hb
    obtain ⟨a, d⟩ := x
    obtain ⟨-, nxt, ha, hq⟩ := hc
    simp only [List.map_cons, List.mem_cons] at hb
    rcases hb with rfl | hb
    · simp [ha]
    · exact ih nxt hq b hb

theorem chain_none (h : Heap) (q : List (Nat × Nat)) (hc : Chain h none q) : q = [] := by
  cases q with
  | nil => rfl
  | cons x q =>
    obtain ⟨a, d⟩ := x
    obtain ⟨hp, -⟩ := hc
    cases hp

theorem chain_some (h : Heap) (q : List (Nat × Nat)) (we : Nat) (e : workq_ele_t)
    (hc : Chain h (some we) q) (he : h we = some e) :
    ∃ q1, q = (we, e.data) :: q1 ∧ Chain h e.next q1 := by
  cases q with
  | nil => cases hc
  | cons x q =>
    obtain ⟨a, d⟩ := x
    obtain ⟨hp, nxt, ha, hq⟩ := hc
    cases hp
    rw [he] at ha
    cases ha
    exact ⟨q, rfl, hq⟩

/-- Linking `item` behind the last entry (workq.c:280) extends the chain. -/
theorem chain_snoc (h : Heap) (item el : Nat) (hitem : h item = some ⟨none, el⟩) :
    ∀ (q : List (Nat × Nat)) (p : Option Nat) (l : Nat) (e : workq_ele_t),
      Chain h p q → (q.map Prod.fst).getLast? = some l → h l = some e →
      (q.map Prod.fst).Nodup → item ∉ q.map Prod.fst →
      Chain (Function.update h l (some { e with next := some item })) p
        (q ++ [(item, el)]) := by
  intro q
  induction q with
  | nil => intro p l e _ hl; simp at hl
  | cons x q ih =>
    intro p l e hc hl he hnd hni
    obtain ⟨a, d⟩ := x
    obtain ⟨hp, nxt, ha, hq⟩ := hc
    simp only [List.map_cons, List.nodup_cons, List.mem_cons, not_or] at hnd hni
    cases q with
    | nil =>
      simp at hl
      subst hl
      have hn : nxt = none := hq
      rw [ha] at he
      cases he
      refine ⟨hp, some item, by simp, rfl, none, ?_, rfl⟩
      rw [Function.update_noteq hni.1]
      exact hitem
    | cons y q =>
      have hl2 : (List.map Prod.fst (y :: q)).getLast? = some l := by
        simpa [List.getLast?_cons_cons] using hl
      have hmem : l ∈ List.map Prod.fst (y :: q) := List.mem_of_getLast?_eq_some hl2
      have hne : a ≠ l := fun hh => hnd.1 (hh ▸ hmem)
      refine ⟨hp, nxt, ?_, ih nxt l e hq hl2 he hnd.2 hni.2⟩
      rw [Function.update_noteq hne]
      exact ha

theorem chain_payloads (h : Heap) :
    ∀ (q : List (Nat × Nat)) (p : Option Nat), Chain h p q →
      payloads h q.length p = some (q.map Prod.snd) := by
  intro q
  induction q with
  | nil => intro p hc; cases hc; rfl
  | cons x q ih =>
    intro p hc
    obtain ⟨a, d⟩ := x
    obtain ⟨hp, nxt, ha, hq⟩ := hc
    subst hp
    simp [payloads, ha, ih nxt hq]

/-! ## The trace -/

theorem linked_append (tr : List (Nat × Event)) (tid : Nat) (es : List Event) :
    linked (tr ++ es.map (fun e => (tid, e))) = linked tr ++ links es := by
  simp only [linked, links, List.filterMap_append, List.filterMap_map]
  rfl

theorem taken_append (tr : List (Nat × Event)) (tid : Nat) (es : List Event) :
    taken (tr ++ es.map (fun e => (tid, e))) = taken tr ++ unlinks es := by
  simp only [taken, unlinks, List.filterMap_append, List.filterMap_map]
  rfl

theorem engined_append (tr : List (Nat × Event)) (tid : Nat) (es : List Event) :
    engined (tr ++ es.map (fun e => (tid, e))) = engined tr ++ calls es := by
  simp only [engined, calls, List.filterMap_append, List.filterMap_map]
  rfl

theorem links_append (a b : List Event) : links (a ++ b) = links a ++ links b := by
  simp [links, List.filterMap_append]

theorem unlinks_append (a b : List Event) : unlinks (a ++ b) = unlinks a ++ unlinks b := by
  simp [unlinks, List.filterMap_append]

theorem calls_append (a b : List Event) : calls (a ++ b) = calls a ++ calls b := by
  simp [calls, List.filterMap_append]

/-! ## workq_server while it holds the mutex -/

/-- What `workq_server_locked` can do: leave the queue alone and wait or return, or
unlink the first entry. -/
theorem workq_server_locked_spec (h : Heap) (env : Env) :
    ∀ (n : Nat) (p : Pt) (wq : workq_t) (evs : List Event) (o : Out),
      workq_server_locked n p wq h env evs = .ok o →
      o.heap = h ∧ o.spawn = false ∧ links o.events = links evs ∧
      calls o.events = calls evs ∧
      ((o.wq.first = wq.first ∧ o.wq.last = wq.last ∧ unlinks o.events = unlinks evs ∧
          (o.next = .server_waiting ∨ o.next = .server_done)) ∨
       (∃ we e, wq.first = some we ∧ h we = some e ∧ o.wq.first = e.next ∧
          o.wq.last = (if wq.last = some we then none else wq.last) ∧
          unlinks o.events = unlinks evs ++ [e.data] ∧
          (o.next = .server_done ∧ env.unlock ≠ 0 ∨
           ∃ t, o.next = .server_dequeued we t ∧ env.unlock = 0))) := by
  intro n
  induction n with
  | zero => intro p wq evs o hr; simp [workq_server_locked] at hr
  | succ n ih =>
    intro p wq evs o hr
    cases p with
    | inner =>
      simp only [workq_server_locked] at hr
      split at hr
      · cases hr
        simp [links_append, calls_append, unlinks_append, links, calls, unlinks]
      · exact ih _ _ _ _ hr
    | take t =>
      simp only [workq_server_locked] at hr
      split at hr
      · rename_i we hwe
        split at hr
        · cases hr
        · rename_i e he
          refine ⟨?_, ?_, ?_, ?_, Or.inr ⟨we, e, hwe, he, ?_, ?_, ?_, ?_⟩⟩
          all_goals split at hr
          all_goals cases hr
          all_goals simp [links_append, calls_append, unlinks_append, links, calls, unlinks]
          all_goals first | (split <;> simp_all) | simp_all
      · exact ih _ _ _ _ hr
    | tests t =>
      simp only [workq_server_locked] at hr
      split at hr
      · split at hr <;> cases hr <;>
          simp [links_append, calls_append, unlinks_append, links, calls, unlinks]
      · split at hr
        · cases hr
          simp [links_append, calls_append, unlinks_append, links, calls, unlinks]
        · exact ih _ _ _ _ hr

/-- Three rounds of fuel are enough: the loop of the server always comes to a
wait, to an unlocked item or to a return, unless it reads an entry that is not
allocated. -/
theorem workq_server_locked_total (h : Heap) (env : Env) (m : Nat) (p : Pt) (wq : workq_t)
    (evs : List Event) (hfirst : ∀ we, wq.first = some we → h we ≠ none) :
    ∃ o, workq_server_locked (m + 3) p wq h env evs = .ok o := by
  cases hf : wq.first with
  | some we =>
    obtain ⟨e, he⟩ := Option.ne_none_iff_exists'.mp (hfirst we hf)
    cases p <;> simp only [workq_server_locked, hf, he] <;> simp <;> split <;> simp
  | none =>
    cases p <;> simp only [workq_server_locked, hf] <;> split_ifs <;>
      first
      | exact ⟨_, rfl⟩
      | (exfalso; simp_all)

/-! ## Entries held by threads -/

theorem holds_cons (t : Thread) (rest : List Thread) :
    holds (t :: rest) = t.held + holds rest := by
  simp [holds]

theorem pends_cons (h : Heap) (t : Thread) (rest : List Thread) :
    pends h (t :: rest) = pend h t + pends h rest := by
  simp [pends]

theorem held_zero (h : Heap) (t : Thread) (ht : t.held = 0) : Owns h t ∧ pend h t = 0 := by
  cases t <;> simp_all [Thread.held, Owns, pend]

theorem held_le_holds (t : Thread) (pool : List Thread) (ht : t ∈ pool) :
    t.held ≤ holds pool := by
  induction pool with
  | nil => cases ht
  | cons x l ih =>
    rw [holds_cons]
    rcases List.mem_cons.mp ht with rfl | hm
    · exact Multiset.le_add_right _ _
    · exact le_trans (ih hm) (Multiset.le_add_left _ _)

/-- A thread owns what it holds: the heap has an entry there. -/
theorem owns_alloc (h : Heap) (t : Thread) (a : Nat) (ho : Owns h t) (ha : a ∈ t.held) :
    h a ≠ none := by
  cases t <;> simp_all [Thread.held, Owns]
  all_goals obtain ⟨e, he⟩ := ho
  all_goals simp [he]

/-- A change of the heap at one address that no thread of `rest` holds is not
seen by `rest`. -/
theorem rest_frame (h h1 : Heap) (a : Nat) (rest : List Thread)
    (hd : ∀ b, b ≠ a → h1 b = h b) (ha : a ∉ holds rest) :
    (∀ t ∈ rest, Owns h t → Owns h1 t) ∧ pends h1 rest = pends h rest := by
  have hne : ∀ t ∈ rest, ∀ b ∈ t.held, b ≠ a := by
    intro t ht b hb hba
    subst hba
    exact ha (Multiset.mem_of_le (held_le_holds t rest ht) hb)
  constructor
  · intro t ht ho
    have := hne t ht
    cases t <;> simp_all [Thread.held, Owns]
  · unfold pends
    congr 1
    apply List.map_congr_left
    intro t ht
    have := hne t ht
    cases t <;> simp_all [Thread.held, pend]

/-! ## The invariant of the queue, step by step -/

/-- A step that leaves the queue and the heap alone and after which the thread
holds nothing. -/
theorem hinv_keep (wq wq1 : workq_t) (h : Heap) (tr : List (Nat × Event)) (th nx : Thread)
    (rest : List Thread) (tid : Nat) (es : List Event)
    (hI : HInv wq h tr (th :: rest))
    (h1 : wq1.first = wq.first) (h2 : wq1.last = wq.last)
    (e1 : links es = []) (e2 : unlinks es = []) (e3 : calls es = [])
    (hn : nx.held = 0) :
    HInv wq1 h (tr ++ es.map (fun e => (tid, e))) (nx :: rest) := by
  obtain ⟨q, hc, hl, hnd, hown, hlk, hen⟩ := hI
  obtain ⟨hno, hnp⟩ := held_zero h nx hn
  refine ⟨q, by rw [h1]; exact hc, by rw [h2]; exact hl, ?_, ?_, ?_, ?_⟩
  · refine Multiset.nodup_of_le ?_ hnd
    rw [holds_cons, holds_cons, hn]
    simp
  · intro t ht
    rcases List.mem_cons.mp ht with rfl | hm
    · exact hno
    · exact hown t (List.mem_cons_of_mem _ hm)
  · rw [linked_append, taken_append, e1, e2]
    simpa using hlk
  · rw [engined_append, taken_append, e2, e3, pends_cons, hnp]
    rw [pends_cons] at hen
    simp only [List.append_nil, zero_add]
    refine le_trans ?_ hen
    exact add_le_add_left (Multiset.le_add_left _ _) _

/-- An address held by the stepping thread is neither in the queue nor held by
another thread. -/
theorem held_apart (q : List Nat) (th : Thread) (rest : List Thread) (a : Nat)
    (hnd : ((q : Multiset Nat) + (th.held + holds rest)).Nodup) (ha : a ∈ th.held) :
    a ∉ q ∧ a ∉ holds rest := by
  obtain ⟨-, h2, h3⟩ := Multiset.nodup_add.mp hnd
  obtain ⟨-, -, h4⟩ := Multiset.nodup_add.mp h2
  constructor
  · intro hq
    exact Multiset.disjoint_left.mp h3 (Multiset.mem_coe.mpr hq)
      (Multiset.mem_add.mpr (Or.inl ha))
  · intro hr
    exact Multiset.disjoint_left.mp h4 ha hr

/-- A step that frees the entry the thread holds. -/
theorem hinv_free (wq : workq_t) (h : Heap) (tr : List (Nat × Event)) (th nx : Thread)
    (rest : List Thread) (tid : Nat) (es : List Event) (a : Nat)
    (hI : HInv wq h tr (th :: rest)) (ha : a ∈ th.held)
    (e1 : links es = []) (e2 : unlinks es = []) (e3 : calls es = [])
    (hn : nx.held = 0) :
    HInv wq (Function.update h a none) (tr ++ es.map (fun e => (tid, e))) (nx :: rest) := by
  obtain ⟨q, hc, hl, hnd, hown, hlk, hen⟩ := hI
  rw [holds_cons] at hnd
  obtain ⟨haq, har⟩ := held_apart _ th rest a hnd ha
  have hd : ∀ b, b ≠ a → Function.update h a none b = h b :=
    fun b hb => Function.update_noteq hb _ _
  obtain ⟨hfo, hfp⟩ := rest_frame h _ a rest hd har
  obtain ⟨hno, hnp⟩ := held_zero (Function.update h a none) nx hn
  refine ⟨q, ?_, hl, ?_, ?_, ?_, ?_⟩
  · refine chain_frame h _ q _ ?_ hc
    intro b hb
    exact hd b (fun hba => haq (hba ▸ hb))
  · refine Multiset.nodup_of_le ?_ hnd
    rw [holds_cons, hn]
    simp
  · intro t ht
    rcases List.mem_cons.mp ht with rfl | hm
    · exact hno
    · exact hfo t hm (hown t (List.mem_cons_of_mem _ hm))
  · rw [linked_append, taken_append, e1, e2]
    simpa using hlk
  · rw [engined_append, taken_append, e2, e3, pends_cons, hnp, hfp]
    rw [pends_cons] at hen
    simp only [List.append_nil, zero_add]
    refine le_trans ?_ hen
    exact add_le_add_left (Multiset.le_add_left _ _) _

/-- The locked part of the server keeps the invariant. -/
theorem hinv_server_locked (wq : workq_t) (h : Heap) (tr : List (Nat × Event)) (x : Thread)
    (rest : List Thread) (tid : Nat) (env : Env) (n : Nat) (p : Pt) (evs : List Event)
    (o : Out) (hI : HInv wq h tr (x :: rest)) (hx : x.held = 0)
    (e1 : links evs = []) (e2 : unlinks evs = []) (e3 : calls evs = [])
    (hr : workq_server_locked n p wq h env evs = .ok o) :
    HInv o.wq o.heap (tr ++ o.events.map (fun e => (tid, e))) (o.next :: rest) := by
  obtain ⟨hh, -, g1, g3, hcase⟩ := workq_server_locked_spec h env n p wq evs o hr
  rw [hh]
  rcases hcase with ⟨f1, f2, g2, hnx⟩ | ⟨we, e, hf, he, f1, f2, g2, hnx⟩
  · refine hinv_keep wq o.wq h tr x o.next rest tid o.events hI f1 f2
      (by rw [g1, e1]) (by rw [g2, e2]) (by rw [g3, e3]) ?_
    rcases hnx with hnx | hnx <;> rw [hnx] <;> rfl
  · obtain ⟨q, hc, hl, hnd, hown, hlk, hen⟩ := hI
    rw [hf] at hc
    obtain ⟨q1, rfl, hc1⟩ := chain_some h q we e hc he
    rw [holds_cons, hx, zero_add] at hnd
    rw [pends_cons, (held_zero h x hx).2, zero_add] at hen
    have hnd2 : (we ::ₘ ((q1.map Prod.fst : List Nat) : Multiset Nat) + holds rest).Nodup := by
      simpa using hnd
    rw [Multiset.cons_add, Multiset.nodup_cons] at hnd2
    refine ⟨q1, by rw [f1]; exact hc1, ?_, ?_, ?_, ?_, ?_⟩
    · rw [f2, hl]
      cases q1 with
      | nil => simp
      | cons y q1 =>
        simp only [List.map_cons, List.getLast?_cons_cons]
        have hne : (List.map Prod.fst (y :: q1)).getLast? ≠ some we := by
          intro hh2
          have hm := List.mem_of_getLast?_eq_some hh2
          exact hnd2.1 (Multiset.mem_add.mpr (Or.inl (Multiset.mem_coe.mpr hm)))
        simp only [List.map_cons] at hne
        rw [if_neg hne]
    · rw [holds_cons]
      rcases hnx with ⟨hnx, -⟩ | ⟨t, hnx, -⟩
      · rw [hnx]
        simpa [Thread.held] using hnd2.2
      · rw [hnx]
        simp only [Thread.held]
        rw [← add_assoc, add_comm _ ({we} : Multiset Nat), Multiset.singleton_add,
          Multiset.cons_add, Multiset.nodup_cons]
        exact hnd2
    · intro t ht
      rcases List.mem_cons.mp ht with rfl | hm
      · rcases hnx with ⟨hnx, -⟩ | ⟨t, hnx, -⟩ <;> rw [hnx]
        · trivial
        · exact ⟨e, he⟩
      · exact hown t (List.mem_cons_of_mem _ hm)
    · rw [linked_append, taken_append, g1, g2, e1, e2, hlk]
      simp
    · rw [engined_append, taken_append, g2, g3, e2, e3, pends_cons]
      simp only [List.append_nil, List.nil_append, ← Multiset.coe_add]
      rcases hnx with ⟨hnx, -⟩ | ⟨t, hnx, -⟩ <;> rw [hnx]
      · simp only [pend, zero_add]
        exact le_trans hen (Multiset.le_add_right _ _)
      · simp only [pend, he]
        rw [← add_assoc, add_comm _ ({e.data} : Multiset Nat), add_assoc,
          add_comm _ (([e.data] : List Nat) : Multiset Nat)]
        exact add_le_add_left hen _

/-- The call of the engine keeps the invariant. -/
theorem hinv_call (wq : workq_t) (h : Heap) (tr : List (Nat × Event)) (we : Nat) (t : Bool)
    (rest : List Thread) (tid : Nat)
    (hI : HInv wq h tr (.server_dequeued we t :: rest)) :
    ∃ o, workq_server_call wq h we t = .ok o ∧
      HInv o.wq o.heap (tr ++ o.events.map (fun e => (tid, e))) (o.next :: rest) := by
  obtain ⟨q, hc, hl, hnd, hown, hlk, hen⟩ := hI
  obtain ⟨e, he⟩ := hown _ (List.mem_cons_self _ _)
  refine ⟨⟨wq, h, .server_engine we t, false, [.engine wq.engine e.data]⟩, ?_, ?_⟩
  · simp [workq_server_call, he]
  · refine ⟨q, hc, hl, ?_, ?_, ?_, ?_⟩
    · simpa [holds_cons, Thread.held] using hnd
    · intro x hx
      rcases List.mem_cons.mp hx with rfl | hm
      · exact ⟨e, he⟩
      · exact hown x (List.mem_cons_of_mem _ hm)
    · rw [linked_append, taken_append]
      simpa [links, unlinks] using hlk
    · rw [engined_append, taken_append]
      rw [pends_cons] at hen ⊢
      simp only [pend, he] at hen
      simp only [calls, unlinks, List.filterMap_cons, List.filterMap_nil, List.append_nil,
        pend, zero_add, ← Multiset.coe_add]
      rw [add_assoc]
      exact hen

/-- The words `workq_add` writes when it links an item (workq.c:277-281). -/
theorem hinv_link (wq : workq_t) (h : Heap) (tr : List (Nat × Event)) (item el : Nat)
    (rest : List Thread) (hI : HInv wq h tr (.add_locking item el :: rest)) :
    ∃ wq1 h1,
      workq_add_link wq h item =
        some (wq1, h1) ∧
      ∀ (nx : Thread) (tid : Nat) (es : List Event) (wq2 : workq_t),
        nx.held = 0 → links es = [el] → unlinks es = [] → calls es = [] →
        wq2.first = wq1.first → wq2.last = wq1.last →
        HInv wq2 h1 (tr ++ es.map (fun e => (tid, e))) (nx :: rest) ∧
        pends h1 rest = pends h rest := by
  obtain ⟨q, hc, hl, hnd, hown, hlk, hen⟩ := hI
  have hitem : h item = some ⟨none, el⟩ := hown _ (List.mem_cons_self _ _)
  rw [holds_cons] at hnd
  obtain ⟨hiq, hir⟩ := held_apart _ _ rest item hnd (by simp [Thread.held])
  rw [pends_cons] at hen
  simp only [pend, zero_add] at hen
  cases hf : wq.first with
  | none =>
    rw [hf] at hc
    have hq : q = [] := chain_none h q hc
    subst hq
    refine ⟨_, _, (by simp only [workq_add_link, hf]; rfl), ?_⟩
    intro nx tid es wq2 hn e1 e2 e3 f1 f2
    obtain ⟨hno, hnp⟩ := held_zero h nx hn
    refine ⟨⟨[(item, el)], ?_, ?_, ?_, ?_, ?_, ?_⟩, rfl⟩
    · rw [f1]; exact ⟨rfl, none, hitem, rfl⟩
    · rw [f2]; rfl
    · rw [holds_cons, hn]
      simpa [Thread.held, Multiset.singleton_add] using hnd
    · intro x hx
      rcases List.mem_cons.mp hx with rfl | hm
      · exact hno
      · exact hown x (List.mem_cons_of_mem _ hm)
    · rw [linked_append, taken_append, e1, e2, hlk]
      simp
    · rw [engined_append, taken_append, e2, e3, pends_cons, hnp]
      simpa using hen
  | some a =>
    rw [hf] at hc
    cases q with
    | nil => cases hc
    | cons x q0 =>
      have hne : (List.map Prod.fst (x :: q0)) ≠ [] := by simp
      obtain ⟨l, hlast⟩ : ∃ l, (List.map Prod.fst (x :: q0)).getLast? = some l :=
        ⟨_, List.getLast?_eq_getLast _ hne⟩
      have hlm : l ∈ List.map Prod.fst (x :: q0) := List.mem_of_getLast?_eq_some hlast
      obtain ⟨e, he⟩ := Option.ne_none_iff_exists'.mp (chain_alloc h _ _ hc l hlm)
      rw [hlast] at hl
      refine ⟨_, _, (by simp only [workq_add_link, hf, hl, he]; rfl), ?_⟩
      intro nx tid es wq2 hn e1 e2 e3 f1 f2
      have hqnd : (List.map Prod.fst (x :: q0)).Nodup :=
        Multiset.coe_nodup.mp (Multiset.nodup_add.mp hnd).1
      have hlr : l ∉ holds rest := by
        intro hr
        obtain ⟨-, -, h3⟩ := Multiset.nodup_add.mp hnd
        exact Multiset.disjoint_left.mp h3 (Multiset.mem_coe.mpr hlm)
          (Multiset.mem_add.mpr (Or.inr hr))
      have hd : ∀ b, b ≠ l →
          Function.update h l (some { e with next := some item }) b = h b :=
        fun b hb => Function.update_noteq hb _ _
      obtain ⟨hfo, hfp⟩ := rest_frame h _ l rest hd hlr
      obtain ⟨hno, hnp⟩ :=
        held_zero (Function.update h l (some { e with next := some item })) nx hn
      refine ⟨⟨(x :: q0) ++ [(item, el)], ?_, ?_, ?_, ?_, ?_, ?_⟩, hfp⟩
      · rw [f1]
        simp only [hf]
        exact chain_snoc h item el hitem _ _ l e hc hlast he hqnd hiq
      · rw [f2]
        simp only [List.map_append, List.map_cons, List.map_nil, List.cons_append]
        rw [← List.cons_append, List.getLast?_concat]
      · rw [holds_cons, hn, zero_add]
        have : (((List.map Prod.fst (x :: q0 ++ [(item, el)]) : List Nat) : Multiset Nat)
            + holds rest) =
            ((List.map Prod.fst (x :: q0) : List Nat) : Multiset Nat) +
              ((Thread.add_locking item el).held + holds rest) := by
          simp only [List.map_append, List.map_cons, List.map_nil, Thread.held,
            ← Multiset.coe_add, add_assoc]
          rfl
        rw [this]
        exact hnd
      · intro y hy
        rcases List.mem_cons.mp hy with rfl | hm
        · exact hno
        · exact hfo y hm (hown y (List.mem_cons_of_mem _ hm))
      · rw [linked_append, taken_append, e1, e2, hlk]
        simp
      · rw [engined_append, taken_append, e2, e3, pends_cons, hnp, hfp]
        simpa using hen

theorem hinv_first_alloc (wq : workq_t) (h : Heap) (tr : List (Nat × Event))
    (pool : List Thread) (hI : HInv wq h tr pool) :
    ∀ we, wq.first = some we → h we ≠ none := by
  obtain ⟨q, hc, -⟩ := hI
  intro we hf
  rw [hf] at hc
  cases q with
  | nil => cases hc
  | cons x q =>
    obtain ⟨a, d⟩ := x
    obtain ⟨hp, nxt, ha, -⟩ := hc
    cases hp
    simp [ha]

/-- The locked part of the server, run from a state that satisfies the
invariant, completes and keeps the invariant. -/
theorem hinv_server_run (wq : workq_t) (h : Heap) (tr : List (Nat × Event)) (x : Thread)
    (rest : List Thread) (tid : Nat) (env : Env) (p : Pt) (evs : List Event)
    (hI : HInv wq h tr (x :: rest)) (hx : x.held = 0)
    (e1 : links evs = []) (e2 : unlinks evs = []) (e3 : calls evs = []) :
    ∃ o, workq_server_locked workq_server_fuel p wq h env evs = .ok o ∧
      HInv o.wq o.heap (tr ++ o.events.map (fun e => (tid, e))) (o.next :: rest) := by
  obtain ⟨o, ho⟩ := workq_server_locked_total h env 1 p wq evs (hinv_first_alloc _ _ _ _ hI)
  exact ⟨o, ho, hinv_server_locked wq h tr x rest tid env _ p evs o hI hx e1 e2 e3 ho⟩

/-- Every step of a thread, taken from a state that satisfies the invariant of
the queue, completes (no entry outside the heap is read or written, the fuel
does not run out) and keeps the invariant. -/
theorem hinv_thread_step (wq : workq_t) (h : Heap) (tr : List (Nat × Event)) (th : Thread)
    (rest : List Thread) (tid : Nat) (env : Env) (r : Res)
    (hI : HInv wq h tr (th :: rest)) (hr : thread_step wq h env th = some r) :
    ∃ o, r = .ok o ∧
      HInv o.wq o.heap (tr ++ o.events.map (fun e => (tid, e))) (o.next :: rest) := by
  cases th with
  | add_locking item el =>
    simp only [thread_step, Option.some.injEq] at hr
    subst hr
    obtain ⟨wq1, h1, hlink, hgen⟩ := hinv_link wq h tr item el rest hI
    unfold workq_add_locked
    split
    · exact ⟨_, rfl, hinv_free wq h tr _ _ rest tid _ item hI (by simp [Thread.held])
        rfl rfl rfl rfl⟩
    · simp only [hlink]
      repeat' split
      all_goals refine ⟨_, rfl, ?_⟩
      all_goals refine (hgen _ tid _ _ ?_ ?_ ?_ ?_ ?_ ?_).1
      all_goals rfl
  | destroy_locking =>
    simp only [thread_step, Option.some.injEq] at hr
    subst hr
    simp only [workq_destroy_locked, workq_destroy_while, workq_destroy_release]
    repeat' split
    all_goals exact ⟨_, rfl, hinv_keep wq _ h tr _ _ rest tid _ hI rfl rfl rfl rfl rfl rfl⟩
  | destroy_waiting =>
    simp only [thread_step, Option.some.injEq] at hr
    subst hr
    simp only [workq_destroy_wake, workq_destroy_while, workq_destroy_release]
    repeat' split
    all_goals exact ⟨_, rfl, hinv_keep wq _ h tr _ _ rest tid _ hI rfl rfl rfl rfl rfl rfl⟩
  | destroy_unlocked =>
    simp only [thread_step, Option.some.injEq] at hr
    subst hr
    exact ⟨_, rfl, hinv_keep wq _ h tr _ _ rest tid _ hI rfl rfl rfl rfl rfl rfl⟩
  | server_start =>
    simp only [thread_step, Option.some.injEq] at hr
    subst hr
    unfold workq_server_begin
    split
    · exact ⟨_, rfl, hinv_keep wq _ h tr _ _ rest tid _ hI rfl rfl rfl rfl rfl rfl⟩
    · exact hinv_server_run wq h tr _ rest tid env _ _ hI rfl rfl rfl rfl
  | server_waiting =>
    simp only [thread_step, Option.some.injEq] at hr
    subst hr
    unfold workq_server_wake
    split
    · exact hinv_server_run wq h tr _ rest tid env _ _ hI rfl rfl rfl rfl
    · split
      · exact ⟨_, rfl, hinv_keep wq _ h tr _ _ rest tid _ hI rfl rfl rfl rfl rfl rfl⟩
      · exact hinv_server_run wq h tr _ rest tid env _ _ hI rfl rfl rfl rfl
  | server_dequeued we t =>
    simp only [thread_step, Option.some.injEq] at hr
    subst hr
    exact hinv_call wq h tr we t rest tid hI
  | server_engine we t =>
    simp only [thread_step, Option.some.injEq] at hr
    subst hr
    obtain ⟨e, he⟩ : ∃ e, h we = some e := by
      obtain ⟨q, -, -, -, hown, -⟩ := hI
      exact hown _ (List.mem_cons_self _ _)
    simp only [workq_server_resume, he]
    split
    · exact ⟨_, rfl, hinv_free wq h tr _ _ rest tid _ we hI (by simp [Thread.held])
        rfl rfl rfl rfl⟩
    · have hI2 := hinv_free wq h tr _ Thread.server_done rest tid [] we hI
        (by simp [Thread.held]) rfl rfl rfl rfl
      simp only [List.map_nil, List.append_nil] at hI2
      exact hinv_server_run wq _ tr _ rest tid env _ _ hI2 rfl rfl rfl rfl
  | add_done st => simp [thread_step] at hr
  | destroy_done st => simp [thread_step] at hr
  | server_done => simp [thread_step] at hr

/-! ## The invariant of the queue on schedules -/

theorem pool_split : ∀ (pool : List Thread) (tid : Nat) (th : Thread),
    pool.get? tid = some th →
    ∃ l1 l2, pool = l1 ++ th :: l2 ∧ ∀ x, pool.set tid x = l1 ++ x :: l2 := by
  intro pool
  induction pool with
  | nil => intro tid th hi; simp at hi
  | cons a l ih =>
    intro tid th hi
    cases tid with
    | zero =>
      have : a = th := by simpa using hi
      subst this
      exact ⟨[], l, rfl, fun x => rfl⟩
    | succ i =>
      have hi2 : l.get? i = some th := by simpa using hi
      obtain ⟨l1, l2, h1, h2⟩ := ih i th hi2
      exact ⟨a :: l1, l2, by rw [h1]; rfl, fun x => by simp [List.set, h2]⟩

theorem hinv_perm (wq : workq_t) (h : Heap) (tr : List (Nat × Event)) (p1 p2 : List Thread)
    (hp : p1.Perm p2) (hI : HInv wq h tr p1) : HInv wq h tr p2 := by
  obtain ⟨q, hc, hl, hnd, hown, hlk, hen⟩ := hI
  have e1 : holds p2 = holds p1 := (List.Perm.sum_eq (hp.map _)).symm
  have e2 : pends h p2 = pends h p1 := (List.Perm.sum_eq (hp.map _)).symm
  refine ⟨q, hc, hl, by rw [e1]; exact hnd, ?_, hlk, by rw [e2]; exact hen⟩
  intro t ht
  exact hown t (hp.symm.subset ht)

/-- A thread that holds nothing can join the pool. -/
theorem hinv_join (wq : workq_t) (h : Heap) (tr : List (Nat × Event)) (pool : List Thread)
    (t : Thread) (tid : Nat) (es : List Event) (ht : t.held = 0)
    (e1 : links es = []) (e2 : unlinks es = []) (e3 : calls es = [])
    (hI : HInv wq h tr pool) :
    HInv wq h (tr ++ es.map (fun e => (tid, e))) (t :: pool) := by
  have hI2 : HInv wq h tr (Thread.server_done :: pool) := by
    obtain ⟨q, hc, hl, hnd, hown, hlk, hen⟩ := hI
    refine ⟨q, hc, hl, ?_, ?_, hlk, ?_⟩
    · simpa [holds_cons, Thread.held] using hnd
    · intro x hx
      rcases List.mem_cons.mp hx with rfl | hm
      · trivial
      · exact hown x hm
    · simpa [pends_cons, pend] using hen
  exact hinv_keep wq wq h tr _ t pool tid es hI2 rfl rfl e1 e2 e3 ht

/-- An address that is not allocated is held by no thread. -/
theorem fresh_not_held (h : Heap) (item : Nat) (hfresh : h item = none) :
    ∀ (pool : List Thread), (∀ t ∈ pool, Owns h t) → item ∉ holds pool := by
  intro pool
  induction pool with
  | nil => intro _ hm; simp [holds] at hm
  | cons x l ih =>
    intro hown hm
    rw [holds_cons] at hm
    rcases Multiset.mem_add.mp hm with hm | hm
    · exact owns_alloc h x item (hown x (List.mem_cons_self _ _)) hm hfresh
    · exact ih (fun t ht => hown t (List.mem_cons_of_mem _ ht)) hm

/-- Filling in a fresh entry is not seen by the threads of the pool. -/
theorem pends_malloc (wq : workq_t) (h : Heap) (tr : List (Nat × Event)) (pool : List Thread)
    (item : Nat) (v : Option workq_ele_t) (hfresh : h item = none) (hI : HInv wq h tr pool) :
    pends (Function.update h item v) pool = pends h pool := by
  obtain ⟨q, -, -, -, hown, -⟩ := hI
  exact (rest_frame h _ item pool (fun b hb => Function.update_noteq hb _ _)
    (fresh_not_held h item hfresh pool hown)).2

/-- A caller that has allocated and filled in its item can join the pool. -/
theorem hinv_malloc (wq : workq_t) (h : Heap) (tr : List (Nat × Event)) (pool : List Thread)
    (item el tid : Nat) (es : List Event) (hfresh : h item = none)
    (e1 : links es = []) (e2 : unlinks es = []) (e3 : calls es = [])
    (hI : HInv wq h tr pool) :
    HInv wq (Function.update h item (some ⟨none, el⟩)) (tr ++ es.map (fun e => (tid, e)))
      (.add_locking item el :: pool) := by
  obtain ⟨q, hc, hl, hnd, hown, hlk, hen⟩ := hI
  have hiq : item ∉ q.map Prod.fst := fun hm => chain_alloc h q _ hc item hm hfresh
  have hip : item ∉ holds pool := fresh_not_held h item hfresh pool hown
  have hd : ∀ b, b ≠ item → Function.update h item (some ⟨none, el⟩) b = h b :=
    fun b hb => Function.update_noteq hb _ _
  obtain ⟨hfo, hfp⟩ := rest_frame h _ item pool hd hip
  refine ⟨q, ?_, hl, ?_, ?_, ?_, ?_⟩
  · refine chain_frame h _ q _ ?_ hc
    intro b hb
    exact hd b (fun hba => hiq (hba ▸ hb))
  · rw [holds_cons]
    simp only [Thread.held]
    rw [← add_assoc, add_comm _ ({item} : Multiset Nat), add_assoc, Multiset.singleton_add,
      Multiset.nodup_cons]
    refine ⟨?_, hnd⟩
    intro hm
    rcases Multiset.mem_add.mp hm with hm | hm
    · exact hiq (Multiset.mem_coe.mp hm)
    · exact hip hm
  · intro t ht
    rcases List.mem_cons.mp ht with rfl | hm
    · simp [Owns]
    · exact hfo t hm (hown t hm)
  · rw [linked_append, taken_append, e1, e2]
    simpa using hlk
  · rw [engined_append, taken_append, e2, e3, pends_cons, hfp]
    simpa [pend] using hen

theorem hinv_step (s : Sys) (l : Label) (hs : s.HInv) : (step s l).HInv := by
  obtain ⟨hub, hI⟩ := hs
  cases l with
  | call_add el m =>
    simp only [step]
    split
    · exact ⟨hub, hI⟩
    · rename_i hm
      refine ⟨hub, ?_⟩
      simp only [workq_add_entry]
      split
      · refine hinv_perm _ _ _ _ _ (List.perm_append_singleton _ _).symm ?_
        have := hinv_join s.wq s.heap s.trace s.pool (.add_done EINVAL) s.pool.length []
          rfl rfl rfl rfl hI
        simpa using this
      · cases m with
        | none =>
          refine hinv_perm _ _ _ _ _ (List.perm_append_singleton _ _).symm ?_
          exact hinv_join s.wq s.heap s.trace s.pool (.add_done ENOMEM) s.pool.length _
            rfl rfl rfl rfl hI
        | some item =>
          refine hinv_perm _ _ _ _ _ (List.perm_append_singleton _ _).symm ?_
          exact hinv_malloc s.wq s.heap s.trace s.pool item el s.pool.length _
            (by simpa using hm) rfl rfl rfl hI
  | call_destroy =>
    refine ⟨hub, ?_⟩
    simp only [step]
    refine hinv_perm _ _ _ _ _ (List.perm_append_singleton _ _).symm ?_
    have := hinv_join s.wq s.heap s.trace s.pool (workq_destroy_entry s.wq) s.pool.length []
      (by unfold workq_destroy_entry; split <;> rfl) rfl rfl rfl hI
    simpa using this
  | run tid env =>
    cases hth : s.pool.get? tid with
    | none =>
      simp only [step, hth]
      exact ⟨hub, hI⟩
    | some th =>
      cases hr : thread_step s.wq s.heap env th with
      | none =>
        simp only [step, hth, hr]
        exact ⟨hub, hI⟩
      | some r =>
        obtain ⟨l1, l2, hp, hset⟩ := pool_split s.pool tid th hth
        have hI2 : HInv s.wq s.heap s.trace (th :: (l1 ++ l2)) :=
          hinv_perm _ _ _ _ _ (by rw [hp]; exact List.perm_middle) hI
        obtain ⟨o, rfl, hI3⟩ := hinv_thread_step _ _ _ _ _ tid env r hI2 hr
        simp only [step, hth, hr, Sys.apply, hset]
        refine ⟨hub, ?_⟩
        cases o.spawn
        · simp only [Bool.false_eq_true, if_false, List.append_nil]
          exact hinv_perm _ _ _ _ _ List.perm_middle.symm hI3
        · simp only [if_true]
          refine hinv_perm _ _ _ _ _ (List.perm_append_singleton _ _).symm ?_
          have := hinv_join _ _ _ _ Thread.server_start tid [] rfl rfl rfl rfl
            (hinv_perm _ _ _ _ _ List.perm_middle.symm hI3)
          simpa using this

theorem hinv_start (wq : workq_t) (hf : wq.first = none) (hl : wq.last = none) :
    (Sys.start wq).HInv := by
  refine ⟨rfl, [], hf, hl, ?_, ?_, rfl, ?_⟩
  · simp [Sys.start, holds]
  · intro t ht; cases ht
  · simp [Sys.start, engined, taken, pends]

theorem hinv_exec (wq0 : workq_t) (N : Int) (engine : Nat) (env : Env)
    (hinit : (workq_init wq0 N engine env).1 = 0) (ls : List Label) :
    (after_init wq0 N engine env ls).HInv := by
  refine exec_inv Sys.HInv hinv_step ls _ (hinv_start _ ?_ ?_)
  · rw [workq_init_ok _ _ _ _ hinit]
  · rw [workq_init_ok _ _ _ _ hinit]

/-! ## Payloads on their way to the engine -/

theorem deliv_server_locked (h h0 : Heap) (env : Env) (n : Nat) (p : Pt) (wq : workq_t)
    (evs : List Event) (o : Out) (th : Thread)
    (hr : workq_server_locked n p wq h env evs = .ok o)
    (e2 : unlinks evs = []) (e3 : calls evs = []) (hp : pend h0 th = 0)
    (hlive : th.live = true) :
    Deliv h0 th env o := by
  obtain ⟨hh, -, -, g3, hcase⟩ := workq_server_locked_spec h env n p wq evs o hr
  rcases hcase with ⟨-, -, g2, hnx⟩ | ⟨we, e, -, he, -, -, g2, hnx⟩
  · left
    refine ⟨by rw [g2, e2], by rw [g3, e3], ?_⟩
    rw [hp]
    rcases hnx with hnx | hnx <;> rw [hnx] <;> rfl
  · right; left
    refine ⟨e.data, hlive, by rw [g2, e2]; rfl, by rw [g3, e3], hp, ?_⟩
    rcases hnx with ⟨hnx, hu⟩ | ⟨t, hnx, -⟩
    · right; rw [hnx]; exact ⟨rfl, hu⟩
    · left; rw [hnx, hh]; simp [pend, he]

theorem deliv_thread_step (wq : workq_t) (h : Heap) (tr : List (Nat × Event)) (th : Thread)
    (rest : List Thread) (env : Env) (o : Out)
    (hI : HInv wq h tr (th :: rest)) (hr : thread_step wq h env th = some (.ok o)) :
    pends o.heap rest = pends h rest ∧ Deliv h th env o := by
  have hapart : ∀ a ∈ th.held, a ∉ holds rest := by
    intro a ha
    obtain ⟨q, -, -, hnd, -⟩ := hI
    rw [holds_cons] at hnd
    exact (held_apart _ th rest a hnd ha).2
  have hfree : ∀ a ∈ th.held, pends (Function.update h a none) rest = pends h rest :=
    fun a ha => (rest_frame h _ a rest (fun b hb => Function.update_noteq hb _ _)
      (hapart a ha)).2
  cases th with
  | add_locking item el =>
    simp only [thread_step, Option.some.injEq] at hr
    obtain ⟨wq1, h1, hlink, hgen⟩ := hinv_link wq h tr item el rest hI
    have hfp : pends h1 rest = pends h rest :=
      (hgen Thread.server_done 0 [Event.link el] wq1 rfl rfl rfl rfl rfl rfl).2
    unfold workq_add_locked at hr
    split at hr
    · cases hr
      exact ⟨hfree item (by simp [Thread.held]), Or.inl ⟨rfl, rfl, rfl⟩⟩
    · simp only [hlink] at hr
      repeat' split at hr
      all_goals cases hr
      all_goals exact ⟨hfp, Or.inl ⟨rfl, rfl, rfl⟩⟩
  | destroy_locking =>
    simp only [thread_step, workq_destroy_locked, workq_destroy_while, workq_destroy_release,
      Option.some.injEq] at hr
    repeat' split at hr
    all_goals cases hr
    all_goals exact ⟨rfl, Or.inl ⟨rfl, rfl, rfl⟩⟩
  | destroy_waiting =>
    simp only [thread_step, workq_destroy_wake, workq_destroy_while, workq_destroy_release,
      Option.some.injEq] at hr
    repeat' split at hr
    all_goals cases hr
    all_goals exact ⟨rfl, Or.inl ⟨rfl, rfl, rfl⟩⟩
  | destroy_unlocked =>
    simp only [thread_step, workq_destroy_final, Option.some.injEq] at hr
    cases hr
    exact ⟨rfl, Or.inl ⟨rfl, rfl, rfl⟩⟩
  | server_start =>
    simp only [thread_step, workq_server_begin, Option.some.injEq] at hr
    split at hr
    · cases hr
      exact ⟨rfl, Or.inl ⟨rfl, rfl, rfl⟩⟩
    · refine ⟨?_, deliv_server_locked _ _ _ _ _ _ _ _ _ hr rfl rfl rfl rfl⟩
      rw [(workq_server_locked_spec _ _ _ _ _ _ _ hr).1]
  | server_waiting =>
    simp only [thread_step, workq_server_wake, Option.some.injEq] at hr
    split at hr
    · refine ⟨?_, deliv_server_locked _ _ _ _ _ _ _ _ _ hr rfl rfl rfl rfl⟩
      rw [(workq_server_locked_spec _ _ _ _ _ _ _ hr).1]
    · split at hr
      · cases hr
        exact ⟨rfl, Or.inl ⟨rfl, rfl, rfl⟩⟩
      · refine ⟨?_, deliv_server_locked _ _ _ _ _ _ _ _ _ hr rfl rfl rfl rfl⟩
        rw [(workq_server_locked_spec _ _ _ _ _ _ _ hr).1]
  | server_dequeued we t =>
    simp only [thread_step, workq_server_call, Option.some.injEq] at hr
    split at hr
    · cases hr
    · rename_i e he
      cases hr
      refine ⟨rfl, Or.inr (Or.inr ⟨e.data, rfl, rfl, rfl, ?_, rfl⟩)⟩
      simp [pend, he]
  | server_engine we t =>
    simp only [thread_step, workq_server_resume, Option.some.injEq] at hr
    split at hr
    · cases hr
    · split at hr
      · cases hr
        exact ⟨hfree we (by simp [Thread.held]), Or.inl ⟨rfl, rfl, rfl⟩⟩
      · refine ⟨?_, deliv_server_locked _ _ _ _ _ _ _ _ _ hr rfl rfl rfl rfl⟩
        rw [(workq_server_locked_spec _ _ _ _ _ _ _ hr).1]
        exact hfree we (by simp [Thread.held])
  | add_done st => simp [thread_step] at hr
  | destroy_done st => simp [thread_step] at hr
  | server_done => simp [thread_step] at hr

theorem pends_append (h : Heap) (p q : List Thread) :
    pends h (p ++ q) = pends h p + pends h q := by
  simp [pends]

theorem pends_middle (h : Heap) (l1 l2 : List Thread) (x : Thread) :
    pends h (l1 ++ x :: l2) = pend h x + pends h (l1 ++ l2) := by
  simp only [pends, List.map_append, List.map_cons, List.sum_append, List.sum_cons]
  abel

/-- The effect of any step on the payloads under way, seen from the whole. -/
theorem sys_deliv (s : Sys) (l : Label) (hs : s.HInv) :
    (taken (step s l).trace = taken s.trace ∧ engined (step s l).trace = engined s.trace ∧
      pends (step s l).heap (step s l).pool = pends s.heap s.pool) ∨
    (∃ d tid env th, l = .run tid env ∧ s.pool.get? tid = some th ∧ th.live = true ∧
      pend s.heap th = 0 ∧
      taken (step s l).trace = taken s.trace ++ [d] ∧
      engined (step s l).trace = engined s.trace ∧
      (pends (step s l).heap (step s l).pool = pends s.heap s.pool + {d} ∨
       (pends (step s l).heap (step s l).pool = pends s.heap s.pool ∧ env.unlock ≠ 0))) ∨
    (∃ d tid env th, l = .run tid env ∧ s.pool.get? tid = some th ∧ th.live = true ∧
      pend s.heap th = {d} ∧
      taken (step s l).trace = taken s.trace ∧
      engined (step s l).trace = engined s.trace ++ [d] ∧
      pends s.heap s.pool = pends (step s l).heap (step s l).pool + {d}) := by
  obtain ⟨hub, hI⟩ := hs
  cases l with
  | call_add el m =>
    left
    simp only [step]
    split
    · exact ⟨rfl, rfl, rfl⟩
    · rename_i hm
      simp only [workq_add_entry]
      split
      · simp [pends_append, pends, pend]
      · cases m with
        | none =>
          refine ⟨?_, ?_, ?_⟩
          · rw [taken_append]; simp [unlinks]
          · rw [engined_append]; simp [calls]
          · simp [pends_append, pends, pend]
        | some item =>
          refine ⟨?_, ?_, ?_⟩
          · rw [taken_append]; simp [unlinks]
          · rw [engined_append]; simp [calls]
          · rw [pends_append, pends_malloc _ _ _ _ _ _ (by simpa using hm) hI]
            simp [pends, pend]
  | call_destroy =>
    left
    simp only [step, pends_append]
    refine ⟨trivial, trivial, ?_⟩
    have : pend s.heap (workq_destroy_entry s.wq) = 0 := by
      unfold workq_destroy_entry; split <;> rfl
    simp [pends, this]
  | run tid env =>
    cases hth : s.pool.get? tid with
    | none => left; simp only [step, hth]; simp
    | some th =>
      cases hr : thread_step s.wq s.heap env th with
      | none => left; simp only [step, hth, hr]; simp
      | some r =>
        obtain ⟨l1, l2, hp, hset⟩ := pool_split s.pool tid th hth
        have hI2 : HInv s.wq s.heap s.trace (th :: (l1 ++ l2)) :=
          hinv_perm _ _ _ _ _ (by rw [hp]; exact List.perm_middle) hI
        obtain ⟨o, rfl, -⟩ := hinv_thread_step _ _ _ _ _ tid env r hI2 hr
        obtain ⟨hfp, hd⟩ := deliv_thread_step _ _ _ _ _ env o hI2 hr
        have e0 : pends s.heap s.pool = pend s.heap th + pends s.heap (l1 ++ l2) := by
          rw [hp, pends_middle]
        have e1 : pends (step s (.run tid env)).heap (step s (.run tid env)).pool =
            pend o.heap o.next + pends s.heap (l1 ++ l2) := by
          simp only [step, hth, hr, Sys.apply, hset]
          rw [pends_append, pends_middle, hfp]
          cases o.spawn <;> simp [pends, pend]
        have e2 : taken (step s (.run tid env)).trace = taken s.trace ++ unlinks o.events := by
          simp only [step, hth, hr, Sys.apply]
          rw [taken_append]
        have e3 : engined (step s (.run tid env)).trace =
            engined s.trace ++ calls o.events := by
          simp only [step, hth, hr, Sys.apply]
          rw [engined_append]
        rw [e0, e1, e2, e3]
        rcases hd with ⟨g1, g2, g3⟩ | ⟨d, hl, g1, g2, g3, g4⟩ | ⟨d, hl, g1, g2, g3, g4⟩
        · left
          rw [g1, g2, g3]
          simp
        · right; left
          refine ⟨d, tid, env, th, rfl, hth, hl, g3, by rw [g1], by rw [g2]; simp, ?_⟩
          rcases g4 with g4 | ⟨g4, hu⟩
          · left; rw [g4, g3]; abel
          · right; rw [g4, g3]; exact ⟨rfl, hu⟩
        · right; right
          refine ⟨d, tid, env, th, rfl, hth, hl, g3, by rw [g1]; simp, by rw [g2], ?_⟩
          rw [g4, g3]; abel

theorem pends_of_not_live (h : Heap) (l : List Thread) (hl : lives l ≤ 0) :
    pends h l = 0 := by
  induction l with
  | nil => rfl
  | cons x l ih =>
    have h0 : 0 ≤ lives l := by
      unfold lives
      exact List.sum_nonneg (fun y hy => by
        obtain ⟨t, -, rfl⟩ := List.mem_map.mp hy
        exact liveN_nonneg t)
    have hx := liveN_nonneg x
    simp only [lives, List.map_cons, List.sum_cons] at hl
    have hx0 : x.liveN = 0 := by unfold lives at h0; omega
    have hl0 : lives l ≤ 0 := by unfold lives at h0 ⊢; omega
    rw [pends_cons, ih hl0]
    cases x <;> simp_all [Thread.liveN, Thread.live, pend]

/-- With at most one server alive, a payload can be under way only in the hands
of that server. -/
theorem pends_of_lives_le_one (h : Heap) (pool : List Thread) (tid : Nat) (th : Thread)
    (hl : lives pool ≤ 1) (hth : pool.get? tid = some th) (hlive : th.live = true) :
    pends h pool = pend h th := by
  obtain ⟨l1, l2, hp, -⟩ := pool_split pool tid th hth
  rw [hp, pends_middle]
  have : lives (l1 ++ l2) ≤ 0 := by
    rw [hp] at hl
    simp only [lives, List.map_append, List.map_cons, List.sum_append, List.sum_cons,
      Thread.liveN, hlive, if_true] at hl ⊢
    omega
  rw [pends_of_not_live h _ this, add_zero]

/-! ## The order of the calls of the engine under a bound of one -/

theorem ordered_step (s : Sys) (l : Label) (hs : s.HInv) (hl : lives s.pool ≤ 1)
    (ho : Ordered s) : Ordered (step s l) := by
  obtain ⟨pl, hpl, hsub⟩ := ho
  rcases sys_deliv s l hs with ⟨g1, g2, g3⟩ |
    ⟨d, tid, env, th, rfl, hth, hlive, hp, g1, g2, g3⟩ |
    ⟨d, tid, env, th, rfl, hth, hlive, hp, g1, g2, g3⟩
  · exact ⟨pl, by rw [g3]; exact hpl, by rw [g1, g2]; exact hsub⟩
  · have h0 : pends s.heap s.pool = 0 := by
      rw [pends_of_lives_le_one s.heap s.pool tid th hl hth hlive, hp]
    have hpl0 : pl = [] := by
      rw [h0] at hpl
      exact (Multiset.coe_eq_zero _).mp hpl
    subst hpl0
    rw [List.append_nil] at hsub
    rcases g3 with g3 | ⟨g3, -⟩
    · refine ⟨[d], by rw [g3, h0]; rfl, ?_⟩
      rw [g1, g2]
      exact hsub.append (List.Sublist.refl _)
    · refine ⟨[], by rw [g3, h0]; rfl, ?_⟩
      rw [g1, g2, List.append_nil]
      exact hsub.trans (List.sublist_append_left _ _)
  · have h0 : pends s.heap s.pool = {d} := by
      rw [pends_of_lives_le_one s.heap s.pool tid th hl hth hlive, hp]
    have hpl0 : pl = [d] := by
      rw [h0] at hpl
      exact Multiset.coe_eq_singleton.mp hpl
    subst hpl0
    have h1 : pends (step s (.run tid env)).heap (step s (.run tid env)).pool = 0 := by
      rw [h0] at g3
      have : pends (step s (.run tid env)).heap (step s (.run tid env)).pool + {d} =
          0 + {d} := by rw [zero_add]; exact g3.symm
      exact add_right_cancel this
    refine ⟨[], by rw [h1]; rfl, ?_⟩
    rw [g1, g2, List.append_nil]
    exact hsub

theorem ordered_exec (wq0 : workq_t) (N : Int) (engine : Nat) (env : Env)
    (hinit : (workq_init wq0 N engine env).1 = 0) (hN : N ≤ 1) (ls : List Label) :
    Ordered (after_init wq0 N engine env ls) := by
  have key : ∀ ls, NumInv N (after_init wq0 N engine env ls) ∧
      (after_init wq0 N engine env ls).HInv ∧ Ordered (after_init wq0 N engine env ls) := by
    intro ls
    refine exec_inv (fun s => NumInv N s ∧ s.HInv ∧ Ordered s) ?_ ls _ ?_
    · intro s l ⟨h1, h2, h3⟩
      refine ⟨numInv_step N s l h1, hinv_step s l h2, ordered_step s l h2 ?_ h3⟩
      obtain ⟨-, -, g3, g4⟩ := h1
      have : max N 0 ≤ 1 := max_le hN (by norm_num)
      omega
    · refine ⟨numInv_start wq0 N engine env hinit, ?_, ?_⟩
      · exact hinv_exec wq0 N engine env hinit []
      · exact ⟨[], rfl, by simp [Sys.start, engined, taken]⟩
  exact (key ls).2.2

/-! ## Schedules in which no primitive fails -/

theorem workq_server_locked_clean (h : Heap) (env : Env) (hu : env.unlock = 0) :
    ∀ (n : Nat) (p : Pt) (wq : workq_t) (evs : List Event) (o : Out),
      workq_server_locked n p wq h env evs = .ok o →
      (o.wq.counter = wq.counter ∧ o.next.liveN = 1 ∧
        (o.wq.first ≠ none → wq.first ≠ none)) ∨
      (o.next.liveN = 0 ∧ o.wq.counter = wq.counter - 1 ∧ o.wq.first = none) := by
  intro n
  induction n with
  | zero => intro p wq evs o hr; simp [workq_server_locked] at hr
  | succ n ih =>
    intro p wq evs o hr
    cases p with
    | inner =>
      simp only [workq_server_locked] at hr
      split at hr
      · cases hr; left; simp [Thread.liveN, Thread.live]
      · exact ih _ _ _ _ hr
    | take t =>
      simp only [workq_server_locked] at hr
      split at hr
      · rename_i we hwe
        split at hr
        · cases hr
        · simp only [hu, ne_eq, not_true_eq_false, if_false] at hr
          cases hr
          left
          refine ⟨?_, ?_, ?_⟩
          · split <;> rfl
          · simp [Thread.liveN, Thread.live]
          · intro _; simp [hwe]
      · exact ih _ _ _ _ hr
    | tests t =>
      simp only [workq_server_locked] at hr
      split at hr
      · rename_i hq
        split at hr <;> cases hr <;> right <;> simp [Thread.liveN, Thread.live, hq.1]
      · split at hr
        · rename_i hq
          cases hr; right; simp [Thread.liveN, Thread.live, hq.1]
        · exact ih _ _ _ _ hr

theorem server_step_clean (h : Heap) (env : Env) (hu : env.unlock = 0) (n : Nat) (p : Pt)
    (wq : workq_t) (evs : List Event) (o : Out) (th : Thread)
    (hr : workq_server_locked n p wq h env evs = .ok o) (hth : th.liveN = 1) :
    o.next.liveN + (if o.spawn then 1 else 0) + wq.counter = th.liveN + o.wq.counter ∧
    (1 ≤ wq.parallelism → (wq.first ≠ none → 0 < wq.counter) →
      o.wq.first ≠ none → 0 < o.wq.counter) := by
  have hsp := (workq_server_locked_num _ _ _ _ _ _ _ hr).2.2.2.2.2.1
  rw [hsp, hth]
  rcases workq_server_locked_clean h env hu n p wq evs o hr with ⟨g1, g2, g3⟩ | ⟨g1, g2, g3⟩
  · refine ⟨by simp [g1, g2], ?_⟩
    intro _ hq hf
    rw [g1]
    exact hq (g3 hf)
  · refine ⟨by simp [g1, g2], ?_⟩
    intro _ _ hf
    exact absurd g3 hf

theorem thread_step_clean (wq : workq_t) (h : Heap) (env : Env) (th : Thread) (o : Out)
    (hc : env.clean) (hidle : wq.idle = 0) (hcnt : 0 ≤ wq.counter)
    (hr : thread_step wq h env th = some (.ok o)) :
    o.next.liveN + (if o.spawn then 1 else 0) + wq.counter = th.liveN + o.wq.counter ∧
    (1 ≤ wq.parallelism → (wq.first ≠ none → 0 < wq.counter) →
      o.wq.first ≠ none → 0 < o.wq.counter) := by
  obtain ⟨c1, c2, c3, c4, c5, c6⟩ := hc
  cases th with
  | add_locking item el =>
    simp only [thread_step, workq_add_locked, Option.some.injEq, c1, ne_eq,
      not_true_eq_false, if_false] at hr
    split at hr
    · cases hr
    · rename_i wq1 h1 hl
      obtain ⟨h1, h2, h3, h4, h5, -⟩ := add_link_fields wq h item wq1 _ hl
      have hni : ¬ wq1.idle > 0 := by rw [h2, hidle]; decide
      simp only [hni, if_false, c5, ne_eq, not_true_eq_false] at hr
      split at hr
      · cases hr
        refine ⟨by simp [Thread.liveN, Thread.live, h5]; omega, ?_⟩
        intro _ _ _
        simp only
        omega
      · cases hr
        refine ⟨by simp [Thread.liveN, Thread.live, h5], ?_⟩
        intro _ _ _
        simp only
        omega
  | destroy_locking =>
    simp only [thread_step, workq_destroy_locked, workq_destroy_while, workq_destroy_release,
      Option.some.injEq] at hr
    repeat' split at hr
    all_goals cases hr
    all_goals simp [Thread.liveN, Thread.live]
  | destroy_waiting =>
    simp only [thread_step, workq_destroy_wake, workq_destroy_while, workq_destroy_release,
      Option.some.injEq] at hr
    repeat' split at hr
    all_goals cases hr
    all_goals simp [Thread.liveN, Thread.live]
  | destroy_unlocked =>
    simp only [thread_step, workq_destroy_final, Option.some.injEq] at hr
    cases hr
    simp [Thread.liveN, Thread.live]
  | server_start =>
    simp only [thread_step, workq_server_begin, Option.some.injEq, c1, ne_eq,
      not_true_eq_false, if_false] at hr
    exact server_step_clean _ _ c2 _ _ _ _ _ _ hr rfl
  | server_waiting =>
    simp only [thread_step, workq_server_wake, Option.some.injEq] at hr
    split at hr
    · exact server_step_clean _ _ c2 _ _ _ _ _ _ hr rfl
    · rename_i hne
      have h0 : env.wait = 0 := by
        rcases c6 with h0 | h0
        · exact h0
        · exact absurd h0 hne
      simp only [h0, ne_eq, not_true_eq_false, if_false] at hr
      exact server_step_clean _ _ c2 _ _ _ _ _ _ hr rfl
  | server_dequeued we t =>
    simp only [thread_step, workq_server_call, Option.some.injEq] at hr
    split at hr
    · cases hr
    · cases hr; simp [Thread.liveN, Thread.live]
  | server_engine we t =>
    simp only [thread_step, workq_server_resume, Option.some.injEq] at hr
    split at hr
    · cases hr
    · simp only [c1, ne_eq, not_true_eq_false, if_false] at hr
      exact server_step_clean _ _ c2 _ _ _ _ _ _ hr rfl
  | add_done st => simp [thread_step] at hr
  | destroy_done st => simp [thread_step] at hr
  | server_done => simp [thread_step] at hr

theorem exec_inv_clean (P : Sys → Prop)
    (hstep : ∀ s l, l.clean → P s → P (step s l)) :
    ∀ (ls : List Label), (∀ l ∈ ls, l.clean) → ∀ (s : Sys), P s → P (exec s ls) := by
  intro ls
  induction ls with
  | nil => intro _ s hs; exact hs
  | cons l ls ih =>
    intro hc s hs
    exact ih (fun x hx => hc x (List.mem_cons_of_mem _ hx)) (step s l)
      (hstep s l (hc l (List.mem_cons_self _ _)) hs)

theorem lives_nonneg (pool : List Thread) : 0 ≤ lives pool := by
  unfold lives
  exact List.sum_nonneg (fun y hy => by
    obtain ⟨t, -, rfl⟩ := List.mem_map.mp hy
    exact liveN_nonneg t)

theorem cleanInv_step (N : Int) (s : Sys) (l : Label) (hl : l.clean)
    (hn : NumInv N s) (hh : s.HInv) (hc : CleanInv N s) : CleanInv N (step s l) := by
  obtain ⟨k1, k2, k3⟩ := hc
  obtain ⟨n1, n2, n3, n4⟩ := hn
  have key3 : (taken (step s l).trace : Multiset Nat) =
      (engined (step s l).trace : Multiset Nat) + pends (step s l).heap (step s l).pool := by
    rcases sys_deliv s l hh with ⟨g1, g2, g3⟩ |
      ⟨d, tid, env, th, rfl, hth, hlive, hp, g1, g2, g3⟩ |
      ⟨d, tid, env, th, rfl, hth, hlive, hp, g1, g2, g3⟩
    · rw [g1, g2, g3]; exact k3
    · rcases g3 with g3 | ⟨-, hu⟩
      · rw [g1, g2, g3, ← Multiset.coe_add, k3, add_assoc]
        rfl
      · exact absurd hl.2.1 hu
    · rw [g1, g2, ← Multiset.coe_add, k3, g3, add_assoc,
        add_comm _ ({d} : Multiset Nat)]
      rfl
  refine ⟨?_, ?_, key3⟩
  · cases l with
    | call_add el m =>
      simp only [step]
      split
      · exact k1
      · simp only [lives_append]
        simp [lives, add_entry_liveN]
        exact k1
    | call_destroy =>
      simp only [step, lives_append]
      simp [lives, destroy_entry_liveN]
      exact k1
    | run tid env =>
      rcases step_run_cases s tid env with he | he | ⟨th, o, hth, hr, he⟩
      · rw [he]; exact k1
      · rw [he]; exact k1
      · rw [he]
        have hcnt : 0 ≤ s.wq.counter := le_trans (lives_nonneg _) n3
        obtain ⟨g1, -⟩ := thread_step_clean _ _ _ _ _ hl n2 hcnt hr
        simp only [Sys.apply, lives_append, lives_set _ _ _ _ hth]
        have e1 : lives ([] : List Thread) = 0 := rfl
        have e2 : lives [Thread.server_start] = 1 := rfl
        cases hsp : o.spawn
        · simp only [hsp, if_false, e1, Bool.false_eq_true] at g1 ⊢; omega
        · simp only [hsp, if_true, e2] at g1 ⊢; omega
  · intro hN
    cases l with
    | call_add el m =>
      simp only [step]
      split
      · exact k2 hN
      · exact k2 hN
    | call_destroy => exact k2 hN
    | run tid env =>
      rcases step_run_cases s tid env with he | he | ⟨th, o, hth, hr, he⟩
      · rw [he]; exact k2 hN
      · rw [he]; exact k2 hN
      · rw [he]
        have hcnt : 0 ≤ s.wq.counter := le_trans (lives_nonneg _) n3
        obtain ⟨-, g2⟩ := thread_step_clean _ _ _ _ _ hl n2 hcnt hr
        exact g2 (by rw [n1]; exact hN) (k2 hN)

theorem cleanInv_exec (wq0 : workq_t) (N : Int) (engine : Nat) (env : Env)
    (hinit : (workq_init wq0 N engine env).1 = 0) (ls : List Label)
    (hc : ∀ l ∈ ls, l.clean) :
    CleanInv N (after_init wq0 N engine env ls) := by
  have key : NumInv N (after_init wq0 N engine env ls) ∧
      (after_init wq0 N engine env ls).HInv ∧ CleanInv N (after_init wq0 N engine env ls) := by
    refine exec_inv_clean (fun s => NumInv N s ∧ s.HInv ∧ CleanInv N s) ?_ ls hc _ ?_
    · intro s l hl ⟨h1, h2, h3⟩
      exact ⟨numInv_step N s l h1, hinv_step s l h2, cleanInv_step N s l hl h1 h2 h3⟩
    · refine ⟨numInv_start wq0 N engine env hinit, hinv_exec wq0 N engine env hinit [], ?_⟩
      rw [workq_init_ok _ _ _ _ hinit]
      refine ⟨rfl, fun _ hf => absurd rfl hf, ?_⟩
      simp [Sys.start, engined, taken, pends]
  exact key.2.2

/-! ## The validity flag and the rundown -/

theorem valid_ne_zero : WORKQ_VALID ≠ 0 := by decide

theorem workq_server_locked_next (h : Heap) (env : Env) (n : Nat) (p : Pt) (wq : workq_t)
    (evs : List Event) (o : Out) (hr : workq_server_locked n p wq h env evs = .ok o) :
    o.next.past_lock = false ∧ o.next.adding = false := by
  obtain ⟨-, -, -, -, hcase⟩ := workq_server_locked_spec h env n p wq evs o hr
  rcases hcase with ⟨-, -, -, hnx | hnx⟩ |
    ⟨we, e, -, -, -, -, -, ⟨hnx, -⟩ | ⟨t, hnx, -⟩⟩ <;>
    rw [hnx] <;> exact ⟨rfl, rfl⟩

theorem thread_step_valid (wq : workq_t) (h : Heap) (env : Env) (th : Thread) (o : Out)
    (hr : thread_step wq h env th = some (.ok o)) :
    (o.next.past_lock = true → th.past_lock = true ∨ o.wq.valid = 0) ∧
    (o.next.adding = true → False) := by
  cases th with
  | add_locking item el =>
    simp only [thread_step, workq_add_locked, Option.some.injEq] at hr
    repeat' split at hr
    all_goals cases hr
    all_goals simp [Thread.past_lock, Thread.adding]
  | destroy_locking =>
    simp only [thread_step, workq_destroy_locked, workq_destroy_while, workq_destroy_release,
      Option.some.injEq] at hr
    repeat' split at hr
    all_goals cases hr
    all_goals simp [Thread.past_lock, Thread.adding]
  | destroy_waiting =>
    simp only [thread_step, workq_destroy_wake, workq_destroy_while, workq_destroy_release,
      Option.some.injEq] at hr
    repeat' split at hr
    all_goals cases hr
    all_goals simp [Thread.past_lock, Thread.adding]
  | destroy_unlocked =>
    simp only [thread_step, workq_destroy_final, Option.some.injEq] at hr
    cases hr
    simp [Thread.past_lock, Thread.adding]
  | server_start =>
    simp only [thread_step, workq_server_begin, Option.some.injEq] at hr
    split at hr
    · cases hr; simp [Thread.past_lock, Thread.adding]
    · obtain ⟨g1, g2⟩ := workq_server_locked_next _ _ _ _ _ _ _ hr
      simp [g1, g2]
  | server_waiting =>
    simp only [thread_step, workq_server_wake, Option.some.injEq] at hr
    split at hr
    · obtain ⟨g1, g2⟩ := workq_server_locked_next _ _ _ _ _ _ _ hr
      simp [g1, g2]
    · split at hr
      · cases hr; simp [Thread.past_lock, Thread.adding]
      · obtain ⟨g1, g2⟩ := workq_server_locked_next _ _ _ _ _ _ _ hr
        simp [g1, g2]
  | server_dequeued we t =>
    simp only [thread_step, workq_server_call, Option.some.injEq] at hr
    split at hr
    · cases hr
    · cases hr; simp [Thread.past_lock, Thread.adding]
  | server_engine we t =>
    simp only [thread_step, workq_server_resume, Option.some.injEq] at hr
    split at hr
    · cases hr
    · split at hr
      · cases hr; simp [Thread.past_lock, Thread.adding]
      · obtain ⟨g1, g2⟩ := workq_server_locked_next _ _ _ _ _ _ _ hr
        simp [g1, g2]
  | add_done st => simp [thread_step] at hr
  | destroy_done st => simp [thread_step] at hr
  | server_done => simp [thread_step] at hr

/-- Once `valid` is not `WORKQ_VALID` it never is again. -/
theorem valid_cleared_step (s : Sys) (l : Label) (hv : s.wq.valid ≠ WORKQ_VALID) :
    (step s l).wq.valid ≠ WORKQ_VALID := by
  cases l with
  | call_add el m =>
    simp only [step]
    split <;> exact hv
  | call_destroy => exact hv
  | run tid env =>
    rcases step_run_cases s tid env with he | he | ⟨th, o, hth, hr, he⟩
    · rw [he]; exact hv
    · rw [he]; exact hv
    · rw [he]
      obtain ⟨-, -, -, g4, -⟩ := thread_step_num _ _ _ _ _ hr
      simp only [Sys.apply]
      rcases g4 with g4 | g4 <;> rw [g4]
      · exact hv
      · exact fun hh => valid_ne_zero hh.symm

theorem valid_cleared_exec (s : Sys) (ls : List Label) (hv : s.wq.valid ≠ WORKQ_VALID) :
    (exec s ls).wq.valid ≠ WORKQ_VALID :=
  exec_inv (fun s => s.wq.valid ≠ WORKQ_VALID) valid_cleared_step ls s hv

theorem validInv_step (s : Sys) (l : Label) (hs : ValidInv s) : ValidInv (step s l) := by
  obtain ⟨h1, h2⟩ := hs
  cases l with
  | call_add el m =>
    simp only [step]
    split
    · exact ⟨h1, h2⟩
    · refine ⟨h1, ?_⟩
      intro hv t ht
      rcases List.mem_append.mp ht with hm | hm
      · exact h2 hv t hm
      · have : t = (workq_add_entry s.wq s.heap el m).1 := by simpa using hm
        rw [this]
        unfold workq_add_entry
        split
        · rfl
        · split <;> rfl
  | call_destroy =>
    refine ⟨h1, ?_⟩
    intro hv t ht
    simp only [step] at ht
    rcases List.mem_append.mp ht with hm | hm
    · exact h2 hv t hm
    · have : t = workq_destroy_entry s.wq := by simpa using hm
      rw [this]
      unfold workq_destroy_entry
      split <;> rfl
  | run tid env =>
    rcases step_run_cases s tid env with he | he | ⟨th, o, hth, hr, he⟩
    · rw [he]; exact ⟨h1, h2⟩
    · rw [he]; exact ⟨h1, h2⟩
    · rw [he]
      obtain ⟨-, -, -, g4, -⟩ := thread_step_num _ _ _ _ _ hr
      obtain ⟨g5, -⟩ := thread_step_valid _ _ _ _ _ hr
      simp only [Sys.apply]
      constructor
      · rcases g4 with g4 | g4
        · rw [g4]; exact h1
        · exact Or.inr g4
      · intro hv t ht
        have hv0 : o.wq.valid ≠ 0 := by rw [hv]; exact valid_ne_zero
        have hvs : s.wq.valid = WORKQ_VALID := by
          rcases g4 with g4 | g4
          · rw [← g4]; exact hv
          · exact absurd g4 hv0
        rcases List.mem_append.mp ht with hm | hm
        · rcases List.mem_or_eq_of_mem_set hm with hm | rfl
          · exact h2 hvs t hm
          · cases hpl : o.next.past_lock
            · rfl
            · rcases g5 hpl with g6 | g6
              · rw [h2 hvs th (List.get?_mem hth)] at g6
                cases g6
              · exact absurd g6 hv0
        · cases hsp : o.spawn
          · simp [hsp] at hm
          · simp only [hsp, if_true, List.mem_singleton] at hm
            rw [hm]; rfl

theorem validInv_exec (wq0 : workq_t) (N : Int) (engine : Nat) (env : Env)
    (hinit : (workq_init wq0 N engine env).1 = 0) (ls : List Label) :
    ValidInv (after_init wq0 N engine env ls) := by
  refine exec_inv ValidInv validInv_step ls _ ?_
  rw [workq_init_ok _ _ _ _ hinit]
  exact ⟨Or.inl rfl, fun _ t ht => by cases ht⟩

theorem frozen_thread_step (wq : workq_t) (h : Heap) (env : Env) (th : Thread) (r : Res)
    (hc : wq.counter = 0) (hlive : th.live = false) (hadd : th.adding = false)
    (hr : thread_step wq h env th = some r) :
    ∃ o, r = .ok o ∧ o.wq.counter = 0 ∧ o.wq.first = wq.first ∧ o.next.liveN = 0 ∧
      o.next.adding = false ∧ o.spawn = false ∧ links o.events = [] ∧
      calls o.events = [] := by
  cases th with
  | add_locking item el => simp [Thread.adding] at hadd
  | destroy_locking =>
    simp only [thread_step, workq_destroy_locked, workq_destroy_while, workq_destroy_release,
      Option.some.injEq, hc] at hr
    subst hr
    repeat' split
    all_goals exact ⟨_, rfl, by simp [hc], rfl, rfl, rfl, rfl, rfl, rfl⟩
  | destroy_waiting =>
    simp only [thread_step, workq_destroy_wake, workq_destroy_while, workq_destroy_release,
      Option.some.injEq, hc] at hr
    subst hr
    repeat' split
    all_goals exact ⟨_, rfl, by simp [hc], rfl, rfl, rfl, rfl, rfl, rfl⟩
  | destroy_unlocked =>
    simp only [thread_step, workq_destroy_final, Option.some.injEq] at hr
    subst hr
    exact ⟨_, rfl, hc, rfl, rfl, rfl, rfl, rfl, rfl⟩
  | server_start => simp [Thread.live] at hlive
  | server_waiting => simp [Thread.live] at hlive
  | server_dequeued we t => simp [Thread.live] at hlive
  | server_engine we t => simp [Thread.live] at hlive
  | add_done st => simp [thread_step] at hr
  | destroy_done st => simp [thread_step] at hr
  | server_done => simp [thread_step] at hr

theorem not_live_of_lives (pool : List Thread) (hl : lives pool ≤ 0) :
    ∀ t ∈ pool, t.live = false := by
  induction pool with
  | nil => intro t ht; cases ht
  | cons x l ih =>
    intro t ht
    have h0 := lives_nonneg l
    have hx := liveN_nonneg x
    have hs : lives (x :: l) = x.liveN + lives l := by simp [lives]
    rw [hs] at hl
    rcases List.mem_cons.mp ht with rfl | hm
    · have : t.liveN = 0 := by omega
      cases hb : t.live
      · rfl
      · simp [Thread.liveN, hb] at this
    · exact ih (by omega) t hm

/-- In a frozen state a step changes neither the counter, nor the queue, nor
what was linked and what was given to the engine. -/
theorem frozen_step (s : Sys) (l : Label) (hs : Frozen s) :
    Frozen (step s l) ∧ (step s l).wq.first = s.wq.first ∧
    linked (step s l).trace = linked s.trace ∧
    engined (step s l).trace = engined s.trace := by
  obtain ⟨f1, f2, f3, f4⟩ := hs
  have hv := valid_cleared_step s l f1
  cases l with
  | call_add el m =>
    simp only [step] at hv ⊢
    split
    · exact ⟨⟨f1, f2, f3, f4⟩, rfl, rfl, rfl⟩
    · have he : workq_add_entry s.wq s.heap el m = (.add_done EINVAL, s.heap, []) := by
        simp [workq_add_entry, f1]
      simp only [he]
      refine ⟨⟨f1, f2, ?_, ?_⟩, by simp, by simp, by simp⟩
      · rw [lives_append]
        have : lives [Thread.add_done EINVAL] = 0 := rfl
        omega
      · intro t ht
        rcases List.mem_append.mp ht with hm | hm
        · exact f4 t hm
        · have : t = Thread.add_done EINVAL := by simpa using hm
          rw [this]; rfl
  | call_destroy =>
    have he : workq_destroy_entry s.wq = .destroy_done EINVAL := by
      simp [workq_destroy_entry, f1]
    simp only [step, he]
    refine ⟨⟨f1, f2, ?_, ?_⟩, by simp, by simp, by simp⟩
    · rw [lives_append]
      have : lives [Thread.destroy_done EINVAL] = 0 := rfl
      omega
    · intro t ht
      rcases List.mem_append.mp ht with hm | hm
      · exact f4 t hm
      · have : t = Thread.destroy_done EINVAL := by simpa using hm
        rw [this]; rfl
  | run tid env =>
    cases hth : s.pool.get? tid with
    | none =>
      simp only [step, hth]
      exact ⟨⟨f1, f2, f3, f4⟩, by simp, by simp, by simp⟩
    | some th =>
      cases hr : thread_step s.wq s.heap env th with
      | none =>
        simp only [step, hth, hr]
        exact ⟨⟨f1, f2, f3, f4⟩, by simp, by simp, by simp⟩
      | some r =>
        have hmem := List.get?_mem hth
        obtain ⟨o, rfl, g1, g2, g3, g4, g5, g6, g7⟩ :=
          frozen_thread_step _ _ _ _ _ f2 (not_live_of_lives _ f3 th hmem) (f4 th hmem) hr
        simp only [step, hth, hr, Sys.apply] at hv ⊢
        refine ⟨⟨hv, g1, ?_, ?_⟩, g2, ?_, ?_⟩
        · rw [g5]
          simp only [Bool.false_eq_true, if_false, List.append_nil, lives_set _ _ _ _ hth]
          have := liveN_nonneg th
          omega
        · intro t ht
          rw [g5] at ht
          simp only [Bool.false_eq_true, if_false, List.append_nil] at ht
          rcases List.mem_or_eq_of_mem_set ht with hm | rfl
          · exact f4 t hm
          · exact g4
        · rw [linked_append, g6, List.append_nil]
        · rw [engined_append, g7, List.append_nil]

theorem frozen_exec (s : Sys) (hs : Frozen s) :
    ∀ (ls : List Label), Frozen (exec s ls) ∧ (exec s ls).wq.first = s.wq.first ∧
      linked (exec s ls).trace = linked s.trace ∧
      engined (exec s ls).trace = engined s.trace := by
  intro ls
  induction ls generalizing s with
  | nil => exact ⟨hs, rfl, rfl, rfl⟩
  | cons l ls ih =>
    obtain ⟨g1, g2, g3, g4⟩ := frozen_step s l hs
    obtain ⟨k1, k2, k3, k4⟩ := ih (step s l) g1
    exact ⟨k1, k2.trans g2, k3.trans g3, k4.trans g4⟩

/-- The step with which `workq_destroy` leaves its rundown: the counter is not
positive, and `valid` has been cleared by this call. -/
theorem workq_destroy_release_step (wq : workq_t) (h : Heap) (env : Env) (th : Thread) (o : Out)
    (hth : th = .destroy_locking ∨ th = .destroy_waiting)
    (hr : thread_step wq h env th = some (.ok o)) (hnx : o.next = .destroy_unlocked) :
    o.wq.counter ≤ 0 ∧ o.spawn = false ∧
    (th = .destroy_locking → o.wq.valid = 0) ∧ (th = .destroy_waiting → o.wq = wq) := by
  rcases hth with rfl | rfl
  · simp only [thread_step, workq_destroy_locked, workq_destroy_while, workq_destroy_release,
      Option.some.injEq] at hr
    repeat' split at hr
    all_goals cases hr
    all_goals simp at hnx
    all_goals simp_all
  · simp only [thread_step, workq_destroy_wake, workq_destroy_while, workq_destroy_release,
      Option.some.injEq] at hr
    repeat' split at hr
    all_goals cases hr
    all_goals simp at hnx
    all_goals simp_all

/-! ## Lemmas for the claims -/

theorem get?_set_append (pool l : List Thread) (tid : Nat) (th x : Thread)
    (hth : pool.get? tid = some th) : (pool.set tid x ++ l).get? tid = some x := by
  have h1 : tid < pool.length := by
    rcases Nat.lt_or_ge tid pool.length with h | h
    · exact h
    · rw [List.get?_eq_none.mpr h] at hth; cases hth
  have h2 : tid < (pool.set tid x).length := by simpa using h1
  rw [List.get?_eq_getElem?, List.getElem?_append_left h2]
  simp [List.getElem?_set, h1]

/-- The test of line 256: on a queue whose `valid` is not `WORKQ_VALID`,
`workq_add` returns `EINVAL` before it allocates anything. -/
theorem add_entry_invalid (wq : workq_t) (h : Heap) (el : Nat) (m : Option Nat)
    (hv : wq.valid ≠ WORKQ_VALID) :
    workq_add_entry wq h el m = (.add_done EINVAL, h, []) := by
  simp [workq_add_entry, hv]

theorem add_link_last (wq : workq_t) (h : Heap) (item : Nat) (wq1 : workq_t) (h1 : Heap)
    (hl : workq_add_link wq h item = some (wq1, h1)) : wq1.last = some item := by
  unfold workq_add_link at hl
  revert hl
  split
  · intro hl; cases hl; rfl
  · split
    · intro hl; cases hl
    · split
      · intro hl; cases hl
      · intro hl; cases hl; rfl

/-- Once it holds the mutex, `workq_add` links its item, whatever happens to the
signal or to the creation of a server. -/
theorem add_locked_ok (wq : workq_t) (h : Heap) (item el : Nat) (env : Env) (o : Out)
    (hr : workq_add_locked wq h item el env = .ok o) (hlock : env.lock = 0) :
    links o.events = [el] ∧ unlinks o.events = [] ∧ o.wq.last = some item := by
  simp only [workq_add_locked, hlock, ne_eq, not_true_eq_false, if_false] at hr
  split at hr
  · cases hr
  · rename_i wq1 h1 hl
    have hlast := add_link_last wq h item wq1 h1 hl
    repeat' split at hr
    all_goals cases hr
    all_goals exact ⟨rfl, rfl, hlast⟩

/-- The enqueue of `workq_add` on a well-formed queue: the chain is extended by
the item, which becomes the last entry. -/
theorem link_chain (wq : workq_t) (h : Heap) (item el : Nat) (q : List (Nat × Nat))
    (hitem : h item = some ⟨none, el⟩) (hq : Chain h wq.first q)
    (hlast : wq.last = (q.map Prod.fst).getLast?) (hnd : (q.map Prod.fst).Nodup)
    (hni : item ∉ q.map Prod.fst) :
    ∃ wq1 h1, workq_add_link wq h item = some (wq1, h1) ∧
      Chain h1 wq1.first (q ++ [(item, el)]) ∧ wq1.last = some item := by
  cases hf : wq.first with
  | none =>
    rw [hf] at hq
    have hq0 : q = [] := chain_none h q hq
    subst hq0
    refine ⟨_, _, (by simp only [workq_add_link, hf]; rfl), ?_, rfl⟩
    exact ⟨rfl, none, hitem, rfl⟩
  | some a =>
    rw [hf] at hq
    cases q with
    | nil => cases hq
    | cons x q0 =>
      have hne : (List.map Prod.fst (x :: q0)) ≠ [] := by simp
      obtain ⟨l, hl⟩ : ∃ l, (List.map Prod.fst (x :: q0)).getLast? = some l :=
        ⟨_, List.getLast?_eq_getLast _ hne⟩
      have hlm : l ∈ List.map Prod.fst (x :: q0) := List.mem_of_getLast?_eq_some hl
      obtain ⟨e, he⟩ := Option.ne_none_iff_exists'.mp (chain_alloc h _ _ hq l hlm)
      rw [hl] at hlast
      refine ⟨_, _, (by simp only [workq_add_link, hf, hlast, he]; rfl), ?_, rfl⟩
      simp only [hf]
      exact chain_snoc h item el hitem _ _ l e hq hl he hnd hni

theorem destroy_locked_valid (wq : workq_t) (h : Heap) (env : Env) (o : Out)
    (hr : workq_destroy_locked wq h env = .ok o) (hlock : env.lock = 0) :
    o.wq.valid = 0 := by
  simp only [workq_destroy_locked, workq_destroy_while, workq_destroy_release, hlock, ne_eq,
    not_true_eq_false, if_false] at hr
  repeat' split at hr
  all_goals cases hr
  all_goals rfl

/-- The state in which `workq_destroy` has just left its rundown. -/
theorem rundown_state (wq0 : workq_t) (N : Int) (engine : Nat) (env : Env)
    (hinit : (workq_init wq0 N engine env).1 = 0) (ls : List Label) (tid : Nat) (e : Env)
    (hpre : (after_init wq0 N engine env ls).pool.get? tid = some .destroy_locking ∨
      (after_init wq0 N engine env ls).pool.get? tid = some .destroy_waiting)
    (hpost : (step (after_init wq0 N engine env ls) (.run tid e)).pool.get? tid =
      some .destroy_unlocked) :
    (step (after_init wq0 N engine env ls) (.run tid e)).wq.counter = 0 ∧
    (step (after_init wq0 N engine env ls) (.run tid e)).wq.valid = 0 ∧
    lives (step (after_init wq0 N engine env ls) (.run tid e)).pool ≤ 0 := by
  have hn := numInv_exec wq0 N engine env hinit ls
  have hv := validInv_exec wq0 N engine env hinit ls
  have hn1 := numInv_step N _ (.run tid e) hn
  have key : (step (after_init wq0 N engine env ls) (.run tid e)).wq.counter ≤ 0 ∧
      (step (after_init wq0 N engine env ls) (.run tid e)).wq.valid = 0 := by
    rcases step_run_cases (after_init wq0 N engine env ls) tid e with
      he | he | ⟨th, o, hth, hr, he⟩
    · rw [he] at hpost
      rcases hpre with hpre | hpre <;> rw [hpre] at hpost <;> cases hpost
    · rw [he] at hpost
      rcases hpre with hpre | hpre <;> rw [hpre] at hpost <;> cases hpost
    · rw [he] at hpost ⊢
      simp only [Sys.apply] at hpost ⊢
      rw [get?_set_append _ _ _ _ _ hth] at hpost
      have hnx : o.next = .destroy_unlocked := by simpa using hpost
      have hth2 : th = .destroy_locking ∨ th = .destroy_waiting := by
        rcases hpre with hpre | hpre <;> rw [hpre] at hth
        · left; exact (Option.some.inj hth).symm
        · right; exact (Option.some.inj hth).symm
      obtain ⟨g1, -, g3, g4⟩ := workq_destroy_release_step _ _ _ _ _ hth2 hr hnx
      refine ⟨g1, ?_⟩
      rcases hth2 with rfl | rfl
      · exact g3 rfl
      · rw [g4 rfl]
        rcases hv.1 with h1 | h1
        · have := hv.2 h1 _ (List.get?_mem hth)
          cases this
        · exact h1
  obtain ⟨-, -, n3, -⟩ := hn1
  have h0 := lives_nonneg (step (after_init wq0 N engine env ls) (.run tid e)).pool
  exact ⟨by omega, key.2, by omega⟩

/-! ## The claims -/

/-- Witness of C1: bound 2, the schedule `sched_swap`. -/
theorem C1_witness :
    (after_init demo_wq 2 5 Env.ok sched_swap).wq.counter ≤
      (after_init demo_wq 2 5 Env.ok sched_swap).wq.parallelism :=
  (C1_counter_le_parallelism demo_wq 2 5 Env.ok (by decide) (by decide) sched_swap
    (.run 0 Env.ok)).1

/-- Witness of C2: bound 2, the schedule `sched_swap`, in which two servers are
at work together. -/
theorem C2_witness :
    (((after_init demo_wq 2 5 Env.ok sched_swap).pool.countP Thread.busy : Nat) : Int) ≤
      max 2 0 :=
  (C2_busy_le_bound demo_wq 2 5 Env.ok (by decide) sched_swap).1

theorem queue_payloads (s : Sys) (hs : s.HInv) :
    ∃ n ds, payloads s.heap n s.wq.first = some ds ∧
      linked s.trace = taken s.trace ++ ds := by
  obtain ⟨-, q, hc, -, -, -, hlk, -⟩ := hs
  exact ⟨q.length, q.map Prod.snd, chain_payloads _ q _ hc, hlk⟩

/-- C3 (amended): in every state reachable from a successful `workq_init`, the
payloads unlinked by the servers followed by the payloads still in the queue
are the payloads linked by `workq_add`, in the order of linking; the locked
part of `workq_add` appends its payload to what was linked and makes its item
the last entry; a server unlinks nothing or the entry at `wq->first`; and with
a bound of at most 1 the payloads the engine was called on are, in the order
of the calls, a subsequence of the payloads linked. -/
theorem C3_fifo_removal (wq0 : workq_t) (N : Int) (engine : Nat) (env : Env)
    (hinit : (workq_init wq0 N engine env).1 = 0) (ls : List Label) :
    (∃ n ds, payloads (after_init wq0 N engine env ls).heap n
        (after_init wq0 N engine env ls).wq.first = some ds ∧
      linked (after_init wq0 N engine env ls).trace =
        taken (after_init wq0 N engine env ls).trace ++ ds) ∧
    (∀ tid e item el,
      (after_init wq0 N engine env ls).pool.get? tid = some (.add_locking item el) →
      e.lock = 0 →
      linked (step (after_init wq0 N engine env ls) (.run tid e)).trace =
        linked (after_init wq0 N engine env ls).trace ++ [el] ∧
      taken (step (after_init wq0 N engine env ls) (.run tid e)).trace =
        taken (after_init wq0 N engine env ls).trace ∧
      (step (after_init wq0 N engine env ls) (.run tid e)).wq.last = some item) ∧
    (∀ n p wq h e evs o, workq_server_locked n p wq h e evs = .ok o →
      unlinks o.events = unlinks evs ∨
      ∃ we el, wq.first = some we ∧ h we = some el ∧
        unlinks o.events = unlinks evs ++ [el.data] ∧ o.wq.first = el.next) ∧
    (N ≤ 1 → List.Sublist (engined (after_init wq0 N engine env ls).trace)
      (linked (after_init wq0 N engine env ls).trace)) := by
  have hh := hinv_exec wq0 N engine env hinit ls
  obtain ⟨n, ds, hp, hlk⟩ := queue_payloads _ hh
  refine ⟨⟨n, ds, hp, hlk⟩, ?_, ?_, ?_⟩
  · intro tid e item el hth hlock
    obtain ⟨l1, l2, hpool, hset⟩ := pool_split _ tid _ hth
    have hI2 : HInv (after_init wq0 N engine env ls).wq (after_init wq0 N engine env ls).heap
        (after_init wq0 N engine env ls).trace (Thread.add_locking item el :: (l1 ++ l2)) :=
      hinv_perm _ _ _ _ _ (by rw [hpool]; exact List.perm_middle) hh.2
    obtain ⟨o, ho, -⟩ := hinv_thread_step _ _ _ _ _ tid e
      (workq_add_locked (after_init wq0 N engine env ls).wq
        (after_init wq0 N engine env ls).heap item el e) hI2 rfl
    obtain ⟨g1, g2, g3⟩ := add_locked_ok _ _ _ _ _ _ ho hlock
    simp only [step, hth, thread_step, ho, Sys.apply]
    rw [linked_append, taken_append, g1, g2]
    exact ⟨rfl, by simp, g3⟩
  · intro n p wq h e evs o hr
    obtain ⟨-, -, -, -, hcase⟩ := workq_server_locked_spec h e n p wq evs o hr
    rcases hcase with ⟨-, -, g, -⟩ | ⟨we, el, g1, g2, g3, -, g4, -⟩
    · exact Or.inl g
    · exact Or.inr ⟨we, el, g1, g2, g4, g3⟩
  · intro hN
    obtain ⟨pl, -, hsub⟩ := ordered_exec wq0 N engine env hinit hN ls
    rw [hlk]
    exact ((List.sublist_append_left _ _).trans hsub).trans (List.sublist_append_left _ _)

/-- Witness of C3: bound 1, the schedule `sched_limbo`. -/
theorem C3_witness :
    List.Sublist (engined (after_init demo_wq 1 5 Env.ok sched_limbo).trace)
      (linked (after_init demo_wq 1 5 Env.ok sched_limbo).trace) :=
  (C3_fifo_removal demo_wq 1 5 Env.ok (by decide) sched_limbo).2.2.2 (by decide)

/-- Counterexample to C3 as stated: one caller adds 1 and then 2 to a queue of
bound 2; the items are linked and unlinked in that order, and the engine is
called on 2 before it is called on 1. -/
theorem C3_counterexample :
    linked (after_init demo_wq 2 5 Env.ok sched_swap).trace = [1, 2] ∧
    taken (after_init demo_wq 2 5 Env.ok sched_swap).trace = [1, 2] ∧
    engined (after_init demo_wq 2 5 Env.ok sched_swap).trace = [2, 1] := by
  decide

/-- C4 (amended): in every state reachable from a successful `workq_init`, the
payloads unlinked by the servers followed by the payloads still in the queue
are the payloads linked by `workq_add`; the payloads given to the engine
together with those a server has unlinked and not yet given to it are among
the payloads unlinked, each as often as it was unlinked, and they are all of
them when no primitive has failed; and when no primitive fails, the bound is
at least 1 and no `workq_add` is under way at the moment `workq_destroy`
leaves its rundown, then from that moment on (so also when it returns) the
queue is empty and the payloads given to the engine are the payloads linked,
each exactly as often as it was linked. -/
theorem C4_no_loss_no_duplicate (wq0 : workq_t) (N : Int) (engine : Nat) (env : Env)
    (hinit : (workq_init wq0 N engine env).1 = 0) (ls : List Label) :
    (∃ n ds, payloads (after_init wq0 N engine env ls).heap n
        (after_init wq0 N engine env ls).wq.first = some ds ∧
      linked (after_init wq0 N engine env ls).trace =
        taken (after_init wq0 N engine env ls).trace ++ ds) ∧
    ((engined (after_init wq0 N engine env ls).trace : Multiset Nat) +
        pends (after_init wq0 N engine env ls).heap (after_init wq0 N engine env ls).pool ≤
      (taken (after_init wq0 N engine env ls).trace : Multiset Nat)) ∧
    ((∀ l ∈ ls, l.clean) →
      (taken (after_init wq0 N engine env ls).trace : Multiset Nat) =
        (engined (after_init wq0 N engine env ls).trace : Multiset Nat) +
          pends (after_init wq0 N engine env ls).heap
            (after_init wq0 N engine env ls).pool) ∧
    (∀ (tid : Nat) (e : Env) (ls2 : List Label), 1 ≤ N → (∀ l ∈ ls, l.clean) →
      e.clean →
      ((after_init wq0 N engine env ls).pool.get? tid = some .destroy_locking ∨
        (after_init wq0 N engine env ls).pool.get? tid = some .destroy_waiting) →
      (step (after_init wq0 N engine env ls) (.run tid e)).pool.get? tid =
        some .destroy_unlocked →
      (∀ t ∈ (step (after_init wq0 N engine env ls) (.run tid e)).pool,
        t.adding = false) →
      List.Perm
        (engined (exec (step (after_init wq0 N engine env ls) (.run tid e)) ls2).trace)
        (linked (exec (step (after_init wq0 N engine env ls) (.run tid e)) ls2).trace) ∧
      (exec (step (after_init wq0 N engine env ls) (.run tid e)) ls2).wq.first = none) := by
  have hh := hinv_exec wq0 N engine env hinit ls
  refine ⟨queue_payloads _ hh, ?_, ?_, ?_⟩
  · obtain ⟨-, q, -, -, -, -, -, hen⟩ := hh
    exact hen
  · intro hc
    exact (cleanInv_exec wq0 N engine env hinit ls hc).2.2
  · intro tid e ls2 hN hc he hpre hpost hadd
    obtain ⟨r1, r2, r3⟩ := rundown_state wq0 N engine env hinit ls tid e hpre hpost
    have hstep : step (after_init wq0 N engine env ls) (.run tid e) =
        after_init wq0 N engine env (ls ++ [.run tid e]) := by
      simp [after_init, exec_append, exec]
    have hc1 : ∀ l ∈ ls ++ [Label.run tid e], l.clean := by
      intro l hl
      rcases List.mem_append.mp hl with hm | hm
      · exact hc l hm
      · have : l = Label.run tid e := by simpa using hm
        rw [this]; exact he
    have hci := cleanInv_exec wq0 N engine env hinit _ hc1
    have hh1 := hinv_exec wq0 N engine env hinit (ls ++ [.run tid e])
    rw [← hstep] at hci hh1
    obtain ⟨-, k2, k3⟩ := hci
    have hfirst : (step (after_init wq0 N engine env ls) (.run tid e)).wq.first = none := by
      by_contra hf
      have := k2 hN hf
      omega
    have hfz : Frozen (step (after_init wq0 N engine env ls) (.run tid e)) := by
      refine ⟨?_, r1, r3, hadd⟩
      rw [r2]
      exact fun hh => valid_ne_zero hh.symm
    obtain ⟨-, f2, f3, f4⟩ := frozen_exec _ hfz ls2
    rw [f2, f3, f4]
    refine ⟨?_, hfirst⟩
    obtain ⟨-, q, hq, -, -, -, hlk, -⟩ := hh1
    rw [hfirst] at hq
    have hq0 := chain_none _ q hq
    subst hq0
    rw [pends_of_not_live _ _ r3, add_zero] at k3
    rw [hlk, List.map_nil, List.append_nil]
    exact (Multiset.coe_eq_coe.mp k3).symm

/-- Witness of C4: bound 2, one caller adds 1, 2 and 3 and destroys the queue;
when `workq_destroy` has returned the engine has been called on 1, 2 and 3. -/
theorem C4_witness :
    List.Perm
      (engined (exec (step (after_init demo_wq 2 5 Env.ok sched_work) (.run 5 Env.ok))
        [.run 5 Env.ok]).trace)
      (linked (exec (step (after_init demo_wq 2 5 Env.ok sched_work) (.run 5 Env.ok))
        [.run 5 Env.ok]).trace) ∧
    (exec (step (after_init demo_wq 2 5 Env.ok sched_work) (.run 5 Env.ok))
        [.run 5 Env.ok]).wq.first = none :=
  (C4_no_loss_no_duplicate demo_wq 2 5 Env.ok (by decide) sched_work).2.2.2 5 Env.ok
    [.run 5 Env.ok] (by decide) (by decide) (by decide) (by decide) (by decide) (by decide)

/-- Counterexample to C4 as stated: one caller adds 7 to a queue of bound 1 and
the server unlinks it; before the server calls the engine, 7 is neither among
the payloads given to the engine nor in the queue.  When the unlock of
line 99 fails, the server returns with 7 unlinked and never given to the
engine.  And on a queue of bound 0, `workq_add (7)` and `workq_destroy` both
return 0 and the engine is never called. -/
theorem C4_counterexample :
    linked (after_init demo_wq 1 5 Env.ok sched_limbo).trace = [7] ∧
    engined (after_init demo_wq 1 5 Env.ok sched_limbo).trace = [] ∧
    payloads (after_init demo_wq 1 5 Env.ok sched_limbo).heap 0
      (after_init demo_wq 1 5 Env.ok sched_limbo).wq.first = some [] ∧
    engined (after_init demo_wq 1 5 Env.ok sched_limbo).trace ++ [] ≠
      linked (after_init demo_wq 1 5 Env.ok sched_limbo).trace ∧
    (after_init demo_wq 1 5 Env.ok sched_drop).pool = [.add_done 0, .server_done] ∧
    linked (after_init demo_wq 1 5 Env.ok sched_drop).trace = [7] ∧
    engined (after_init demo_wq 1 5 Env.ok sched_drop).trace = [] ∧
    (after_init demo_wq 1 5 Env.ok sched_drop).wq.first = none ∧
    (after_init demo_wq 0 5 Env.ok sched_zero).pool = [.add_done 0, .destroy_done 0] ∧
    linked (after_init demo_wq 0 5 Env.ok sched_zero).trace = [7] ∧
    engined (after_init demo_wq 0 5 Env.ok sched_zero).trace = [] := by
  decide

/-- C5: `workq_add` on a queue whose `valid` is not `WORKQ_VALID` returns
`EINVAL`, allocates nothing, calls no primitive and leaves the queue and the
heap as they are. -/
theorem C5_add_invalid (wq : workq_t) (h : Heap) (el : Nat) (m : Option Nat) (env : Env)
    (hv : wq.valid ≠ WORKQ_VALID) :
    workq_add wq h el m env = .ok ⟨wq, h, .add_done EINVAL, false, []⟩ ∧
    workq_add_entry wq h el m = (.add_done EINVAL, h, []) := by
  have he := add_entry_invalid wq h el m hv
  exact ⟨by simp [workq_add, he], he⟩

/-- Witness of C5: a queue that `workq_destroy` has cleared. -/
theorem C5_witness :
    workq_add_entry { demo_wq with valid := 0 } Heap.empty 3 (some 100) =
      (.add_done EINVAL, Heap.empty, []) :=
  (C5_add_invalid { demo_wq with valid := 0 } Heap.empty 3 (some 100) Env.ok
    (by decide)).2

/-- At the step with which `workq_destroy` leaves its rundown
(it has found `counter` not positive and released the mutex), `counter` is 0,
`valid` is 0 and no server is alive; from then on `valid` is never
`WORKQ_VALID` again, so every `workq_add` entered later returns `EINVAL`; and
if no `workq_add` is under way at that step, `counter` stays 0 and no server
is alive in any later state, in particular when `workq_destroy` returns. -/
theorem rundown_quiescence (wq0 : workq_t) (N : Int) (engine : Nat) (env : Env)
    (hinit : (workq_init wq0 N engine env).1 = 0) (ls : List Label) (tid : Nat) (e : Env)
    (hpre : (after_init wq0 N engine env ls).pool.get? tid = some .destroy_locking ∨
      (after_init wq0 N engine env ls).pool.get? tid = some .destroy_waiting)
    (hpost : (step (after_init wq0 N engine env ls) (.run tid e)).pool.get? tid =
      some .destroy_unlocked) :
    (step (after_init wq0 N engine env ls) (.run tid e)).wq.counter = 0 ∧
    (step (after_init wq0 N engine env ls) (.run tid e)).wq.valid = 0 ∧
    (∀ t ∈ (step (after_init wq0 N engine env ls) (.run tid e)).pool, t.live = false) ∧
    (∀ (ls2 : List Label) (el : Nat) (m : Option Nat),
      (exec (step (after_init wq0 N engine env ls) (.run tid e)) ls2).wq.valid ≠
        WORKQ_VALID ∧
      workq_add_entry (exec (step (after_init wq0 N engine env ls) (.run tid e)) ls2).wq
          (exec (step (after_init wq0 N engine env ls) (.run tid e)) ls2).heap el m =
        (.add_done EINVAL,
          (exec (step (after_init wq0 N engine env ls) (.run tid e)) ls2).heap, [])) ∧
    ((∀ t ∈ (step (after_init wq0 N engine env ls) (.run tid e)).pool, t.adding = false) →
      ∀ (ls2 : List Label),
        (exec (step (after_init wq0 N engine env ls) (.run tid e)) ls2).wq.counter = 0 ∧
        ∀ t ∈ (exec (step (after_init wq0 N engine env ls) (.run tid e)) ls2).pool,
          t.live = false) := by
  obtain ⟨r1, r2, r3⟩ := rundown_state wq0 N engine env hinit ls tid e hpre hpost
  have hv : (step (after_init wq0 N engine env ls) (.run tid e)).wq.valid ≠ WORKQ_VALID := by
    rw [r2]
    exact fun hh => valid_ne_zero hh.symm
  refine ⟨r1, r2, not_live_of_lives _ r3, ?_, ?_⟩
  · intro ls2 el m
    have hv2 := valid_cleared_exec _ ls2 hv
    exact ⟨hv2, add_entry_invalid _ _ el m hv2⟩
  · intro hadd ls2
    obtain ⟨⟨-, f2, f3, -⟩, -⟩ := frozen_exec _ ⟨hv, r1, r3, hadd⟩ ls2
    exact ⟨f2, not_live_of_lives _ f3⟩

/-- The run of `sched_work`, in which `workq_destroy` waits for two servers and
then leaves its rundown with `counter` at 0. -/
theorem rundown_quiescence_work :
    (step (after_init demo_wq 2 5 Env.ok sched_work) (.run 5 Env.ok)).wq.counter = 0 :=
  (rundown_quiescence demo_wq 2 5 Env.ok (by decide) sched_work 5 Env.ok (by decide)
    (by decide)).1

/-- C6 fails on the code: on a queue of bound 1 a `workq_add` passes the test of
`valid` (line 256); `workq_destroy` then takes the mutex, clears `valid`, finds
`counter == 0` and releases the mutex; the `workq_add` takes the mutex, links
its item, creates a server and returns 0; `workq_destroy` destroys the mutex,
the condition variable and the attribute object and returns 0 with `counter`
equal to 1, a server about to run and the item in the queue. -/
theorem C6_add_after_rundown :
    (after_init demo_wq 1 5 Env.ok (sched_late_add.take 1)).pool =
      [.add_locking 100 7] ∧
    (after_init demo_wq 1 5 Env.ok (sched_late_add.take 3)).pool =
      [.add_locking 100 7, .destroy_unlocked] ∧
    (after_init demo_wq 1 5 Env.ok (sched_late_add.take 3)).wq.valid = 0 ∧
    (after_init demo_wq 1 5 Env.ok (sched_late_add.take 3)).wq.counter = 0 ∧
    (after_init demo_wq 1 5 Env.ok sched_late_add).pool =
      [.add_done 0, .destroy_done 0, .server_start] ∧
    (after_init demo_wq 1 5 Env.ok sched_late_add).wq.valid = 0 ∧
    (after_init demo_wq 1 5 Env.ok sched_late_add).wq.counter = 1 ∧
    (after_init demo_wq 1 5 Env.ok sched_late_add).wq.first = some 100 ∧
    thread_events 1 (after_init demo_wq 1 5 Env.ok sched_late_add).trace =
      [.mutex_lock 0, .mutex_unlock 0, .mutex_destroy 0, .cond_destroy 0,
        .attr_destroy 0] := by
  decide

/-- C7: once a call of `workq_destroy` has acquired the mutex, every later call
of `workq_destroy` returns `EINVAL` at its first test: it calls no primitive
and leaves the queue, the heap and the trace as they are. -/
theorem C7_destroy_twice (s : Sys) (tid : Nat) (e : Env) (ls : List Label)
    (hth : s.pool.get? tid = some .destroy_locking) (hlock : e.lock = 0) :
    workq_destroy_entry (exec (step s (.run tid e)) ls).wq = .destroy_done EINVAL ∧
    step (exec (step s (.run tid e)) ls) .call_destroy =
      { exec (step s (.run tid e)) ls with
        pool := (exec (step s (.run tid e)) ls).pool ++ [.destroy_done EINVAL] } := by
  have hv1 : (step s (.run tid e)).wq.valid ≠ WORKQ_VALID := by
    simp only [step, hth, thread_step]
    cases hr : workq_destroy_locked s.wq s.heap e with
    | ok o =>
      simp only [Sys.apply]
      rw [destroy_locked_valid _ _ _ _ hr hlock]
      exact fun hh => valid_ne_zero hh.symm
    | ub =>
      simp only [workq_destroy_locked, workq_destroy_while, workq_destroy_release] at hr
      repeat' split at hr
      all_goals cases hr
    | fuel =>
      simp only [workq_destroy_locked, workq_destroy_while, workq_destroy_release] at hr
      repeat' split at hr
      all_goals cases hr
  have hv2 := valid_cleared_exec _ ls hv1
  have he : workq_destroy_entry (exec (step s (.run tid e)) ls).wq = .destroy_done EINVAL := by
    simp [workq_destroy_entry, hv2]
  have key : ∀ s2 : Sys, workq_destroy_entry s2.wq = .destroy_done EINVAL →
      step s2 .call_destroy = { s2 with pool := s2.pool ++ [.destroy_done EINVAL] } := by
    intro s2 h2
    simp only [step, h2]
  exact ⟨he, key _ he⟩

/-- Witness of C7: a first call of `workq_destroy` on a fresh queue of bound 2
acquires the mutex and returns; a second call follows. -/
theorem C7_witness :
    workq_destroy_entry
      (exec (step (after_init demo_wq 2 5 Env.ok [.call_destroy]) (.run 0 Env.ok))
        [.run 0 Env.ok]).wq = .destroy_done EINVAL :=
  (C7_destroy_twice (after_init demo_wq 2 5 Env.ok [.call_destroy]) 0 Env.ok
    [.run 0 Env.ok] (by decide) (by decide)).1

/-- C8: when the four initialisations succeed, `workq_init` returns 0 and
leaves an empty queue with `counter = idle = quit = 0`, the given bound and
engine, and `valid = WORKQ_VALID`. -/
theorem C8_init_ok (wq0 : workq_t) (threads : Int) (engine : Nat) (env : Env)
    (h1 : env.attr_init = 0) (h2 : env.attr_setdetachstate = 0) (h3 : env.mutex_init = 0)
    (h4 : env.cond_init = 0) :
    workq_init wq0 threads engine env =
      (0,
       { first := none, last := none, valid := WORKQ_VALID, quit := 0,
         parallelism := threads, counter := 0, idle := 0, engine := engine },
       [.attr_init 0, .attr_setdetachstate 0, .mutex_init 0, .cond_init 0]) := by
  simp [workq_init, h1, h2, h3, h4]

/-- Witness of C8: a queue of bound 2 on uninitialised memory. -/
theorem C8_witness :
    workq_init demo_wq 2 5 Env.ok =
      (0,
       { first := none, last := none, valid := WORKQ_VALID, quit := 0,
         parallelism := 2, counter := 0, idle := 0, engine := 5 },
       [.attr_init 0, .attr_setdetachstate 0, .mutex_init 0, .cond_init 0]) :=
  C8_init_ok demo_wq 2 5 Env.ok (by decide) (by decide) (by decide) (by decide)

/-- C9: when one of the four initialisations fails, `workq_init` returns the
status of the first that fails, has called each primitive before it once and
none after it, has destroyed what was initialised (the attribute object after
a failure of `pthread_attr_setdetachstate` or `pthread_mutex_init`, the mutex
and the attribute object after a failure of `pthread_cond_init`) and has
written no field of the queue. -/
theorem C9_init_failure (wq0 : workq_t) (threads : Int) (engine : Nat) (env : Env) :
    (env.attr_init ≠ 0 →
      workq_init wq0 threads engine env =
        (env.attr_init, wq0, [.attr_init env.attr_init])) ∧
    (env.attr_init = 0 → env.attr_setdetachstate ≠ 0 →
      workq_init wq0 threads engine env =
        (env.attr_setdetachstate, wq0,
          [.attr_init 0, .attr_setdetachstate env.attr_setdetachstate,
           .attr_destroy env.attr_destroy])) ∧
    (env.attr_init = 0 → env.attr_setdetachstate = 0 → env.mutex_init ≠ 0 →
      workq_init wq0 threads engine env =
        (env.mutex_init, wq0,
          [.attr_init 0, .attr_setdetachstate 0, .mutex_init env.mutex_init,
           .attr_destroy env.attr_destroy])) ∧
    (env.attr_init = 0 → env.attr_setdetachstate = 0 → env.mutex_init = 0 →
      env.cond_init ≠ 0 →
      workq_init wq0 threads engine env =
        (env.cond_init, wq0,
          [.attr_init 0, .attr_setdetachstate 0, .mutex_init 0, .cond_init env.cond_init,
           .mutex_destroy env.mutex_destroy, .attr_destroy env.attr_destroy])) := by
  refine ⟨?_, ?_, ?_, ?_⟩
  · intro h1; simp [workq_init, h1]
  · intro h1 h2; simp [workq_init, h1, h2]
  · intro h1 h2 h3; simp [workq_init, h1, h2, h3]
  · intro h1 h2 h3 h4; simp [workq_init, h1, h2, h3, h4]

/-- Witness of C9: `pthread_cond_init` fails with status 5. -/
theorem C9_witness :
    workq_init demo_wq 2 5 Env.cond_fails =
      (5, demo_wq,
        [.attr_init 0, .attr_setdetachstate 0, .mutex_init 0, .cond_init 5,
         .mutex_destroy 0, .attr_destroy 0]) :=
  (C9_init_failure demo_wq 2 5 Env.cond_fails).2.2.2 (by decide) (by decide) (by decide)
    (by decide)

/-- C10: on a valid, well-formed queue with `idle > 0`, `workq_add` completes;
it returns 0 exactly when `malloc`, the lock and the signal succeed, and then
it has linked the item behind the last entry, called `pthread_cond_signal`
once and neither `pthread_cond_broadcast` nor `pthread_create`, and left
`counter` and `idle` as they were. -/
theorem C10_add_signals_idle (wq : workq_t) (h : Heap) (el : Nat) (m : Option Nat) (env : Env)
    (q : List (Nat × Nat)) (hv : wq.valid = WORKQ_VALID) (hidle : wq.idle > 0)
    (hfresh : ∀ item, m = some item → h item = none)
    (hq : Chain h wq.first q) (hlast : wq.last = (q.map Prod.fst).getLast?)
    (hnd : (q.map Prod.fst).Nodup) :
    ∃ o, workq_add wq h el m env = .ok o ∧
      (o.next = .add_done 0 ↔ (m ≠ none ∧ env.lock = 0 ∧ env.signal = 0)) ∧
      (o.next = .add_done 0 →
        ∃ item, m = some item ∧
          Chain o.heap o.wq.first (q ++ [(item, el)]) ∧ o.wq.last = some item ∧
          o.events = [.malloc (some item), .mutex_lock 0, .link el, .cond_signal 0,
            .mutex_unlock env.unlock] ∧
          o.spawn = false ∧ o.wq.counter = wq.counter ∧ o.wq.idle = wq.idle) := by
  cases m with
  | none =>
    refine ⟨⟨wq, h, .add_done ENOMEM, false, [.malloc none]⟩, ?_, ?_, ?_⟩
    · simp [workq_add, workq_add_entry, hv]
    · simp [ENOMEM]
    · intro hc; simp [ENOMEM] at hc
  | some item =>
    have hf := hfresh item rfl
    have hiq : item ∉ q.map Prod.fst := fun hm => chain_alloc h q _ hq item hm hf
    have hq1 : Chain (Function.update h item (some ⟨none, el⟩)) wq.first q :=
      chain_frame h _ q _ (fun b hb =>
        Function.update_noteq (fun hba : b = item => hiq (hba ▸ hb)) _ _) hq
    obtain ⟨wq1, h1, hlink, hc1, hl1⟩ :=
      link_chain wq (Function.update h item (some ⟨none, el⟩)) item el q (by simp) hq1
        hlast hnd hiq
    obtain ⟨-, g2, -, -, g5, -⟩ := add_link_fields _ _ _ _ _ hlink
    have hi1 : wq1.idle > 0 := by rw [g2]; exact hidle
    by_cases hlock : env.lock = 0
    · by_cases hsig : env.signal = 0
      · refine ⟨⟨wq1, h1, .add_done 0, false,
          [.malloc (some item), .mutex_lock 0, .link el, .cond_signal 0,
           .mutex_unlock env.unlock]⟩, ?_, ?_, ?_⟩
        · simp [workq_add, workq_add_entry, hv, workq_add_locked, hlock, hlink, hi1, hsig]
        · simp [hlock, hsig]
        · intro _
          exact ⟨item, rfl, hc1, hl1, rfl, rfl, g5, g2⟩
      · refine ⟨⟨wq1, h1, .add_done env.signal, false,
          [.malloc (some item), .mutex_lock 0, .link el, .cond_signal env.signal,
           .mutex_unlock env.unlock]⟩, ?_, ?_, ?_⟩
        · simp [workq_add, workq_add_entry, hv, workq_add_locked, hlock, hlink, hi1, hsig]
        · simp [hlock, hsig]
        · intro hc
          simp only [Thread.add_done.injEq] at hc
          exact absurd hc hsig
    · refine ⟨⟨wq, Function.update (Function.update h item (some ⟨none, el⟩)) item none,
        .add_done env.lock, false,
        [.malloc (some item), .mutex_lock env.lock, .free item]⟩, ?_, ?_, ?_⟩
      · simp [workq_add, workq_add_entry, hv, workq_add_locked, hlock]
      · simp [hlock]
      · intro hc
        simp only [Thread.add_done.injEq] at hc
        exact absurd hc hlock

/-- Witness of C10: an empty valid queue with one idle server recorded. -/
theorem C10_witness :
    ∃ o, workq_add { demo_wq with valid := WORKQ_VALID, first := none, last := none }
        Heap.empty 3 (some 100) Env.ok = .ok o ∧
      (o.next = .add_done 0 ↔
        ((some 100 : Option Nat) ≠ none ∧ Env.ok.lock = 0 ∧ Env.ok.signal = 0)) ∧
      (o.next = .add_done 0 →
        ∃ item, (some 100 : Option Nat) = some item ∧
          Chain o.heap o.wq.first ([] ++ [(item, 3)]) ∧ o.wq.last = some item ∧
          o.events = [.malloc (some item), .mutex_lock 0, .link 3, .cond_signal 0,
            .mutex_unlock Env.ok.unlock] ∧
          o.spawn = false ∧
          o.wq.counter =
            ({ demo_wq with valid := WORKQ_VALID, first := none, last := none } :
              workq_t).counter ∧
          o.wq.idle =
            ({ demo_wq with valid := WORKQ_VALID, first := none, last := none } :
              workq_t).idle) :=
  C10_add_signals_idle { demo_wq with valid := WORKQ_VALID, first := none, last := none }
    Heap.empty 3 (some 100) Env.ok [] (by decide) (by decide)
    (fun _ _ => rfl) rfl rfl (by decide)

/-! ## workq_add on a well-formed queue -/

/-- After `malloc` has returned a fresh block, the enqueue of `workq_add`
succeeds on a well-formed queue: the item is linked behind the last entry and
no field but `first` and `last` changes. -/
theorem add_after_malloc (wq : workq_t) (h : Heap) (el item : Nat) (q : List (Nat × Nat))
    (hfresh : h item = none) (hq : Chain h wq.first q)
    (hlast : wq.last = (q.map Prod.fst).getLast?) (hnd : (q.map Prod.fst).Nodup) :
    ∃ wq1 h1,
      workq_add_link wq (Function.update h item (some ⟨none, el⟩)) item = some (wq1, h1) ∧
      Chain h1 wq1.first (q ++ [(item, el)]) ∧ wq1.last = some item ∧
      wq1.parallelism = wq.parallelism ∧ wq1.idle = wq.idle ∧ wq1.engine = wq.engine ∧
      wq1.valid = wq.valid ∧ wq1.counter = wq.counter ∧ wq1.quit = wq.quit := by
  have hiq : item ∉ q.map Prod.fst := fun hm => chain_alloc h q _ hq item hm hfresh
  have hq1 : Chain (Function.update h item (some ⟨none, el⟩)) wq.first q :=
    chain_frame h _ q _ (fun b hb =>
      Function.update_noteq (fun hba : b = item => hiq (hba ▸ hb)) _ _) hq
  obtain ⟨wq1, h1, hlink, hc1, hl1⟩ :=
    link_chain wq (Function.update h item (some ⟨none, el⟩)) item el q (by simp) hq1
      hlast hnd hiq
  exact ⟨wq1, h1, hlink, hc1, hl1, add_link_fields _ _ _ _ _ hlink⟩

/-- C11: on a valid, well-formed queue with `idle == 0`, `workq_add` completes;
it returns 0 exactly when `malloc` and the lock succeed and, if
`counter < parallelism`, `pthread_create` succeeds.  When it returns 0 it has
linked the item behind the last entry and changed no other field but
`counter`; if `counter < parallelism` before the call it has called
`pthread_create` once, one server has been created and `counter` is
`counter + 1`; otherwise it has called neither `pthread_cond_signal` nor
`pthread_create`, no server has been created and `counter` is unchanged.  The
attribute object every server is created with was set to the detached state
by every `workq_init` that returned 0. -/
theorem C11_add_creates_below_bound (wq : workq_t) (h : Heap) (el : Nat) (m : Option Nat)
    (env : Env) (q : List (Nat × Nat)) (hv : wq.valid = WORKQ_VALID) (hidle : wq.idle = 0)
    (hfresh : ∀ item, m = some item → h item = none)
    (hq : Chain h wq.first q) (hlast : wq.last = (q.map Prod.fst).getLast?)
    (hnd : (q.map Prod.fst).Nodup) :
    (∃ o, workq_add wq h el m env = .ok o ∧
      (o.next = .add_done 0 ↔
        (m ≠ none ∧ env.lock = 0 ∧ (wq.counter < wq.parallelism → env.create = 0))) ∧
      (o.next = .add_done 0 →
        ∃ item, m = some item ∧
          Chain o.heap o.wq.first (q ++ [(item, el)]) ∧ o.wq.last = some item ∧
          o.wq.valid = wq.valid ∧ o.wq.quit = wq.quit ∧
          o.wq.parallelism = wq.parallelism ∧ o.wq.idle = wq.idle ∧
          o.wq.engine = wq.engine ∧
          (wq.counter < wq.parallelism →
            o.spawn = true ∧ o.wq.counter = wq.counter + 1 ∧
            o.events = [.malloc (some item), .mutex_lock 0, .link el, .create 0,
              .mutex_unlock env.unlock]) ∧
          (¬ wq.counter < wq.parallelism →
            o.spawn = false ∧ o.wq.counter = wq.counter ∧
            o.events = [.malloc (some item), .mutex_lock 0, .link el,
              .mutex_unlock env.unlock]))) ∧
    (∀ wq0 N engine env0, (workq_init wq0 N engine env0).1 = 0 →
      Event.attr_setdetachstate 0 ∈ (workq_init wq0 N engine env0).2.2) := by
  constructor
  · cases m with
    | none =>
      refine ⟨⟨wq, h, .add_done ENOMEM, false, [.malloc none]⟩, ?_, ?_, ?_⟩
      · simp [workq_add, workq_add_entry, hv]
      · simp [ENOMEM]
      · intro hc; simp [ENOMEM] at hc
    | some item =>
      obtain ⟨wq1, h1, hlink, hc1, hl1, g1, g2, g3, g4, g5, g6⟩ :=
        add_after_malloc wq h el item q (hfresh item rfl) hq hlast hnd
      have hi1 : ¬ wq1.idle > 0 := by rw [g2, hidle]; decide
      by_cases hlock : env.lock = 0
      · by_cases hlt : wq.counter < wq.parallelism
        · have hlt1 : wq1.counter < wq1.parallelism := by rw [g5, g1]; exact hlt
          by_cases hcr : env.create = 0
          · refine ⟨⟨{ wq1 with counter := wq1.counter + 1 }, h1, .add_done 0, true,
              [.malloc (some item), .mutex_lock 0, .link el, .create 0,
               .mutex_unlock env.unlock]⟩, ?_, ?_, ?_⟩
            · simp [workq_add, workq_add_entry, hv, workq_add_locked, hlock, hlink, hi1,
                hlt1, hcr]
            · simp [hlock, hcr]
            · intro _
              refine ⟨item, rfl, hc1, hl1, g4, g6, g1, g2, g3, ?_, ?_⟩
              · intro _
                exact ⟨rfl, by simp [g5], rfl⟩
              · intro hn; exact absurd hlt hn
          · refine ⟨⟨wq1, h1, .add_done env.create, false,
              [.malloc (some item), .mutex_lock 0, .link el, .create env.create,
               .mutex_unlock env.unlock]⟩, ?_, ?_, ?_⟩
            · simp [workq_add, workq_add_entry, hv, workq_add_locked, hlock, hlink, hi1,
                hlt1, hcr]
            · simp [hlock, hcr, hlt]
            · intro hc
              simp only [Thread.add_done.injEq] at hc
              exact absurd hc hcr
        · have hlt1 : ¬ wq1.counter < wq1.parallelism := by rw [g5, g1]; exact hlt
          refine ⟨⟨wq1, h1, .add_done 0, false,
            [.malloc (some item), .mutex_lock 0, .link el, .mutex_unlock env.unlock]⟩,
            ?_, ?_, ?_⟩
          · simp [workq_add, workq_add_entry, hv, workq_add_locked, hlock, hlink, hi1, hlt1]
          · simp [hlock, hlt]
          · intro _
            refine ⟨item, rfl, hc1, hl1, g4, g6, g1, g2, g3, ?_, ?_⟩
            · intro hn; exact absurd hn hlt
            · intro _
              exact ⟨rfl, g5, rfl⟩
      · refine ⟨⟨wq, Function.update (Function.update h item (some ⟨none, el⟩)) item none,
          .add_done env.lock, false,
          [.malloc (some item), .mutex_lock env.lock, .free item]⟩, ?_, ?_, ?_⟩
        · simp [workq_add, workq_add_entry, hv, workq_add_locked, hlock]
        · simp [hlock]
        · intro hc
          simp only [Thread.add_done.injEq] at hc
          exact absurd hc hlock
  · intro wq0 N engine env0 hinit
    unfold workq_init at hinit ⊢
    split at hinit
    · simp_all
    · split at hinit
      · simp_all
      · split at hinit
        · simp_all
        · split at hinit
          · simp_all
          · simp [*]

/-- Witness of C11: an empty valid queue of bound 1 with no server. -/
theorem C11_witness :
    ∃ o, workq_add demo_empty Heap.empty 3 (some 100) Env.ok = .ok o ∧
      o.next = .add_done 0 ∧ o.spawn = true ∧ o.wq.counter = 1 := by
  obtain ⟨⟨o, h1, h2, h3⟩, -⟩ :=
    C11_add_creates_below_bound demo_empty Heap.empty 3 (some 100) Env.ok []
      (by decide) (by decide) (fun _ _ => rfl) rfl rfl (by decide)
  have hn : o.next = .add_done 0 := h2.mpr ⟨by decide, by decide, fun _ => by decide⟩
  obtain ⟨item, -, -, -, -, -, -, -, -, g1, -⟩ := h3 hn
  obtain ⟨g2, g3, -⟩ := g1 (by decide)
  exact ⟨o, h1, hn, g2, g3⟩

/-- C12: on a valid, well-formed queue, once `workq_add` holds the mutex, a
failure of `pthread_cond_signal` (called when `idle > 0`) or of
`pthread_create` (called when `idle <= 0` and `counter < parallelism`) makes
`workq_add` return the status of that primitive; the item is linked behind the
last entry all the same, `counter` is unchanged and no server has been
created. -/
theorem C12_add_dispatch_failure (wq : workq_t) (h : Heap) (el item : Nat) (env : Env)
    (q : List (Nat × Nat)) (hv : wq.valid = WORKQ_VALID) (hfresh : h item = none)
    (hq : Chain h wq.first q) (hlast : wq.last = (q.map Prod.fst).getLast?)
    (hnd : (q.map Prod.fst).Nodup) (hlock : env.lock = 0) :
    (wq.idle > 0 → env.signal ≠ 0 →
      ∃ o, workq_add wq h el (some item) env = .ok o ∧
        o.next = .add_done env.signal ∧
        Chain o.heap o.wq.first (q ++ [(item, el)]) ∧ o.wq.last = some item ∧
        o.wq.counter = wq.counter ∧ o.spawn = false ∧
        o.events = [.malloc (some item), .mutex_lock 0, .link el,
          .cond_signal env.signal, .mutex_unlock env.unlock]) ∧
    (¬ wq.idle > 0 → wq.counter < wq.parallelism → env.create ≠ 0 →
      ∃ o, workq_add wq h el (some item) env = .ok o ∧
        o.next = .add_done env.create ∧
        Chain o.heap o.wq.first (q ++ [(item, el)]) ∧ o.wq.last = some item ∧
        o.wq.counter = wq.counter ∧ o.spawn = false ∧
        o.events = [.malloc (some item), .mutex_lock 0, .link el,
          .create env.create, .mutex_unlock env.unlock]) := by
  obtain ⟨wq1, h1, hlink, hc1, hl1, g1, g2, g3, g4, g5, g6⟩ :=
    add_after_malloc wq h el item q hfresh hq hlast hnd
  constructor
  · intro hidle hsig
    have hi1 : wq1.idle > 0 := by rw [g2]; exact hidle
    refine ⟨⟨wq1, h1, .add_done env.signal, false,
      [.malloc (some item), .mutex_lock 0, .link el, .cond_signal env.signal,
       .mutex_unlock env.unlock]⟩, ?_, rfl, hc1, hl1, g5, rfl, rfl⟩
    simp [workq_add, workq_add_entry, hv, workq_add_locked, hlock, hlink, hi1, hsig]
  · intro hidle hlt hcr
    have hi1 : ¬ wq1.idle > 0 := by rw [g2]; exact hidle
    have hlt1 : wq1.counter < wq1.parallelism := by rw [g5, g1]; exact hlt
    refine ⟨⟨wq1, h1, .add_done env.create, false,
      [.malloc (some item), .mutex_lock 0, .link el, .create env.create,
       .mutex_unlock env.unlock]⟩, ?_, rfl, hc1, hl1, g5, rfl, rfl⟩
    simp [workq_add, workq_add_entry, hv, workq_add_locked, hlock, hlink, hi1, hlt1, hcr]

/-- Witness of C12: `pthread_create` fails with status 11 on an empty valid
queue of bound 1. -/
theorem C12_witness :
    ∃ o, workq_add demo_empty Heap.empty 3 (some 100) Env.create_fails = .ok o ∧
      o.next = .add_done Env.create_fails.create ∧
      Chain o.heap o.wq.first ([] ++ [(100, 3)]) ∧ o.wq.last = some 100 ∧
      o.wq.counter = demo_empty.counter ∧ o.spawn = false ∧
      o.events = [.malloc (some 100), .mutex_lock 0, .link 3,
        .create Env.create_fails.create, .mutex_unlock Env.create_fails.unlock] :=
  (C12_add_dispatch_failure demo_empty Heap.empty 3 100 Env.create_fails []
    (by decide) rfl rfl rfl (by decide) (by decide)).2 (by decide) (by decide) (by decide)

/-- C13: on a valid queue, when `malloc` fails `workq_add` returns `ENOMEM`
with the queue and the heap as they were and no other primitive called; when
`malloc` succeeds and `pthread_mutex_lock` fails, `workq_add` returns the
status of the lock, has freed the item, so that the heap is as it was, and
has left the queue as it was. -/
theorem C13_add_alloc_or_lock_failure (wq : workq_t) (h : Heap) (el : Nat) (env : Env)
    (hv : wq.valid = WORKQ_VALID) :
    workq_add wq h el none env = .ok ⟨wq, h, .add_done ENOMEM, false, [.malloc none]⟩ ∧
    (∀ item, h item = none → env.lock ≠ 0 →
      workq_add wq h el (some item) env =
        .ok ⟨wq, h, .add_done env.lock, false,
          [.malloc (some item), .mutex_lock env.lock, .free item]⟩) := by
  constructor
  · simp [workq_add, workq_add_entry, hv]
  · intro item hfresh hlock
    have hh : Function.update (Function.update h item (some ⟨none, el⟩)) item none = h := by
      rw [Function.update_idem, ← hfresh, Function.update_eq_self]
    simp [workq_add, workq_add_entry, hv, workq_add_locked, hlock, hh]

/-- Witness of C13: `malloc` fails on an empty valid queue. -/
theorem C13_witness :
    workq_add demo_empty Heap.empty 3 none Env.ok =
      .ok ⟨demo_empty, Heap.empty, .add_done ENOMEM, false, [.malloc none]⟩ :=
  (C13_add_alloc_or_lock_failure demo_empty Heap.empty 3 Env.ok (by decide)).1

theorem chain_last_next (h : Heap) :
    ∀ (q : List (Nat × Nat)) (p : Option Nat) (l : Nat), Chain h p q →
      (q.map Prod.fst).getLast? = some l → ∃ e, h l = some e ∧ e.next = none := by
  intro q
  induction q with
  | nil => intro p l _ hl; simp at hl
  | cons x q ih =>
    intro p l hc hl
    obtain ⟨a, d⟩ := x
    obtain ⟨-, nxt, ha, hq⟩ := hc
    cases q with
    | nil =>
      have hla : a = l := by simpa using hl
      subst hla
      have hn : nxt = none := hq
      exact ⟨_, ha, hn⟩
    | cons y q =>
      have hl2 : (List.map Prod.fst (y :: q)).getLast? = some l := by
        simpa [List.getLast?_cons_cons] using hl
      exact ih nxt l hq hl2

/-- C14: in every state reachable from a successful `workq_init`, `wq->last` is
`NULL` exactly when `wq->first` is `NULL`, and when the queue is not empty the
entries linked from `wq->first` form a chain that ends in `NULL`, `wq->last` is
the last entry of that chain, and its `next` is `NULL`. -/
theorem C14_queue_shape (wq0 : workq_t) (N : Int) (engine : Nat) (env : Env)
    (hinit : (workq_init wq0 N engine env).1 = 0) (ls : List Label) :
    ((after_init wq0 N engine env ls).wq.last = none ↔
      (after_init wq0 N engine env ls).wq.first = none) ∧
    ((after_init wq0 N engine env ls).wq.first ≠ none →
      ∃ q l e, Chain (after_init wq0 N engine env ls).heap
          (after_init wq0 N engine env ls).wq.first q ∧
        (q.map Prod.fst).getLast? = some l ∧
        (after_init wq0 N engine env ls).wq.last = some l ∧
        (after_init wq0 N engine env ls).heap l = some e ∧ e.next = none) := by
  obtain ⟨-, q, hc, hl, -⟩ := hinv_exec wq0 N engine env hinit ls
  cases q with
  | nil =>
    have hf : (after_init wq0 N engine env ls).wq.first = none := hc
    have hl0 : (after_init wq0 N engine env ls).wq.last = none := by simpa using hl
    exact ⟨⟨fun _ => hf, fun _ => hl0⟩, fun hne => absurd hf hne⟩
  | cons x q0 =>
    have hne : (List.map Prod.fst (x :: q0)) ≠ [] := by simp
    obtain ⟨l, hlast⟩ : ∃ l, (List.map Prod.fst (x :: q0)).getLast? = some l :=
      ⟨_, List.getLast?_eq_getLast _ hne⟩
    obtain ⟨e, he, hn⟩ := chain_last_next _ _ _ l hc hlast
    have hf : (after_init wq0 N engine env ls).wq.first = some x.1 := hc.1
    rw [hlast] at hl
    refine ⟨⟨fun h0 => ?_, fun h0 => ?_⟩, fun _ => ⟨x :: q0, l, e, hc, hlast, hl, he, hn⟩⟩
    · rw [hl] at h0; cases h0
    · rw [hf] at h0; cases h0

/-- Witness of C14: the queue after two `workq_add` on a queue of bound 2, before
any server has run. -/
theorem C14_witness :
    ∃ q l e, Chain (after_init demo_wq 2 5 Env.ok sched_two_adds).heap
        (after_init demo_wq 2 5 Env.ok sched_two_adds).wq.first q ∧
      (q.map Prod.fst).getLast? = some l ∧
      (after_init demo_wq 2 5 Env.ok sched_two_adds).wq.last = some l ∧
      (after_init demo_wq 2 5 Env.ok sched_two_adds).heap l = some e ∧ e.next = none :=
  (C14_queue_shape demo_wq 2 5 Env.ok (by decide) sched_two_adds).2 (by decide)

/-- C15 (amended): `workq_destroy` on a valid queue passes its first test and,
once it holds the mutex, clears `valid`; if `counter > 0` it sets `quit = 1`,
calls `pthread_cond_broadcast` once if `idle > 0` and not at all otherwise,
and then waits on the condition variable, again after every wake-up that
finds `counter > 0`; if `counter` is not positive it neither sets `quit` nor
broadcasts nor waits, and releases the mutex. -/
theorem C15_destroy_rundown (wq : workq_t) (h : Heap) (env : Env)
    (hv : wq.valid = WORKQ_VALID) (hlock : env.lock = 0) :
    workq_destroy_entry wq = .destroy_locking ∧
    (∃ o, workq_destroy_locked wq h env = .ok o ∧ o.wq.valid = 0 ∧ o.heap = h ∧
      (wq.counter > 0 →
        o.wq.quit = 1 ∧
        (wq.idle > 0 → env.broadcast = 0 →
          o.next = .destroy_waiting ∧
          o.events = [.mutex_lock 0, .cond_broadcast 0, .cond_wait]) ∧
        (wq.idle > 0 → env.broadcast ≠ 0 →
          o.next = .destroy_done env.broadcast ∧
          o.events = [.mutex_lock 0, .cond_broadcast env.broadcast,
            .mutex_unlock env.unlock]) ∧
        (¬ wq.idle > 0 →
          o.next = .destroy_waiting ∧ o.events = [.mutex_lock 0, .cond_wait])) ∧
      (¬ wq.counter > 0 →
        o.wq.quit = wq.quit ∧
        o.events = [.mutex_lock 0, .mutex_unlock env.unlock] ∧
        (o.next = .destroy_unlocked ∨ o.next = .destroy_done env.unlock))) ∧
    (∀ wq1 : workq_t, env.wait = 0 → wq1.counter > 0 →
      workq_destroy_wake wq1 h env =
        .ok ⟨wq1, h, .destroy_waiting, false, [.cond_wake 0, .cond_wait]⟩) := by
  refine ⟨by simp [workq_destroy_entry, hv], ?_, ?_⟩
  · by_cases hc : wq.counter > 0
    · by_cases hi : wq.idle > 0
      · by_cases hb : env.broadcast = 0
        · refine ⟨⟨{ wq with valid := 0, quit := 1 }, h, .destroy_waiting, false,
            [.mutex_lock 0, .cond_broadcast 0, .cond_wait]⟩, ?_, rfl, rfl, ?_, ?_⟩
          · simp [workq_destroy_locked, workq_destroy_while, hlock, hc, hi, hb]
          · intro _
            exact ⟨rfl, fun _ _ => ⟨rfl, rfl⟩, fun _ hn => absurd hb hn,
              fun hn => absurd hi hn⟩
          · intro hn; exact absurd hc hn
        · refine ⟨⟨{ wq with valid := 0, quit := 1 }, h, .destroy_done env.broadcast, false,
            [.mutex_lock 0, .cond_broadcast env.broadcast, .mutex_unlock env.unlock]⟩,
            ?_, rfl, rfl, ?_, ?_⟩
          · simp [workq_destroy_locked, hlock, hc, hi, hb]
          · intro _
            exact ⟨rfl, fun _ hn => absurd hn hb, fun _ _ => ⟨rfl, rfl⟩,
              fun hn => absurd hi hn⟩
          · intro hn; exact absurd hc hn
      · refine ⟨⟨{ wq with valid := 0, quit := 1 }, h, .destroy_waiting, false,
          [.mutex_lock 0, .cond_wait]⟩, ?_, rfl, rfl, ?_, ?_⟩
        · simp [workq_destroy_locked, workq_destroy_while, hlock, hc, hi]
        · intro _
          exact ⟨rfl, fun hn => absurd hn hi, fun hn => absurd hn hi, fun _ => ⟨rfl, rfl⟩⟩
        · intro hn; exact absurd hc hn
    · by_cases hu : env.unlock = 0
      · refine ⟨⟨{ wq with valid := 0 }, h, .destroy_unlocked, false,
          [.mutex_lock 0, .mutex_unlock 0]⟩, ?_, rfl, rfl, ?_, ?_⟩
        · simp [workq_destroy_locked, workq_destroy_release, hlock, hc, hu]
        · intro hn; exact absurd hn hc
        · intro _
          exact ⟨rfl, by simp [hu], Or.inl rfl⟩
      · refine ⟨⟨{ wq with valid := 0 }, h, .destroy_done env.unlock, false,
          [.mutex_lock 0, .mutex_unlock env.unlock]⟩, ?_, rfl, rfl, ?_, ?_⟩
        · simp [workq_destroy_locked, workq_destroy_release, hlock, hc, hu]
        · intro hn; exact absurd hn hc
        · intro _
          exact ⟨rfl, rfl, Or.inr rfl⟩
  · intro wq1 hw hc
    simp [workq_destroy_wake, workq_destroy_while, hw, hc]

/-- Witness of C15: a valid queue with one server and `idle == 0`. -/
theorem C15_witness :
    workq_destroy_entry { demo_empty with counter := 1 } = .destroy_locking :=
  (C15_destroy_rundown { demo_empty with counter := 1 } Heap.empty Env.ok
    (by decide) (by decide)).1

/-- Counterexample to C15 as stated: with `counter == 1` and the only server
inside the engine, `workq_destroy` sets `quit` and goes to wait without
calling `pthread_cond_broadcast`; it does the same when the only server sleeps
in the timed wait, and that server is still in its wait. -/
theorem C15_counterexample :
    (after_init demo_wq 1 5 Env.ok sched_busy_destroy).pool =
      [.add_done 0, .server_engine 100 false, .destroy_waiting] ∧
    (after_init demo_wq 1 5 Env.ok sched_busy_destroy).wq.counter = 1 ∧
    (after_init demo_wq 1 5 Env.ok sched_busy_destroy).wq.quit = 1 ∧
    broadcasts (after_init demo_wq 1 5 Env.ok sched_busy_destroy).trace = [] ∧
    thread_events 2 (after_init demo_wq 1 5 Env.ok sched_sleep_destroy).trace =
      [.mutex_lock 0, .cond_wait] ∧
    (after_init demo_wq 1 5 Env.ok sched_sleep_destroy).pool =
      [.add_done 0, .server_waiting, .destroy_waiting] ∧
    (after_init demo_wq 1 5 Env.ok sched_sleep_destroy).wq.counter = 1 ∧
    (after_init demo_wq 1 5 Env.ok sched_sleep_destroy).wq.quit = 1 ∧
    broadcasts (after_init demo_wq 1 5 Env.ok sched_sleep_destroy).trace = [] := by
  decide

/-- When no primitive has failed, the bound is at least 1 and no `workq_add` is
under way at the step with which `workq_destroy` leaves its rundown, the queue
is empty at that step and nothing but calls of `workq_destroy` can move from
then on. -/
theorem rundown_clean (wq0 : workq_t) (N : Int) (engine : Nat) (env : Env)
    (hinit : (workq_init wq0 N engine env).1 = 0) (ls : List Label) (tid : Nat) (e : Env)
    (hN : 1 ≤ N) (hc : ∀ l ∈ ls, l.clean) (he : e.clean)
    (hpre : (after_init wq0 N engine env ls).pool.get? tid = some .destroy_locking ∨
      (after_init wq0 N engine env ls).pool.get? tid = some .destroy_waiting)
    (hpost : (step (after_init wq0 N engine env ls) (.run tid e)).pool.get? tid =
      some .destroy_unlocked)
    (hadd : ∀ t ∈ (step (after_init wq0 N engine env ls) (.run tid e)).pool,
      t.adding = false) :
    Frozen (step (after_init wq0 N engine env ls) (.run tid e)) ∧
    (step (after_init wq0 N engine env ls) (.run tid e)).wq.first = none := by
  obtain ⟨r1, r2, r3⟩ := rundown_state wq0 N engine env hinit ls tid e hpre hpost
  have hstep : step (after_init wq0 N engine env ls) (.run tid e) =
      after_init wq0 N engine env (ls ++ [.run tid e]) := by
    simp [after_init, exec_append, exec]
  have hc1 : ∀ l ∈ ls ++ [Label.run tid e], l.clean := by
    intro l hl
    rcases List.mem_append.mp hl with hm | hm
    · exact hc l hm
    · have : l = Label.run tid e := by simpa using hm
      rw [this]; exact he
  have hci := cleanInv_exec wq0 N engine env hinit _ hc1
  rw [← hstep] at hci
  obtain ⟨-, k2, -⟩ := hci
  refine ⟨⟨?_, r1, r3, hadd⟩, ?_⟩
  · rw [r2]
    exact fun hh => valid_ne_zero hh.symm
  · by_contra hf
    have := k2 hN hf
    omega

/-- No step of `workq_destroy` unlinks or frees an entry. -/
theorem destroy_keeps_queue (wq : workq_t) (h : Heap) (e : Env) (th : Thread) (o : Out)
    (hth : th = .destroy_locking ∨ th = .destroy_waiting ∨ th = .destroy_unlocked)
    (hr : thread_step wq h e th = some (.ok o)) :
    o.wq.first = wq.first ∧ o.wq.last = wq.last ∧ o.heap = h := by
  rcases hth with rfl | rfl | rfl
  · simp only [thread_step, workq_destroy_locked, workq_destroy_while,
      workq_destroy_release, Option.some.injEq] at hr
    repeat' split at hr
    all_goals cases hr
    all_goals exact ⟨rfl, rfl, rfl⟩
  · simp only [thread_step, workq_destroy_wake, workq_destroy_while,
      workq_destroy_release, Option.some.injEq] at hr
    repeat' split at hr
    all_goals cases hr
    all_goals exact ⟨rfl, rfl, rfl⟩
  · simp only [thread_step, workq_destroy_final, Option.some.injEq] at hr
    cases hr
    exact ⟨rfl, rfl, rfl⟩

theorem heap_after_serve (a b el : Nat) :
    Function.update (Function.update Heap.empty a (some ⟨none, el⟩)) a none b = none := by
  simp [Function.update_apply, Heap.empty]

/-- The state after the first `workq_add` on a fresh queue of bound 3. -/
theorem retire_state1 (wq0 : workq_t) (engine el1 a : Nat) (env : Env)
    (hinit : (workq_init wq0 3 engine env).1 = 0) :
    after_init wq0 3 engine env (sched_first_add el1 a) =
      ⟨⟨some a, some a, WORKQ_VALID, 0, 3, 1, 0, engine⟩,
       Function.update Heap.empty a (some ⟨none, el1⟩),
       [.add_done 0, .server_start],
       [(0, .malloc (some a)), (0, .mutex_lock 0), (0, .link el1), (0, .create 0),
        (0, .mutex_unlock 0)], false⟩ := by
  simp only [after_init, workq_init_ok _ _ _ _ hinit, sched_first_add]
  simp [exec, step, Sys.start, Heap.empty, workq_add_entry, thread_step, workq_add_locked,
    workq_add_link, Sys.apply, Env.ok]

theorem after_init_append (wq0 : workq_t) (N : Int) (engine : Nat) (env : Env)
    (l1 l2 : List Label) :
    after_init wq0 N engine env (l1 ++ l2) = exec (after_init wq0 N engine env l1) l2 := by
  simp [after_init, exec_append]

/-- The state after the server has worked the item off and gone to wait. -/
theorem retire_state2 (wq0 : workq_t) (engine el1 a : Nat) (env : Env)
    (hinit : (workq_init wq0 3 engine env).1 = 0) :
    after_init wq0 3 engine env (sched_first_add el1 a ++ sched_serve) =
      ⟨⟨none, none, WORKQ_VALID, 0, 3, 1, 0, engine⟩,
       Function.update (Function.update Heap.empty a (some ⟨none, el1⟩)) a none,
       [.add_done 0, .server_waiting],
       [(0, .malloc (some a)), (0, .mutex_lock 0), (0, .link el1), (0, .create 0),
        (0, .mutex_unlock 0), (1, .mutex_lock 0), (1, .unlink el1), (1, .mutex_unlock 0),
        (1, .engine engine el1), (1, .engine_ret), (1, .free a), (1, .mutex_lock 0),
        (1, .cond_timedwait)], false⟩ := by
  rw [after_init_append, retire_state1 _ _ _ _ _ hinit]
  simp [sched_serve, exec, step, thread_step, workq_server_begin, workq_server_locked,
    workq_server_fuel, workq_server_call, workq_server_resume, Sys.apply, Env.ok]

/-- The state after the timed wait of the server has expired. -/
theorem retire_state3 (wq0 : workq_t) (engine el1 a : Nat) (env : Env)
    (hinit : (workq_init wq0 3 engine env).1 = 0) :
    after_init wq0 3 engine env (sched_first_add el1 a ++ sched_serve ++ sched_expire) =
      ⟨⟨none, none, WORKQ_VALID, 0, 3, 0, 0, engine⟩,
       Function.update (Function.update Heap.empty a (some ⟨none, el1⟩)) a none,
       [.add_done 0, .server_done],
       [(0, .malloc (some a)), (0, .mutex_lock 0), (0, .link el1), (0, .create 0),
        (0, .mutex_unlock 0), (1, .mutex_lock 0), (1, .unlink el1), (1, .mutex_unlock 0),
        (1, .engine engine el1), (1, .engine_ret), (1, .free a), (1, .mutex_lock 0),
        (1, .cond_timedwait), (1, .cond_wake ETIMEDOUT), (1, .mutex_unlock 0)],
       false⟩ := by
  rw [after_init_append, retire_state2 _ _ _ _ _ hinit]
  simp [sched_expire, exec, step, thread_step, workq_server_wake, workq_server_locked,
    workq_server_fuel, Sys.apply, Env.timeout, Env.ok]

/-- C17: on a queue that `workq_init` has left with bound 3, a first
`workq_add` returns 0, creates one server and leaves `counter = 1`; the server
unlinks the item, calls the engine on it and, after the return of the engine,
finds the queue empty and waits; when the timed wait returns `ETIMEDOUT` with
the queue still empty the server sets `counter` to 0 and returns; a second
`workq_add` then returns 0, creates a new server and leaves `counter = 1`. -/
theorem C17_retire_and_restart (wq0 : workq_t) (engine el1 el2 a b : Nat) (env : Env)
    (hinit : (workq_init wq0 3 engine env).1 = 0) :
    ((after_init wq0 3 engine env (sched_first_add el1 a)).pool =
        [.add_done 0, .server_start] ∧
      (after_init wq0 3 engine env (sched_first_add el1 a)).wq.counter = 1) ∧
    ((after_init wq0 3 engine env (sched_first_add el1 a ++ sched_serve)).pool =
        [.add_done 0, .server_waiting] ∧
      engined (after_init wq0 3 engine env (sched_first_add el1 a ++ sched_serve)).trace =
        [el1] ∧
      (after_init wq0 3 engine env (sched_first_add el1 a ++ sched_serve)).wq.first =
        none ∧
      (after_init wq0 3 engine env (sched_first_add el1 a ++ sched_serve)).wq.counter =
        1) ∧
    ((after_init wq0 3 engine env
        (sched_first_add el1 a ++ sched_serve ++ sched_expire)).pool =
        [.add_done 0, .server_done] ∧
      (after_init wq0 3 engine env
        (sched_first_add el1 a ++ sched_serve ++ sched_expire)).wq.counter = 0) ∧
    ((after_init wq0 3 engine env
        (sched_first_add el1 a ++ sched_serve ++ sched_expire ++
          sched_second_add el2 b)).pool =
        [.add_done 0, .server_done, .add_done 0, .server_start] ∧
      (after_init wq0 3 engine env
        (sched_first_add el1 a ++ sched_serve ++ sched_expire ++
          sched_second_add el2 b)).wq.counter = 1 ∧
      (after_init wq0 3 engine env
        (sched_first_add el1 a ++ sched_serve ++ sched_expire ++
          sched_second_add el2 b)).wq.first = some b ∧
      (after_init wq0 3 engine env
        (sched_first_add el1 a ++ sched_serve ++ sched_expire ++
          sched_second_add el2 b)).ub = false) := by
  refine ⟨?_, ?_, ?_, ?_⟩
  · rw [retire_state1 _ _ _ _ _ hinit]
    exact ⟨rfl, rfl⟩
  · rw [retire_state2 _ _ _ _ _ hinit]
    refine ⟨rfl, ?_, rfl, rfl⟩
    simp [engined]
  · rw [retire_state3 _ _ _ _ _ hinit]
    exact ⟨rfl, rfl⟩
  · rw [after_init_append, retire_state3 _ _ _ _ _ hinit]
    simp [sched_second_add, exec, step, thread_step, workq_add_entry, workq_add_locked,
      workq_add_link, Sys.apply, Env.ok, Function.update_apply, Heap.empty]

/-- Witness of C17: payloads 1 and 2, both items allocated at address 100. -/
theorem C17_witness :
    (after_init demo_wq 3 5 Env.ok
      (sched_first_add 1 100 ++ sched_serve ++ sched_expire ++
        sched_second_add 2 100)).wq.counter = 1 :=
  (C17_retire_and_restart demo_wq 5 1 2 100 100 Env.ok (by decide)).2.2.2.2.1

/-- C18 fails on the code: after one item has been added and served on a queue
of bound 1, the only server sleeps in the timed wait with the queue empty, and
the `idle` field is still 0: no statement of `workq.c` writes `idle` after
`workq_init`. -/
theorem C18_idle_never_counts :
    (after_init demo_wq 1 5 Env.ok sched_sleep).pool = [.add_done 0, .server_waiting] ∧
    (after_init demo_wq 1 5 Env.ok sched_sleep).wq.first = none ∧
    (after_init demo_wq 1 5 Env.ok sched_sleep).wq.counter = 1 ∧
    (after_init demo_wq 1 5 Env.ok sched_sleep).wq.idle = 0 ∧
    (after_init demo_wq 1 5 Env.ok sched_sleep).ub = false := by
  decide

/-- C19 fails on the code: on a queue of bound 2 whose only server sleeps in the
timed wait with the queue empty, a further `workq_add` signals nobody and
creates a second server. -/
theorem C19_add_creates_beside_sleeper :
    (after_init demo_wq 2 5 Env.ok sched_sleep).pool = [.add_done 0, .server_waiting] ∧
    (after_init demo_wq 2 5 Env.ok sched_sleep).wq.first = none ∧
    thread_events 2 (after_init demo_wq 2 5 Env.ok sched_sleep_add).trace =
      [.malloc (some 101), .mutex_lock 0, .link 8, .create 0, .mutex_unlock 0] ∧
    signals (after_init demo_wq 2 5 Env.ok sched_sleep_add).trace = [] ∧
    (after_init demo_wq 2 5 Env.ok sched_sleep_add).pool =
      [.add_done 0, .server_waiting, .add_done 0, .server_start] ∧
    (after_init demo_wq 2 5 Env.ok sched_sleep_add).wq.counter = 2 := by
  decide

theorem thread_events_append (tid : Nat) (a b : List (Nat × Event)) :
    thread_events tid (a ++ b) = thread_events tid a ++ thread_events tid b := by
  simp [thread_events]

theorem thread_events_self (tid : Nat) (es : List Event) :
    thread_events tid (es.map fun e => (tid, e)) = es := by
  induction es with
  | nil => rfl
  | cons e es ih =>
    simp only [thread_events, List.map_cons, List.filter_cons, beq_self_eq_true, if_true] at ih ⊢
    rw [ih]

theorem thread_events_other (tid j : Nat) (hj : j ≠ tid) (es : List Event) :
    thread_events j (es.map fun e => (tid, e)) = [] := by
  induction es with
  | nil => rfl
  | cons e es ih =>
    have : (tid == j) = false := by simpa using (Ne.symm hj)
    simp only [thread_events, List.map_cons, List.filter_cons, this] at ih ⊢
    simpa using ih

theorem calls_nil_of_mem (es : List Event) (hc : calls es = []) (fn d : Nat) :
    Event.engine fn d ∉ es := by
  intro hm
  have : d ∈ calls es := by
    simp only [calls, List.mem_filterMap]
    exact ⟨_, hm, rfl⟩
  rw [hc] at this
  cases this

theorem bracketed_append (es new : List Event) (hb : Bracketed es) (hc : calls new = [])
    (he : (∀ pre fn d, es ≠ pre ++ [.engine fn d]) ∨
      ∃ we st tl, new = .engine_ret :: .free we :: .mutex_lock st :: tl) :
    Bracketed (es ++ new) := by
  intro pre post fn d h
  rcases List.append_eq_append_iff.mp h with ⟨a, -, hn⟩ | ⟨c, hes, hpost⟩
  · exact absurd (by rw [hn]; simp) (calls_nil_of_mem new hc fn d)
  · cases c with
    | nil =>
      simp only [List.nil_append] at hpost
      exact absurd (by rw [← hpost]; simp) (calls_nil_of_mem new hc fn d)
    | cons x c =>
      simp only [List.cons_append, List.cons.injEq] at hpost
      obtain ⟨rfl, rfl⟩ := hpost
      obtain ⟨h1, h2⟩ := hb pre c fn d hes
      refine ⟨h1, ?_⟩
      rcases h2 with rfl | ⟨we, st, p1, rfl⟩
      · rcases he with he | ⟨we, st, tl, rfl⟩
        · exact absurd hes (he pre fn d)
        · right; exact ⟨we, st, tl, rfl⟩
      · right; exact ⟨we, st, p1 ++ new, rfl⟩

theorem bracketed_call (es pre0 : List Event) (d0 fn d : Nat) (hb : Bracketed es)
    (he : es = pre0 ++ [.unlink d0, .mutex_unlock 0]) :
    Bracketed (es ++ [.engine fn d]) := by
  intro pre post fn1 d1 h
  rcases List.append_eq_append_iff.mp h with ⟨a, hpre, hn⟩ | ⟨c, hes, hpost⟩
  · cases a with
    | nil =>
      simp only [List.nil_append, List.cons.injEq] at hn
      obtain ⟨-, rfl⟩ := hn
      simp only [List.append_nil] at hpre
      subst hpre
      exact ⟨⟨pre0, d0, he⟩, Or.inl rfl⟩
    | cons x a =>
      simp only [List.cons_append, List.cons.injEq] at hn
      obtain ⟨-, hn⟩ := hn
      cases a <;> simp at hn
  · cases c with
    | nil =>
      simp only [List.nil_append, List.cons.injEq] at hpost
      obtain ⟨-, rfl⟩ := hpost
      simp only [List.append_nil] at hes
      subst hes
      exact ⟨⟨pre0, d0, he⟩, Or.inl rfl⟩
    | cons x c =>
      simp only [List.cons_append, List.cons.injEq] at hpost
      obtain ⟨rfl, rfl⟩ := hpost
      obtain ⟨h1, h2⟩ := hb pre c fn1 d1 hes
      refine ⟨h1, ?_⟩
      rcases h2 with rfl | ⟨we, st, p1, rfl⟩
      · exfalso
        rw [he] at hes
        have := congrArg List.getLast? hes
        simp at this
      · right; exact ⟨we, st, p1 ++ [.engine fn d], by simp⟩

theorem no_end_append (es new : List Event) (hc : calls new = [])
    (he : new = [] → ∀ pre fn d, es ≠ pre ++ [.engine fn d]) :
    ∀ pre fn d, es ++ new ≠ pre ++ [.engine fn d] := by
  intro pre fn d h
  rcases List.append_eq_append_iff.mp h with ⟨a, -, hn⟩ | ⟨c, hes, hpost⟩
  · exact absurd (by rw [hn]; simp) (calls_nil_of_mem new hc fn d)
  · cases c with
    | nil =>
      simp only [List.nil_append] at hpost
      exact absurd (by rw [← hpost]; simp) (calls_nil_of_mem new hc fn d)
    | cons x c =>
      simp only [List.cons_append, List.cons.injEq] at hpost
      obtain ⟨rfl, hpost⟩ := hpost
      have hc0 : c = [] := by cases c with
        | nil => rfl
        | cons _ _ => simp at hpost
      have hn0 : new = [] := by
        subst hc0
        simpa using hpost.symm
      subst hc0
      exact he hn0 pre fn d hes

theorem no_end_snoc (es : List Event) (x : Event) (hx : ∀ fn d, x ≠ .engine fn d) :
    ∀ pre fn d, es ++ [x] ≠ pre ++ [.engine fn d] := by
  intro pre fn d h
  have h1 := congrArg List.getLast? h
  simp only [List.getLast?_append, List.getLast?_singleton, Option.or_some,
    Option.some.injEq] at h1
  exact hx fn d h1

theorem ends_append (th : Thread) (es tl : List Event) (hne : tl ≠ [])
    (hc : calls tl = []) (he : Ends (some th) tl) : Ends (some th) (es ++ tl) := by
  cases th
  case server_dequeued we t =>
    obtain ⟨pre, d, rfl⟩ := he
    exact ⟨es ++ pre, d, by simp⟩
  case server_engine we t => trivial
  all_goals exact no_end_append es tl hc (fun h => absurd h hne)

theorem workq_server_locked_ends (h : Heap) (env : Env) :
    ∀ (n : Nat) (p : Pt) (wq : workq_t) (evs : List Event) (o : Out),
      workq_server_locked n p wq h env evs = .ok o →
      o.events ≠ [] ∧ Ends (some o.next) o.events ∧ ∃ tl, o.events = evs ++ tl := by
  intro n
  induction n with
  | zero => intro p wq evs o hr; simp [workq_server_locked] at hr
  | succ n ih =>
    intro p wq evs o hr
    cases p with
    | inner =>
      simp only [workq_server_locked] at hr
      split at hr
      · cases hr
        exact ⟨by simp, no_end_snoc _ _ (by simp), _, rfl⟩
      · exact ih _ _ _ _ hr
    | take t =>
      simp only [workq_server_locked] at hr
      split at hr
      · rename_i we hwe
        split at hr
        · cases hr
        · rename_i e he
          split at hr
          · cases hr
            refine ⟨by simp, ?_, _, rfl⟩
            have := no_end_snoc (evs ++ [.unlink e.data]) (.mutex_unlock env.unlock) (by simp)
            simpa using this
          · cases hr
            exact ⟨by simp, ⟨evs, e.data, rfl⟩, _, rfl⟩
      · exact ih _ _ _ _ hr
    | tests t =>
      simp only [workq_server_locked] at hr
      split at hr
      · split at hr
        · cases hr
          refine ⟨by simp, ?_, _, rfl⟩
          have := no_end_snoc (evs ++ [.cond_broadcast env.broadcast])
            (.mutex_unlock env.unlock) (by simp)
          simpa using this
        · cases hr
          exact ⟨by simp, no_end_snoc _ _ (by simp), _, rfl⟩
      · split at hr
        · cases hr
          exact ⟨by simp, no_end_snoc _ _ (by simp), _, rfl⟩
        · exact ih _ _ _ _ hr

theorem thread_step_call (wq : workq_t) (h : Heap) (env : Env) (th : Thread) (o : Out)
    (es : List Event) (hr : thread_step wq h env th = some (.ok o))
    (hb : Bracketed es) (he : Ends (some th) es) :
    Bracketed (es ++ o.events) ∧ Ends (some o.next) (es ++ o.events) := by
  cases th with
  | add_locking item el =>
    simp only [thread_step, workq_add_locked, Option.some.injEq] at hr
    repeat' split at hr
    all_goals cases hr
    all_goals exact ⟨bracketed_append _ _ hb (by simp [calls]) (Or.inl he),
      no_end_append _ _ (by simp [calls]) (fun _ => he)⟩
  | destroy_locking =>
    simp only [thread_step, workq_destroy_locked, workq_destroy_while, workq_destroy_release,
      Option.some.injEq] at hr
    repeat' split at hr
    all_goals cases hr
    all_goals exact ⟨bracketed_append _ _ hb (by simp [calls]) (Or.inl he),
      no_end_append _ _ (by simp [calls]) (fun _ => he)⟩
  | destroy_waiting =>
    simp only [thread_step, workq_destroy_wake, workq_destroy_while, workq_destroy_release,
      Option.some.injEq] at hr
    repeat' split at hr
    all_goals cases hr
    all_goals exact ⟨bracketed_append _ _ hb (by simp [calls]) (Or.inl he),
      no_end_append _ _ (by simp [calls]) (fun _ => he)⟩
  | destroy_unlocked =>
    simp only [thread_step, workq_destroy_final, Option.some.injEq] at hr
    cases hr
    exact ⟨bracketed_append _ _ hb (by simp [calls]) (Or.inl he),
      no_end_append _ _ (by simp [calls]) (fun _ => he)⟩
  | server_start =>
    simp only [thread_step, workq_server_begin, Option.some.injEq] at hr
    split at hr
    · cases hr
      exact ⟨bracketed_append _ _ hb (by simp [calls]) (Or.inl he),
        no_end_append _ _ (by simp [calls]) (fun _ => he)⟩
    · obtain ⟨-, -, -, hc, -⟩ := workq_server_locked_spec _ _ _ _ _ _ _ hr
      obtain ⟨hne, hend, -⟩ := workq_server_locked_ends _ _ _ _ _ _ _ hr
      have hc0 : calls o.events = [] := by rw [hc]; simp [calls]
      exact ⟨bracketed_append _ _ hb hc0 (Or.inl he), ends_append _ _ _ hne hc0 hend⟩
  | server_waiting =>
    simp only [thread_step, workq_server_wake, Option.some.injEq] at hr
    split at hr
    · obtain ⟨-, -, -, hc, -⟩ := workq_server_locked_spec _ _ _ _ _ _ _ hr
      obtain ⟨hne, hend, -⟩ := workq_server_locked_ends _ _ _ _ _ _ _ hr
      have hc0 : calls o.events = [] := by rw [hc]; simp [calls]
      exact ⟨bracketed_append _ _ hb hc0 (Or.inl he), ends_append _ _ _ hne hc0 hend⟩
    · split at hr
      · cases hr
        exact ⟨bracketed_append _ _ hb (by simp [calls]) (Or.inl he),
          no_end_append _ _ (by simp [calls]) (fun _ => he)⟩
      · obtain ⟨-, -, -, hc, -⟩ := workq_server_locked_spec _ _ _ _ _ _ _ hr
        obtain ⟨hne, hend, -⟩ := workq_server_locked_ends _ _ _ _ _ _ _ hr
        have hc0 : calls o.events = [] := by rw [hc]; simp [calls]
        exact ⟨bracketed_append _ _ hb hc0 (Or.inl he), ends_append _ _ _ hne hc0 hend⟩
  | server_dequeued we t =>
    simp only [thread_step, workq_server_call, Option.some.injEq] at hr
    split at hr
    · cases hr
    · cases hr
      obtain ⟨pre, d, hes⟩ := he
      exact ⟨bracketed_call _ pre d _ _ hb hes, trivial⟩
  | server_engine we t =>
    simp only [thread_step, workq_server_resume, Option.some.injEq] at hr
    split at hr
    · cases hr
    · split at hr
      · cases hr
        exact ⟨bracketed_append _ _ hb (by simp [calls]) (Or.inr ⟨we, _, [], rfl⟩),
          no_end_append _ _ (by simp [calls]) (fun h => by simp at h)⟩
      · obtain ⟨-, -, -, hc, -⟩ := workq_server_locked_spec _ _ _ _ _ _ _ hr
        obtain ⟨hne, hend, tl, htl⟩ := workq_server_locked_ends _ _ _ _ _ _ _ hr
        have hc0 : calls o.events = [] := by rw [hc]; simp [calls]
        exact ⟨bracketed_append _ _ hb hc0 (Or.inr ⟨we, 0, tl, by rw [htl]; rfl⟩),
          ends_append _ _ _ hne hc0 hend⟩
  | add_done st => simp [thread_step] at hr
  | destroy_done st => simp [thread_step] at hr
  | server_done => simp [thread_step] at hr

theorem ends_other (pool pool1 l : List Thread) (j : Nat) (es : List Event)
    (hlen : pool1.length = pool.length)
    (hsame : j < pool.length → pool1.get? j = pool.get? j)
    (hl : ∀ x ∈ l, Ends none es → Ends (some x) es)
    (he : Ends (pool.get? j) es) : Ends ((pool1 ++ l).get? j) es := by
  rcases Nat.lt_or_ge j pool.length with hj | hj
  · have h2 : j < pool1.length := by omega
    rw [List.get?_eq_getElem?, List.getElem?_append_left h2, ← List.get?_eq_getElem?,
      hsame hj]
    exact he
  · rw [List.get?_eq_none.mpr hj] at he
    cases hx : (pool1 ++ l).get? j with
    | none => exact he
    | some x =>
      rw [List.get?_eq_getElem?, List.getElem?_append_right (by omega)] at hx
      exact hl x (List.getElem?_mem hx) he

theorem ends_none_of_plain (x : Thread) (es : List Event)
    (hx : (∀ we t, x ≠ .server_dequeued we t) ∧ (∀ we t, x ≠ .server_engine we t))
    (he : Ends none es) : Ends (some x) es := by
  cases x
  case server_dequeued we t => exact absurd rfl (hx.1 we t)
  case server_engine we t => trivial
  all_goals exact he

theorem callInv_step (s : Sys) (l : Label) (hs : CallInv s) : CallInv (step s l) := by
  cases l with
  | call_add el m =>
    simp only [step]
    split
    · exact hs
    · intro j
      obtain ⟨hb, he⟩ := hs j
      have hplain : (∀ we t, (workq_add_entry s.wq s.heap el m).1 ≠ .server_dequeued we t) ∧
          (∀ we t, (workq_add_entry s.wq s.heap el m).1 ≠ .server_engine we t) := by
        unfold workq_add_entry
        split
        · exact ⟨fun _ _ h => (by cases h), fun _ _ h => (by cases h)⟩
        · cases m <;> exact ⟨fun _ _ h => (by cases h), fun _ _ h => (by cases h)⟩
      have hcalls : calls (workq_add_entry s.wq s.heap el m).2.2 = [] := by
        unfold workq_add_entry
        split
        · rfl
        · cases m <;> rfl
      simp only [thread_events_append]
      by_cases hj : j = s.pool.length
      · subst hj
        rw [thread_events_self]
        have hnone : s.pool.get? s.pool.length = none := List.get?_eq_none.mpr (le_refl _)
        rw [hnone] at he
        refine ⟨bracketed_append _ _ hb hcalls (Or.inl he), ?_⟩
        have h1 : (s.pool ++ [(workq_add_entry s.wq s.heap el m).1]).get? s.pool.length =
            some (workq_add_entry s.wq s.heap el m).1 := by
          simp [List.get?_eq_getElem?]
        rw [h1]
        exact ends_none_of_plain _ _ hplain (no_end_append _ _ hcalls (fun _ => he))
      · rw [thread_events_other _ _ hj, List.append_nil]
        exact ⟨hb, ends_other s.pool s.pool _ j _ rfl (fun _ => rfl)
          (fun x hx h0 => by
            simp only [List.mem_singleton] at hx
            subst hx
            exact ends_none_of_plain _ _ hplain h0) he⟩
  | call_destroy =>
    simp only [step]
    intro j
    obtain ⟨hb, he⟩ := hs j
    refine ⟨hb, ends_other s.pool s.pool _ j _ rfl (fun _ => rfl) (fun x hx h0 => ?_) he⟩
    simp only [List.mem_singleton] at hx
    subst hx
    refine ends_none_of_plain _ _ ?_ h0
    unfold workq_destroy_entry
    split <;> exact ⟨fun _ _ h => (by cases h), fun _ _ h => (by cases h)⟩
  | run tid env =>
    rcases step_run_cases s tid env with h | h | ⟨th, o, hth, hr, h⟩
    · rw [h]; exact hs
    · rw [h]; exact hs
    · rw [h]
      intro j
      obtain ⟨hb, he⟩ := hs j
      simp only [Sys.apply, thread_events_append]
      by_cases hj : j = tid
      · subst hj
        rw [thread_events_self, get?_set_append _ _ _ _ _ hth]
        rw [hth] at he
        exact thread_step_call _ _ _ _ _ _ hr hb he
      · rw [thread_events_other _ _ hj, List.append_nil]
        refine ⟨hb, ends_other s.pool _ _ j _ (by simp) (fun hlt => ?_) (fun x hx h0 => ?_) he⟩
        · simp [List.get?_eq_getElem?, List.getElem?_set, hj, Ne.symm hj]
        · have : x = .server_start := by
            split at hx
            · simpa using hx
            · cases hx
          subst this
          exact h0

theorem callInv_start (wq : workq_t) : CallInv (Sys.start wq) := by
  intro j
  refine ⟨?_, ?_⟩
  · intro pre post fn d h
    simp [Sys.start, thread_events] at h
  · intro pre fn d h
    simp [Sys.start, thread_events] at h

theorem callInv_exec (wq0 : workq_t) (N : Int) (engine : Nat) (env : Env) (ls : List Label) :
    CallInv (after_init wq0 N engine env ls) := by
  unfold after_init
  exact exec_inv CallInv callInv_step ls _ (callInv_start _)

theorem chain_unique (h : Heap) :
    ∀ (q q1 : List (Nat × Nat)) (p : Option Nat), Chain h p q → Chain h p q1 → q = q1 := by
  intro q
  induction q with
  | nil =>
    intro q1 p hc hc1
    cases hc
    exact (chain_none h q1 hc1).symm
  | cons x q ih =>
    intro q1 p hc hc1
    obtain ⟨a, d⟩ := x
    obtain ⟨rfl, nxt, ha, hq⟩ := hc
    obtain ⟨q2, rfl, hq2⟩ := chain_some h q1 a _ hc1 ha
    rw [ih q2 nxt hq hq2]

theorem holds_mutex_unlocked (pre : List Event) (d : Nat) :
    holds_mutex (pre ++ [.unlink d, .mutex_unlock 0]) = false := by
  simp [holds_mutex, List.foldl_append, mutex_after]

/-- C20: in every run, each call of the engine in the events of a thread comes
right after the unlinking of an item and a successful `pthread_mutex_unlock`
of that thread, so that the thread does not hold the mutex, and the next
events of the thread, if any, are the return of the engine, the `free` of the
item and the `pthread_mutex_lock` of line 105.  A server that stands right
before the call has its item allocated and outside the queue, and its step is
the call `wq->engine (we->data)` and nothing else. -/
theorem C20_engine_called_unlocked (wq0 : workq_t) (N : Int) (engine : Nat) (env : Env)
    (hinit : (workq_init wq0 N engine env).1 = 0) (ls : List Label) (tid : Nat) :
    (∀ pre post fn d,
      thread_events tid (after_init wq0 N engine env ls).trace = pre ++ .engine fn d :: post →
      (∃ pre1 d1, pre = pre1 ++ [.unlink d1, .mutex_unlock 0]) ∧
      holds_mutex pre = false ∧
      (post = [] ∨
        ∃ we st post1, post = .engine_ret :: .free we :: .mutex_lock st :: post1)) ∧
    (∀ we t,
      (after_init wq0 N engine env ls).pool.get? tid = some (.server_dequeued we t) →
      (∃ pre d1, thread_events tid (after_init wq0 N engine env ls).trace =
        pre ++ [.unlink d1, .mutex_unlock 0]) ∧
      holds_mutex (thread_events tid (after_init wq0 N engine env ls).trace) = false ∧
      (∀ q, Chain (after_init wq0 N engine env ls).heap
          (after_init wq0 N engine env ls).wq.first q → we ∉ q.map Prod.fst) ∧
      ∃ e, (after_init wq0 N engine env ls).heap we = some e ∧
        ∀ env1, step (after_init wq0 N engine env ls) (.run tid env1) =
          { after_init wq0 N engine env ls with
            pool := (after_init wq0 N engine env ls).pool.set tid (.server_engine we t),
            trace := (after_init wq0 N engine env ls).trace ++
              [(tid, .engine (after_init wq0 N engine env ls).wq.engine e.data)] }) := by
  obtain ⟨hb, he⟩ := callInv_exec wq0 N engine env ls tid
  have hI := hinv_exec wq0 N engine env hinit ls
  generalize after_init wq0 N engine env ls = s at hb he hI ⊢
  refine ⟨?_, ?_⟩
  · intro pre post fn d h
    obtain ⟨⟨pre1, d1, rfl⟩, h2⟩ := hb pre post fn d h
    exact ⟨⟨pre1, d1, rfl⟩, holds_mutex_unlocked pre1 d1, h2⟩
  · intro we t hth
    rw [hth] at he
    obtain ⟨pre, d1, hes⟩ := he
    obtain ⟨-, hI⟩ := hI
    obtain ⟨l1, l2, hp, -⟩ := pool_split s.pool tid _ hth
    have hI2 : HInv s.wq s.heap s.trace (.server_dequeued we t :: (l1 ++ l2)) :=
      hinv_perm _ _ _ _ _ (by rw [hp]; exact List.perm_middle) hI
    obtain ⟨q0, hch, -, hnd, hown, -, -⟩ := hI2
    rw [holds_cons] at hnd
    obtain ⟨hq, -⟩ := held_apart _ _ _ we hnd (by simp [Thread.held])
    obtain ⟨e, hwe⟩ := hown _ (List.mem_cons_self _ _)
    refine ⟨⟨pre, d1, hes⟩, by rw [hes]; exact holds_mutex_unlocked pre d1, ?_, e, hwe, ?_⟩
    · intro q hc
      rw [chain_unique _ _ _ _ hc hch]
      exact hq
    · intro env1
      simp only [step, hth, thread_step, workq_server_call, hwe, Sys.apply]
      simp

/-- Witness of C20: the run `sched_sleep` on a queue of bound 1, whose server is
thread 1, and the state of `sched_dequeue` in which that server stands right
before the call. -/
theorem C20_witness :
    ((∃ pre1 d1, [Event.mutex_lock 0, .unlink 7, .mutex_unlock 0] =
      pre1 ++ [.unlink d1, .mutex_unlock 0]) ∧
    holds_mutex [Event.mutex_lock 0, .unlink 7, .mutex_unlock 0] = false ∧
    ([Event.engine_ret, .free 100, .mutex_lock 0, .cond_timedwait] = [] ∨
      ∃ we st post1, [Event.engine_ret, .free 100, .mutex_lock 0, .cond_timedwait] =
        .engine_ret :: .free we :: .mutex_lock st :: post1)) ∧
    (∀ q, Chain (after_init demo_wq 1 5 Env.ok sched_dequeue).heap
      (after_init demo_wq 1 5 Env.ok sched_dequeue).wq.first q → 100 ∉ q.map Prod.fst) :=
  ⟨(C20_engine_called_unlocked demo_wq 1 5 Env.ok (by decide) sched_sleep 1).1
      [.mutex_lock 0, .unlink 7, .mutex_unlock 0]
      [.engine_ret, .free 100, .mutex_lock 0, .cond_timedwait] 5 7 (by decide),
    ((C20_engine_called_unlocked demo_wq 1 5 Env.ok (by decide) sched_dequeue 1).2
      100 false (by decide)).2.2.1⟩

theorem server_locked_drain (wq : workq_t) (h : Heap) (env : Env) (evs : List Event)
    (p : Pt) (hf : wq.first = none) (hq : wq.quit ≠ 0) :
    workq_server_locked workq_server_fuel p wq h env evs = .ok (draining wq h env evs) := by
  cases p <;> simp [workq_server_locked, workq_server_fuel, draining, hf, hq] <;>
    split <;> simp_all

theorem server_locked_retire (wq : workq_t) (h : Heap) (env : Env) (evs : List Event)
    (p : Pt) (hf : wq.first = none) (hq : wq.quit = 0) (ht : p.timedout = true) :
    workq_server_locked workq_server_fuel p wq h env evs = .ok (retiring wq h env evs) := by
  cases p <;> simp_all [workq_server_locked, workq_server_fuel, retiring, Pt.timedout]

theorem server_locked_wait (wq : workq_t) (h : Heap) (env : Env) (evs : List Event)
    (p : Pt) (hf : wq.first = none) (hq : wq.quit = 0) (ht : p.timedout = false) :
    workq_server_locked workq_server_fuel p wq h env evs =
      .ok ⟨wq, h, .server_waiting, false, evs ++ [.cond_timedwait]⟩ := by
  cases p <;> simp_all [workq_server_locked, workq_server_fuel, Pt.timedout]

theorem server_locked_take (wq : workq_t) (h : Heap) (env : Env) (evs : List Event)
    (p : Pt) (we : Nat) (e : workq_ele_t) (hf : wq.first = some we) (he : h we = some e) :
    workq_server_locked workq_server_fuel p wq h env evs =
      .ok ⟨if wq.last = some we then { wq with first := e.next, last := none }
          else { wq with first := e.next },
        h, if env.unlock ≠ 0 then .server_done else .server_dequeued we p.carried, false,
        evs ++ [.unlink e.data, .mutex_unlock env.unlock]⟩ := by
  cases p <;> simp [workq_server_locked, workq_server_fuel, Pt.carried, hf, he] <;>
    split <;> simp_all

theorem server_locked_ub (wq : workq_t) (h : Heap) (env : Env) (evs : List Event)
    (p : Pt) (we : Nat) (hf : wq.first = some we) (he : h we = none) :
    workq_server_locked workq_server_fuel p wq h env evs = .ub := by
  cases p <;> simp [workq_server_locked, workq_server_fuel, hf, he]

theorem server_locked_done (wq : workq_t) (h : Heap) (env : Env) (evs : List Event)
    (p : Pt) (o : Out) (hr : workq_server_locked workq_server_fuel p wq h env evs = .ok o)
    (hdone : o.next = .server_done) :
    (env.unlock ≠ 0 ∧ ∃ we, wq.first = some we) ∨
    (wq.first = none ∧ wq.quit ≠ 0 ∧ o = draining wq h env evs) ∨
    (wq.first = none ∧ wq.quit = 0 ∧ p.timedout = true ∧ o = retiring wq h env evs) := by
  cases hf : wq.first with
  | none =>
    by_cases hq : wq.quit = 0
    · cases ht : p.timedout with
      | true =>
        rw [server_locked_retire wq h env evs p hf hq ht] at hr
        cases hr
        exact Or.inr (Or.inr ⟨rfl, hq, rfl, rfl⟩)
      | false =>
        rw [server_locked_wait wq h env evs p hf hq ht] at hr
        cases hr
        cases hdone
    · rw [server_locked_drain wq h env evs p hf hq] at hr
      cases hr
      exact Or.inr (Or.inl ⟨rfl, hq, rfl⟩)
  | some we =>
    cases he : h we with
    | none =>
      rw [server_locked_ub wq h env evs p we hf he] at hr
      cases hr
    | some e =>
      rw [server_locked_take wq h env evs p we e hf he] at hr
      cases hr
      by_cases hu : env.unlock = 0
      · simp [hu] at hdone
      · exact Or.inl ⟨hu, we, rfl⟩

/-- C21 (amended): every step with which a server returns is the return after a
failed `pthread_mutex_lock`, after a failed `pthread_cond_timedwait`, after a
failed `pthread_mutex_unlock` that follows an unlinking, the Draining exit
(queue empty and `quit` set) or the Retiring exit (queue empty, `quit` not set,
the timed wait of this round of the loop has timed out); when no primitive
fails it is the Draining or the Retiring exit. -/
theorem C21_server_returns (wq : workq_t) (h : Heap) (env : Env) (th : Thread) (o : Out)
    (hr : thread_step wq h env th = some (.ok o)) (hlive : th.live = true)
    (hdone : o.next = .server_done) :
    ((env.lock ≠ 0 ∧ (th = .server_start ∨ ∃ we t, th = .server_engine we t) ∧ o.wq = wq) ∨
      (env.wait ≠ 0 ∧ env.wait ≠ ETIMEDOUT ∧ th = .server_waiting) ∨
      (env.unlock ≠ 0 ∧ ∃ we, wq.first = some we) ∨
      (wq.first = none ∧ wq.quit ≠ 0 ∧ ∃ evs, o = draining wq o.heap env evs) ∨
      (wq.first = none ∧ wq.quit = 0 ∧
        ((th = .server_waiting ∧ env.wait = ETIMEDOUT) ∨ ∃ we, th = .server_engine we true) ∧
        ∃ evs, o = retiring wq o.heap env evs)) ∧
    (env.clean →
      (wq.first = none ∧ wq.quit ≠ 0 ∧ ∃ evs, o = draining wq o.heap env evs) ∨
      (wq.first = none ∧ wq.quit = 0 ∧
        ((th = .server_waiting ∧ env.wait = ETIMEDOUT) ∨ ∃ we, th = .server_engine we true) ∧
        ∃ evs, o = retiring wq o.heap env evs)) := by
  have main : (env.lock ≠ 0 ∧ (th = .server_start ∨ ∃ we t, th = .server_engine we t) ∧
        o.wq = wq) ∨
      (env.wait ≠ 0 ∧ env.wait ≠ ETIMEDOUT ∧ th = .server_waiting) ∨
      (env.unlock ≠ 0 ∧ ∃ we, wq.first = some we) ∨
      (wq.first = none ∧ wq.quit ≠ 0 ∧ ∃ evs, o = draining wq o.heap env evs) ∨
      (wq.first = none ∧ wq.quit = 0 ∧
        ((th = .server_waiting ∧ env.wait = ETIMEDOUT) ∨ ∃ we, th = .server_engine we true) ∧
        ∃ evs, o = retiring wq o.heap env evs) := by
    cases th with
    | server_start =>
      simp only [thread_step, workq_server_begin, Option.some.injEq] at hr
      split at hr
      · rename_i hl
        cases hr
        exact Or.inl ⟨hl, Or.inl rfl, rfl⟩
      · rcases server_locked_done _ _ _ _ _ _ hr hdone with h1 | ⟨h1, h2, rfl⟩ |
          ⟨-, -, h3, -⟩
        · exact Or.inr (Or.inr (Or.inl h1))
        · exact Or.inr (Or.inr (Or.inr (Or.inl ⟨h1, h2, _, rfl⟩)))
        · cases h3
    | server_waiting =>
      simp only [thread_step, workq_server_wake, Option.some.injEq] at hr
      split at hr
      · rename_i hw
        rcases server_locked_done _ _ _ _ _ _ hr hdone with h1 | ⟨h1, h2, rfl⟩ |
          ⟨h1, h2, -, rfl⟩
        · exact Or.inr (Or.inr (Or.inl h1))
        · exact Or.inr (Or.inr (Or.inr (Or.inl ⟨h1, h2, _, rfl⟩)))
        · exact Or.inr (Or.inr (Or.inr (Or.inr ⟨h1, h2, Or.inl ⟨rfl, hw⟩, _, rfl⟩)))
      · rename_i hw
        split at hr
        · rename_i hw0
          exact Or.inr (Or.inl ⟨hw0, hw, rfl⟩)
        · rcases server_locked_done _ _ _ _ _ _ hr hdone with h1 | ⟨h1, h2, rfl⟩ |
            ⟨-, -, h3, -⟩
          · exact Or.inr (Or.inr (Or.inl h1))
          · exact Or.inr (Or.inr (Or.inr (Or.inl ⟨h1, h2, _, rfl⟩)))
          · cases h3
    | server_dequeued we t =>
      simp only [thread_step, workq_server_call, Option.some.injEq] at hr
      split at hr
      · cases hr
      · cases hr; cases hdone
    | server_engine we t =>
      simp only [thread_step, workq_server_resume, Option.some.injEq] at hr
      split at hr
      · cases hr
      · split at hr
        · rename_i hl
          cases hr
          exact Or.inl ⟨hl, Or.inr ⟨we, t, rfl⟩, rfl⟩
        · rcases server_locked_done _ _ _ _ _ _ hr hdone with h1 | ⟨h1, h2, rfl⟩ |
            ⟨h1, h2, h3, rfl⟩
          · exact Or.inr (Or.inr (Or.inl h1))
          · exact Or.inr (Or.inr (Or.inr (Or.inl ⟨h1, h2, _, rfl⟩)))
          · simp only [Pt.timedout] at h3
            subst h3
            exact Or.inr (Or.inr (Or.inr (Or.inr ⟨h1, h2, Or.inr ⟨we, rfl⟩, _, rfl⟩)))
    | add_locking item el => cases hlive
    | destroy_locking => cases hlive
    | destroy_waiting => cases hlive
    | destroy_unlocked => cases hlive
    | add_done st => cases hlive
    | destroy_done st => cases hlive
    | server_done => cases hlive
  refine ⟨main, fun hc => ?_⟩
  obtain ⟨c1, c2, -, -, -, c6⟩ := hc
  rcases main with ⟨h1, -⟩ | ⟨h1, h2, -⟩ | ⟨h1, -⟩ | h1 | h1
  · exact absurd c1 h1
  · rcases c6 with c6 | c6
    · exact absurd c6 h1
    · exact absurd c6 h2
  · exact absurd c2 h1
  · exact Or.inl h1
  · exact Or.inr h1

/-- Witness of C21: a server woken from its wait on an empty queue in rundown
takes the Draining exit. -/
theorem C21_witness :
    (demo_quit.first = none ∧ demo_quit.quit ≠ 0 ∧
      ∃ evs, draining demo_quit Heap.empty Env.ok [.cond_wake 0] =
        draining demo_quit (draining demo_quit Heap.empty Env.ok [.cond_wake 0]).heap
          Env.ok evs) ∨
    (demo_quit.first = none ∧ demo_quit.quit = 0 ∧
      ((Thread.server_waiting = .server_waiting ∧ Env.ok.wait = ETIMEDOUT) ∨
        ∃ we, Thread.server_waiting = .server_engine we true) ∧
      ∃ evs, draining demo_quit Heap.empty Env.ok [.cond_wake 0] =
        retiring demo_quit (draining demo_quit Heap.empty Env.ok [.cond_wake 0]).heap
          Env.ok evs) :=
  (C21_server_returns demo_quit Heap.empty Env.ok .server_waiting
    (draining demo_quit Heap.empty Env.ok [.cond_wake 0]) (by rfl) (by rfl) (by rfl)).2
    (by decide)

/-- Counterexample to C21 as stated: the `pthread_mutex_lock` of line 47 fails
and the server returns with an item in the queue and `quit` not set. -/
theorem C21_counterexample :
    (after_init demo_wq 1 5 Env.ok (sched_lock_fails.take 2)).pool =
      [.add_done 0, .server_start] ∧
    (after_init demo_wq 1 5 Env.ok sched_lock_fails).pool = [.add_done 0, .server_done] ∧
    thread_events 1 (after_init demo_wq 1 5 Env.ok sched_lock_fails).trace =
      [.mutex_lock 22] ∧
    (after_init demo_wq 1 5 Env.ok sched_lock_fails).wq.first = some 100 ∧
    (after_init demo_wq 1 5 Env.ok sched_lock_fails).wq.quit = 0 := by
  decide

/-- C22: a server that holds the mutex, at any place of its loop, and finds the
queue empty and `quit` set decrements `counter` by one, calls
`pthread_cond_broadcast` exactly when `counter` has become 0, calls
`pthread_mutex_unlock` and returns; nothing else changes.  This is the step
of a server that has taken the mutex at line 47, has been woken from its wait
or has taken the mutex again at line 105. -/
theorem C22_draining_step (wq : workq_t) (h : Heap) (env : Env) (hf : wq.first = none)
    (hq : wq.quit ≠ 0) :
    (∀ (p : Pt) (evs : List Event),
      ∃ o, workq_server_locked workq_server_fuel p wq h env evs = .ok o ∧
        o.wq = { wq with counter := wq.counter - 1 } ∧ o.heap = h ∧
        o.next = .server_done ∧ o.spawn = false ∧
        (wq.counter - 1 = 0 →
          o.events = evs ++ [.cond_broadcast env.broadcast, .mutex_unlock env.unlock]) ∧
        (wq.counter - 1 ≠ 0 → o.events = evs ++ [.mutex_unlock env.unlock])) ∧
    (env.lock = 0 →
      thread_step wq h env .server_start =
        some (.ok (draining wq h env [.mutex_lock 0]))) ∧
    (env.wait = 0 ∨ env.wait = ETIMEDOUT →
      thread_step wq h env .server_waiting =
        some (.ok (draining wq h env [.cond_wake env.wait]))) ∧
    (∀ we t e, h we = some e → env.lock = 0 →
      thread_step wq h env (.server_engine we t) =
        some (.ok (draining wq (Function.update h we none) env
          [.engine_ret, .free we, .mutex_lock 0]))) := by
  refine ⟨fun p evs => ⟨_, server_locked_drain wq h env evs p hf hq, rfl, rfl, rfl, rfl,
    fun h0 => by simp [draining, h0], fun h0 => by simp [draining, h0]⟩, ?_, ?_, ?_⟩
  · intro hl
    simp only [thread_step, workq_server_begin, hl, ne_eq, not_true_eq_false, if_false]
    rw [server_locked_drain wq h env _ _ hf hq]
  · intro hw
    rcases hw with hw | hw
    · have h1 : ¬ (0 : Int) = ETIMEDOUT := by decide
      simp only [thread_step, workq_server_wake, hw, h1, if_false, ne_eq, not_true_eq_false]
      rw [server_locked_drain wq h env _ _ hf hq]
    · simp only [thread_step, workq_server_wake, hw, if_true]
      rw [server_locked_drain wq h env _ _ hf hq]
  · intro we t e he hl
    simp only [thread_step, workq_server_resume, he, hl, ne_eq, not_true_eq_false, if_false]
    rw [server_locked_drain wq _ env _ _ hf hq]

/-- Witness of C22: the last server of a queue in rundown takes the mutex at
line 47: `counter` becomes 0 and the server broadcasts. -/
theorem C22_witness :
    thread_step demo_quit Heap.empty Env.ok .server_start =
      some (.ok (draining demo_quit Heap.empty Env.ok [.mutex_lock 0])) :=
  (C22_draining_step demo_quit Heap.empty Env.ok (by decide) (by decide)).2.1 (by decide)

theorem server_locked_quit (wq : workq_t) (h : Heap) (env : Env) (evs : List Event)
    (p : Pt) (o : Out) (hq : wq.quit ≠ 0)
    (hr : workq_server_locked workq_server_fuel p wq h env evs = .ok o) :
    o.next ≠ .server_waiting ∧ o.wq.quit = wq.quit := by
  refine ⟨?_, (workq_server_locked_num h env _ _ _ _ _ hr).2.2.2.2.1⟩
  cases hf : wq.first with
  | none =>
    rw [server_locked_drain wq h env evs p hf hq] at hr
    cases hr
    simp [draining]
  | some we =>
    cases he : h we with
    | none =>
      rw [server_locked_ub wq h env evs p we hf he] at hr
      cases hr
    | some e =>
      rw [server_locked_take wq h env evs p we e hf he] at hr
      cases hr
      show ¬ (if env.unlock ≠ 0 then Thread.server_done
        else Thread.server_dequeued we p.carried) = Thread.server_waiting
      split <;> simp

theorem thread_step_quit (wq : workq_t) (h : Heap) (env : Env) (th : Thread) (o : Out)
    (hq : wq.quit ≠ 0) (hr : thread_step wq h env th = some (.ok o)) :
    o.next ≠ .server_waiting ∧ o.wq.quit ≠ 0 := by
  cases th with
  | add_locking item el =>
    simp only [thread_step, workq_add_locked, Option.some.injEq] at hr
    split at hr
    · cases hr; exact ⟨by simp, hq⟩
    · split at hr
      · cases hr
      · rename_i wq1 h1 hl
        obtain ⟨-, -, -, -, -, h6⟩ := add_link_fields wq h item wq1 _ hl
        rw [← h6] at hq
        repeat' split at hr
        all_goals cases hr
        all_goals exact ⟨by simp, hq⟩
  | destroy_locking =>
    simp only [thread_step, workq_destroy_locked, workq_destroy_while, workq_destroy_release,
      Option.some.injEq] at hr
    repeat' split at hr
    all_goals cases hr
    all_goals simp [hq]
  | destroy_waiting =>
    simp only [thread_step, workq_destroy_wake, workq_destroy_while, workq_destroy_release,
      Option.some.injEq] at hr
    repeat' split at hr
    all_goals cases hr
    all_goals simp [hq]
  | destroy_unlocked =>
    simp only [thread_step, workq_destroy_final, Option.some.injEq] at hr
    cases hr
    simp [hq]
  | server_start =>
    simp only [thread_step, workq_server_begin, Option.some.injEq] at hr
    split at hr
    · cases hr; simp [hq]
    · obtain ⟨g1, g2⟩ := server_locked_quit _ _ _ _ _ _ hq hr
      exact ⟨g1, by rw [g2]; exact hq⟩
  | server_waiting =>
    simp only [thread_step, workq_server_wake, Option.some.injEq] at hr
    split at hr
    · obtain ⟨g1, g2⟩ := server_locked_quit _ _ _ _ _ _ hq hr
      exact ⟨g1, by rw [g2]; exact hq⟩
    · split at hr
      · cases hr; simp [hq]
      · obtain ⟨g1, g2⟩ := server_locked_quit _ _ _ _ _ _ hq hr
        exact ⟨g1, by rw [g2]; exact hq⟩
  | server_dequeued we t =>
    simp only [thread_step, workq_server_call, Option.some.injEq] at hr
    split at hr
    · cases hr
    · cases hr; simp [hq]
  | server_engine we t =>
    simp only [thread_step, workq_server_resume, Option.some.injEq] at hr
    split at hr
    · cases hr
    · split at hr
      · cases hr; simp [hq]
      · obtain ⟨g1, g2⟩ := server_locked_quit _ _ _ _ _ _ hq hr
        exact ⟨g1, by rw [g2]; exact hq⟩
  | add_done st => simp [thread_step] at hr
  | destroy_done st => simp [thread_step] at hr
  | server_done => simp [thread_step] at hr

theorem get?_append_one (pool : List Thread) (x : Thread) (j : Nat) (y : Thread)
    (h : (pool ++ [x]).get? j = some y) : pool.get? j = some y ∨ y = x := by
  rcases Nat.lt_or_ge j pool.length with hj | hj
  · rw [List.get?_eq_getElem?, List.getElem?_append_left hj] at h
    left; rw [List.get?_eq_getElem?]; exact h
  · rw [List.get?_eq_getElem?, List.getElem?_append_right hj] at h
    right
    have := List.getElem?_mem h
    simpa using this

theorem get?_set_other (pool l : List Thread) (tid j : Nat) (x y : Thread) (hj : j ≠ tid)
    (h : (pool.set tid x ++ l).get? j = some y) : pool.get? j = some y ∨ y ∈ l := by
  rcases Nat.lt_or_ge j pool.length with hlt | hge
  · rw [List.get?_eq_getElem?, List.getElem?_append_left (by simpa using hlt)] at h
    left
    rw [List.get?_eq_getElem?]
    simpa [List.getElem?_set, Ne.symm hj] using h
  · rw [List.get?_eq_getElem?, List.getElem?_append_right (by simpa using hge)] at h
    right
    exact List.getElem?_mem h

theorem quit_step (s : Sys) (l : Label) (hq : s.wq.quit ≠ 0) :
    (step s l).wq.quit ≠ 0 ∧
    ∀ tid, (step s l).pool.get? tid = some .server_waiting →
      s.pool.get? tid = some .server_waiting := by
  cases l with
  | call_add el m =>
    simp only [step]
    split
    · exact ⟨hq, fun _ h => h⟩
    · refine ⟨hq, fun tid h => ?_⟩
      rcases get?_append_one _ _ _ _ h with h1 | h1
      · exact h1
      · exfalso
        revert h1
        unfold workq_add_entry
        split
        · intro h1; cases h1
        · cases m <;> intro h1 <;> cases h1
  | call_destroy =>
    simp only [step]
    refine ⟨hq, fun tid h => ?_⟩
    rcases get?_append_one _ _ _ _ h with h1 | h1
    · exact h1
    · exfalso
      revert h1
      unfold workq_destroy_entry
      split <;> intro h1 <;> cases h1
  | run tid env =>
    rcases step_run_cases s tid env with h | h | ⟨th, o, hth, hr, h⟩
    · rw [h]; exact ⟨hq, fun _ h => h⟩
    · rw [h]; exact ⟨hq, fun _ h => h⟩
    · rw [h]
      obtain ⟨g1, g2⟩ := thread_step_quit _ _ _ _ _ hq hr
      refine ⟨g2, fun j hj => ?_⟩
      simp only [Sys.apply] at hj
      by_cases hjt : j = tid
      · subst hjt
        rw [get?_set_append _ _ _ _ _ hth] at hj
        exact absurd (Option.some.inj hj) g1
      · rcases get?_set_other _ _ _ _ _ _ hjt hj with h1 | h1
        · exact h1
        · exfalso
          split at h1
          · simp at h1
          · cases h1

theorem quit_exec (s : Sys) (ls : List Label) (hq : s.wq.quit ≠ 0) :
    (exec s ls).wq.quit ≠ 0 ∧
    ∀ tid, (exec s ls).pool.get? tid = some .server_waiting →
      s.pool.get? tid = some .server_waiting := by
  induction ls generalizing s with
  | nil => exact ⟨hq, fun _ h => h⟩
  | cons l ls ih =>
    obtain ⟨g1, g2⟩ := quit_step s l hq
    obtain ⟨g3, g4⟩ := ih (step s l) g1
    exact ⟨g3, fun tid h => g2 tid (g4 tid h)⟩



theorem server_locked_events (wq : workq_t) (h : Heap) (env : Env) (evs : List Event)
    (p : Pt) (o : Out) (hr : workq_server_locked workq_server_fuel p wq h env evs = .ok o) :
    o.next.server = true ∧
    ∃ tl, o.events = evs ++ tl ∧
      (tl = [.cond_timedwait] ∨ (∃ d, tl = [.unlink d, .mutex_unlock env.unlock]) ∨
        tl = [.cond_broadcast env.broadcast, .mutex_unlock env.unlock] ∨
        tl = [.mutex_unlock env.unlock]) := by
  cases hf : wq.first with
  | none =>
    by_cases hq : wq.quit = 0
    · cases ht : p.timedout with
      | true =>
        rw [server_locked_retire wq h env evs p hf hq ht] at hr
        cases hr
        exact ⟨rfl, _, rfl, Or.inr (Or.inr (Or.inr rfl))⟩
      | false =>
        rw [server_locked_wait wq h env evs p hf hq ht] at hr
        cases hr
        exact ⟨rfl, _, rfl, Or.inl rfl⟩
    · rw [server_locked_drain wq h env evs p hf hq] at hr
      cases hr
      refine ⟨rfl, _, rfl, ?_⟩
      split
      · exact Or.inr (Or.inr (Or.inl rfl))
      · exact Or.inr (Or.inr (Or.inr rfl))
  | some we =>
    cases he : h we with
    | none =>
      rw [server_locked_ub wq h env evs p we hf he] at hr
      cases hr
    | some e =>
      rw [server_locked_take wq h env evs p we e hf he] at hr
      cases hr
      refine ⟨?_, _, rfl, Or.inr (Or.inl ⟨e.data, rfl⟩)⟩
      show (if env.unlock ≠ 0 then Thread.server_done
        else Thread.server_dequeued we p.carried).server = true
      split <;> rfl

theorem signals_append (a b : List (Nat × Event)) :
    signals (a ++ b) = signals a ++ signals b := by
  simp [signals, List.filterMap_append]

theorem signals_nil_of_not_mem (tid : Nat) (es : List Event)
    (h : ∀ st, Event.cond_signal st ∉ es) : signals (es.map fun e => (tid, e)) = [] := by
  induction es with
  | nil => rfl
  | cons e es ih =>
    have h1 : ∀ st, Event.cond_signal st ∉ es := fun st hm => h st (List.mem_cons_of_mem _ hm)
    have h2 := ih h1
    cases e
    case cond_signal st => exact absurd (List.mem_cons_self _ _) (h st)
    all_goals simpa [signals] using h2

theorem thread_step_idle (wq : workq_t) (h : Heap) (env : Env) (th : Thread) (o : Out)
    (hi : wq.idle = 0) (hr : thread_step wq h env th = some (.ok o)) :
    (∀ st, Event.cond_signal st ∉ o.events) ∧
    ((∃ st, Event.cond_broadcast st ∈ o.events) → th.server = true) ∧
    (th.server = true → o.next.server = true) := by
  cases th with
  | add_locking item el =>
    simp only [thread_step, workq_add_locked, Option.some.injEq] at hr
    split at hr
    · cases hr; simp [Thread.server]
    · split at hr
      · cases hr
      · rename_i wq1 h1 hl
        obtain ⟨-, h2, -, -, -, -⟩ := add_link_fields wq h item wq1 _ hl
        have h3 : ¬ wq1.idle > 0 := by rw [h2, hi]; decide
        simp only [h3, if_false] at hr
        repeat' split at hr
        all_goals cases hr
        all_goals simp [Thread.server]
  | destroy_locking =>
    have h3 : ¬ wq.idle > 0 := by rw [hi]; decide
    simp only [thread_step, workq_destroy_locked, h3, if_false, workq_destroy_while,
      workq_destroy_release, Option.some.injEq] at hr
    repeat' split at hr
    all_goals cases hr
    all_goals simp [Thread.server]
  | destroy_waiting =>
    simp only [thread_step, workq_destroy_wake, workq_destroy_while, workq_destroy_release,
      Option.some.injEq] at hr
    repeat' split at hr
    all_goals cases hr
    all_goals simp [Thread.server]
  | destroy_unlocked =>
    simp only [thread_step, workq_destroy_final, Option.some.injEq] at hr
    cases hr
    simp [Thread.server]
  | server_start =>
    simp only [thread_step, workq_server_begin, Option.some.injEq] at hr
    split at hr
    · cases hr; simp [Thread.server]
    · obtain ⟨g1, tl, g2, g3⟩ := server_locked_events _ _ _ _ _ _ hr
      refine ⟨?_, fun _ => rfl, fun _ => g1⟩
      rw [g2]
      rcases g3 with rfl | ⟨d, rfl⟩ | rfl | rfl <;> simp
  | server_waiting =>
    simp only [thread_step, workq_server_wake, Option.some.injEq] at hr
    split at hr
    · obtain ⟨g1, tl, g2, g3⟩ := server_locked_events _ _ _ _ _ _ hr
      refine ⟨?_, fun _ => rfl, fun _ => g1⟩
      rw [g2]
      rcases g3 with rfl | ⟨d, rfl⟩ | rfl | rfl <;> simp
    · split at hr
      · cases hr; simp [Thread.server]
      · obtain ⟨g1, tl, g2, g3⟩ := server_locked_events _ _ _ _ _ _ hr
        refine ⟨?_, fun _ => rfl, fun _ => g1⟩
        rw [g2]
        rcases g3 with rfl | ⟨d, rfl⟩ | rfl | rfl <;> simp
  | server_dequeued we t =>
    simp only [thread_step, workq_server_call, Option.some.injEq] at hr
    split at hr
    · cases hr
    · cases hr; simp [Thread.server]
  | server_engine we t =>
    simp only [thread_step, workq_server_resume, Option.some.injEq] at hr
    split at hr
    · cases hr
    · split at hr
      · cases hr; simp [Thread.server]
      · obtain ⟨g1, tl, g2, g3⟩ := server_locked_events _ _ _ _ _ _ hr
        refine ⟨?_, fun _ => rfl, fun _ => g1⟩
        rw [g2]
        rcases g3 with rfl | ⟨d, rfl⟩ | rfl | rfl <;> simp
  | add_done st => simp [thread_step] at hr
  | destroy_done st => simp [thread_step] at hr
  | server_done => simp [thread_step] at hr

theorem get?_append_some (pool l : List Thread) (j : Nat) (th : Thread)
    (h : pool.get? j = some th) : (pool ++ l).get? j = some th := by
  have hj : j < pool.length := by
    rcases Nat.lt_or_ge j pool.length with hj | hj
    · exact hj
    · rw [List.get?_eq_none.mpr hj] at h; cases h
  rw [List.get?_eq_getElem?, List.getElem?_append_left hj, ← List.get?_eq_getElem?]
  exact h

theorem get?_set_keep (pool l : List Thread) (tid j : Nat) (x th : Thread) (hj : j ≠ tid)
    (h : pool.get? j = some th) : (pool.set tid x ++ l).get? j = some th := by
  apply get?_append_some
  rw [List.get?_eq_getElem?] at h ⊢
  simpa [List.getElem?_set, Ne.symm hj] using h

theorem idleInv_step (s : Sys) (l : Label) (hs : IdleInv s) : IdleInv (step s l) := by
  obtain ⟨hi, hsig, hb⟩ := hs
  cases l with
  | call_add el m =>
    simp only [step]
    split
    · exact ⟨hi, hsig, hb⟩
    · have hev : (workq_add_entry s.wq s.heap el m).2.2 = [] ∨
          ∃ r, (workq_add_entry s.wq s.heap el m).2.2 = [.malloc r] := by
        unfold workq_add_entry
        split
        · exact Or.inl rfl
        · cases m
          · exact Or.inr ⟨_, rfl⟩
          · exact Or.inr ⟨_, rfl⟩
      refine ⟨hi, ?_, ?_⟩
      · rw [signals_append, hsig]
        rcases hev with h0 | ⟨r, h0⟩ <;> rw [h0] <;> rfl
      · intro tid st hm
        have hm1 : (tid, Event.cond_broadcast st) ∈ s.trace := by
          rcases List.mem_append.mp hm with hm | hm
          · exact hm
          · rcases hev with h0 | ⟨r, h0⟩ <;> rw [h0] at hm <;> simp at hm
        obtain ⟨th, h1, h2⟩ := hb tid st hm1
        exact ⟨th, get?_append_some _ _ _ _ h1, h2⟩
  | call_destroy =>
    simp only [step]
    refine ⟨hi, hsig, fun tid st hm => ?_⟩
    obtain ⟨th, h1, h2⟩ := hb tid st hm
    exact ⟨th, get?_append_some _ _ _ _ h1, h2⟩
  | run tid env =>
    rcases step_run_cases s tid env with h | h | ⟨th, o, hth, hr, h⟩
    · rw [h]; exact ⟨hi, hsig, hb⟩
    · rw [h]; exact ⟨hi, hsig, hb⟩
    · rw [h]
      obtain ⟨g1, g2, g3⟩ := thread_step_idle _ _ _ _ _ hi hr
      obtain ⟨-, g4, -⟩ := thread_step_num _ _ _ _ _ hr
      refine ⟨by simp only [Sys.apply]; rw [g4]; exact hi, ?_, ?_⟩
      · simp only [Sys.apply]
        rw [signals_append, hsig, signals_nil_of_not_mem tid _ g1]
        rfl
      · intro j st hm
        simp only [Sys.apply] at hm ⊢
        rcases List.mem_append.mp hm with hm | hm
        · obtain ⟨th1, h1, h2⟩ := hb j st hm
          by_cases hj : j = tid
          · subst hj
            rw [hth] at h1
            cases h1
            exact ⟨o.next, get?_set_append _ _ _ _ _ hth, g3 h2⟩
          · exact ⟨th1, get?_set_keep _ _ _ _ _ _ hj h1, h2⟩
        · obtain ⟨e, he, hje⟩ := List.mem_map.mp hm
          cases hje
          exact ⟨o.next, get?_set_append _ _ _ _ _ hth, g3 (g2 ⟨st, he⟩)⟩

theorem idleInv_exec (wq0 : workq_t) (N : Int) (engine : Nat) (env : Env)
    (hinit : (workq_init wq0 N engine env).1 = 0) (ls : List Label) :
    IdleInv (after_init wq0 N engine env ls) := by
  have h0 := (numInv_exec wq0 N engine env hinit []).2.1
  unfold after_init at h0 ⊢
  refine exec_inv IdleInv idleInv_step ls _ ⟨h0, rfl, fun tid st hm => ?_⟩
  simp [Sys.start] at hm

/-- C24: in every state reachable from a successful `workq_init` the field
`idle` is 0, no step of any thread changes it, `pthread_cond_signal` has never
been called, and every call of `pthread_cond_broadcast` was made by a server,
none by `workq_destroy`. -/
theorem C24_idle_is_zero (wq0 : workq_t) (N : Int) (engine : Nat) (env : Env)
    (hinit : (workq_init wq0 N engine env).1 = 0) (ls : List Label) :
    (after_init wq0 N engine env ls).wq.idle = 0 ∧
    signals (after_init wq0 N engine env ls).trace = [] ∧
    (∀ tid st, (tid, Event.cond_broadcast st) ∈ (after_init wq0 N engine env ls).trace →
      ∃ th, (after_init wq0 N engine env ls).pool.get? tid = some th ∧ th.server = true) ∧
    (∀ wq h e th o, thread_step wq h e th = some (.ok o) → o.wq.idle = wq.idle) :=
  ⟨(idleInv_exec wq0 N engine env hinit ls).1, (idleInv_exec wq0 N engine env hinit ls).2.1,
    (idleInv_exec wq0 N engine env hinit ls).2.2,
    fun wq h e th o hr => (thread_step_num wq h e th o hr).2.1⟩

/-- Witness of C24: the run `sched_work`, in which three items are added and
served and the queue is destroyed. -/
theorem C24_witness :
    (after_init demo_wq 2 5 Env.ok sched_work).wq.idle = 0 ∧
    signals (after_init demo_wq 2 5 Env.ok sched_work).trace = [] :=
  ⟨(C24_idle_is_zero demo_wq 2 5 Env.ok (by decide) sched_work).1,
    (C24_idle_is_zero demo_wq 2 5 Env.ok (by decide) sched_work).2.1⟩

/-- C25 fails on the code: the only server sleeps, `workq_destroy` has set `quit`
and waits for `counter == 0`; the timed wait of the server fails, the server
decrements `counter` to 0, unlocks and returns without a call of
`pthread_cond_broadcast`, and `workq_destroy` is still in its wait. -/
theorem C25_wait_failure_skips_broadcast :
    (after_init demo_wq 1 5 Env.ok sched_sleep_destroy).pool =
      [.add_done 0, .server_waiting, .destroy_waiting] ∧
    (after_init demo_wq 1 5 Env.ok sched_sleep_destroy).wq.counter = 1 ∧
    (after_init demo_wq 1 5 Env.ok sched_sleep_destroy).wq.quit = 1 ∧
    (after_init demo_wq 1 5 Env.ok sched_rundown_wait_fails).pool =
      [.add_done 0, .server_done, .destroy_waiting] ∧
    (after_init demo_wq 1 5 Env.ok sched_rundown_wait_fails).wq.counter = 0 ∧
    (after_init demo_wq 1 5 Env.ok sched_rundown_wait_fails).wq.quit = 1 ∧
    thread_events 1 (after_init demo_wq 1 5 Env.ok sched_rundown_wait_fails).trace =
      [.mutex_lock 0, .unlink 7, .mutex_unlock 0, .engine 5 7, .engine_ret, .free 100,
       .mutex_lock 0, .cond_timedwait, .cond_wake 22, .mutex_unlock 0] ∧
    broadcasts (after_init demo_wq 1 5 Env.ok sched_rundown_wait_fails).trace = [] := by
  decide

/-- C27 fails on the code: `workq_add` has created a server and set `counter` to
1; the `pthread_mutex_lock` of line 47 fails and the server returns; `counter`
is still 1 with no server left. -/
theorem C27_lock_failure_keeps_counter :
    (after_init demo_wq 1 5 Env.ok sched_lock_fails).pool = [.add_done 0, .server_done] ∧
    creates (after_init demo_wq 1 5 Env.ok sched_lock_fails).trace = [0] ∧
    lives (after_init demo_wq 1 5 Env.ok sched_lock_fails).pool = 0 ∧
    (after_init demo_wq 1 5 Env.ok sched_lock_fails).wq.counter = 1 ∧
    (after_init demo_wq 1 5 Env.ok sched_drop).pool = [.add_done 0, .server_done] ∧
    (after_init demo_wq 1 5 Env.ok sched_drop).wq.counter = 1 := by
  decide

theorem thread_step_rundown (wq : workq_t) (h : Heap) (env : Env) (th : Thread) (o : Out)
    (hr : thread_step wq h env th = some (.ok o)) (hn : o.next = .destroy_waiting) :
    o.wq.quit ≠ 0 ∨ (th = .destroy_waiting ∧ o.wq.quit = wq.quit) := by
  cases th with
  | add_locking item el =>
    simp only [thread_step, workq_add_locked, Option.some.injEq] at hr
    repeat' split at hr
    all_goals cases hr
    all_goals cases hn
  | destroy_locking =>
    simp only [thread_step, workq_destroy_locked, workq_destroy_while, workq_destroy_release,
      Option.some.injEq] at hr
    repeat' split at hr
    all_goals cases hr
    all_goals first | (left; simp; done) | cases hn
  | destroy_waiting =>
    simp only [thread_step, workq_destroy_wake, workq_destroy_while, workq_destroy_release,
      Option.some.injEq] at hr
    repeat' split at hr
    all_goals cases hr
    all_goals exact Or.inr ⟨rfl, rfl⟩
  | destroy_unlocked =>
    simp only [thread_step, workq_destroy_final, Option.some.injEq] at hr
    cases hr
    cases hn
  | server_start =>
    simp only [thread_step, workq_server_begin, Option.some.injEq] at hr
    split at hr
    · cases hr; cases hn
    · have := (server_locked_events _ _ _ _ _ _ hr).1
      rw [hn] at this; cases this
  | server_waiting =>
    simp only [thread_step, workq_server_wake, Option.some.injEq] at hr
    split at hr
    · have := (server_locked_events _ _ _ _ _ _ hr).1
      rw [hn] at this; cases this
    · split at hr
      · cases hr; cases hn
      · have := (server_locked_events _ _ _ _ _ _ hr).1
        rw [hn] at this; cases this
  | server_dequeued we t =>
    simp only [thread_step, workq_server_call, Option.some.injEq] at hr
    split at hr
    · cases hr
    · cases hr; cases hn
  | server_engine we t =>
    simp only [thread_step, workq_server_resume, Option.some.injEq] at hr
    split at hr
    · cases hr
    · split at hr
      · cases hr; cases hn
      · have := (server_locked_events _ _ _ _ _ _ hr).1
        rw [hn] at this; cases this
  | add_done st => simp [thread_step] at hr
  | destroy_done st => simp [thread_step] at hr
  | server_done => simp [thread_step] at hr

theorem rundownInv_step (s : Sys) (l : Label) (hs : RundownInv s) :
    RundownInv (step s l) := by
  intro hex
  obtain ⟨j, hj⟩ := hex
  by_cases hq : s.wq.quit = 0
  · cases l with
    | call_add el m =>
      simp only [step] at hj ⊢
      split at hj
      · exact hs ⟨j, hj⟩
      · rcases get?_append_one _ _ _ _ hj with h1 | h1
        · exact hs ⟨j, h1⟩
        · exfalso
          revert h1
          unfold workq_add_entry
          split
          · intro h1; cases h1
          · cases m <;> intro h1 <;> cases h1
    | call_destroy =>
      simp only [step] at hj ⊢
      rcases get?_append_one _ _ _ _ hj with h1 | h1
      · exact hs ⟨j, h1⟩
      · exfalso
        revert h1
        unfold workq_destroy_entry
        split <;> intro h1 <;> cases h1
    | run tid env =>
      rcases step_run_cases s tid env with h | h | ⟨th, o, hth, hr, h⟩
      · rw [h] at hj ⊢; exact hs ⟨j, hj⟩
      · rw [h] at hj ⊢; exact hs ⟨j, hj⟩
      · rw [h] at hj ⊢
        simp only [Sys.apply] at hj ⊢
        by_cases hjt : j = tid
        · subst hjt
          rw [get?_set_append _ _ _ _ _ hth] at hj
          rcases thread_step_rundown _ _ _ _ _ hr (Option.some.inj hj) with g | ⟨g1, -⟩
          · exact g
          · subst g1
            exact absurd hq (hs ⟨j, hth⟩)
        · rcases get?_set_other _ _ _ _ _ _ hjt hj with h1 | h1
          · exact absurd hq (hs ⟨j, h1⟩)
          · exfalso
            split at h1
            · simp at h1
            · cases h1
  · exact (quit_step s l hq).1

theorem rundownInv_exec (wq0 : workq_t) (N : Int) (engine : Nat) (env : Env)
    (ls : List Label) : RundownInv (after_init wq0 N engine env ls) := by
  unfold after_init
  refine exec_inv RundownInv rundownInv_step ls _ ?_
  intro hex
  obtain ⟨j, hj⟩ := hex
  simp [Sys.start] at hj

/-- C26: a server whose timed wait has timed out (now, or earlier in this round
of the loop) and that finds the queue empty takes the Draining exit when
`quit` is set, with the broadcast when `counter` becomes 0, and the Retiring
exit only when `quit` is not set.  In every state reachable from `workq_init`
in which a call of `workq_destroy` waits for the servers `quit` is set, so
that the step of such a server is then the Draining exit. -/
theorem C26_retire_only_without_quit (wq0 : workq_t) (N : Int) (engine : Nat) (env : Env)
    (ls : List Label) :
    (∀ (wq : workq_t) (h : Heap) (e : Env) (evs : List Event) (p : Pt),
      wq.first = none → p.timedout = true →
      (wq.quit ≠ 0 →
        workq_server_locked workq_server_fuel p wq h e evs =
          .ok ⟨{ wq with counter := wq.counter - 1 }, h, .server_done, false,
            evs ++ (if wq.counter - 1 = 0 then
              [.cond_broadcast e.broadcast, .mutex_unlock e.unlock]
            else [.mutex_unlock e.unlock])⟩) ∧
      (wq.quit = 0 →
        workq_server_locked workq_server_fuel p wq h e evs =
          .ok ⟨{ wq with counter := wq.counter - 1 }, h, .server_done, false,
            evs ++ [.mutex_unlock e.unlock]⟩)) ∧
    ((∃ tid, (after_init wq0 N engine env ls).pool.get? tid = some .destroy_waiting) →
      (after_init wq0 N engine env ls).wq.first = none →
      (after_init wq0 N engine env ls).wq.quit ≠ 0 ∧
      (∀ e, e.wait = ETIMEDOUT →
        thread_step (after_init wq0 N engine env ls).wq (after_init wq0 N engine env ls).heap
            e .server_waiting =
          some (.ok (draining (after_init wq0 N engine env ls).wq
            (after_init wq0 N engine env ls).heap e [.cond_wake ETIMEDOUT]))) ∧
      (∀ e we x, e.lock = 0 → (after_init wq0 N engine env ls).heap we = some x →
        thread_step (after_init wq0 N engine env ls).wq (after_init wq0 N engine env ls).heap
            e (.server_engine we true) =
          some (.ok (draining (after_init wq0 N engine env ls).wq
            (Function.update (after_init wq0 N engine env ls).heap we none) e
            [.engine_ret, .free we, .mutex_lock 0])))) := by
  refine ⟨fun wq h e evs p hf ht =>
    ⟨fun hq => server_locked_drain wq h e evs p hf hq,
     fun hq => server_locked_retire wq h e evs p hf hq ht⟩, ?_⟩
  intro hex hf
  have hq := rundownInv_exec wq0 N engine env ls hex
  generalize after_init wq0 N engine env ls = s at hf hq ⊢
  refine ⟨hq, ?_, ?_⟩
  · intro e hw
    simp only [thread_step, workq_server_wake, hw, if_true]
    rw [server_locked_drain s.wq s.heap e _ _ hf hq]
  · intro e we x hl hx
    simp only [thread_step, workq_server_resume, hx, hl, ne_eq, not_true_eq_false, if_false]
    rw [server_locked_drain s.wq _ e _ _ hf hq]

/-- Witness of C26: `workq_destroy` waits for the only server, which sleeps; its
timed wait times out and it takes the Draining exit. -/
theorem C26_witness :
    (after_init demo_wq 1 5 Env.ok sched_sleep_destroy).wq.quit ≠ 0 :=
  ((C26_retire_only_without_quit demo_wq 1 5 Env.ok sched_sleep_destroy).2
    ⟨2, by decide⟩ (by decide)).1

theorem server_locked_strand (wq : workq_t) (h : Heap) (env : Env) (evs : List Event)
    (p : Pt) (o : Out) (hinv : wq.first ≠ none → 0 < wq.counter)
    (hr : workq_server_locked workq_server_fuel p wq h env evs = .ok o) :
    (o.wq.first ≠ none → 0 < o.wq.counter) ∧
    (o.wq.counter ≠ wq.counter → o.wq.first = none) := by
  cases hf : wq.first with
  | none =>
    by_cases hq : wq.quit = 0
    · cases ht : p.timedout with
      | true =>
        rw [server_locked_retire wq h env evs p hf hq ht] at hr
        cases hr
        exact ⟨fun h0 => absurd hf h0, fun _ => hf⟩
      | false =>
        rw [server_locked_wait wq h env evs p hf hq ht] at hr
        cases hr
        exact ⟨hinv, fun h0 => absurd rfl h0⟩
    · rw [server_locked_drain wq h env evs p hf hq] at hr
      cases hr
      exact ⟨fun h0 => absurd hf h0, fun _ => hf⟩
  | some we =>
    have hc : 0 < wq.counter := hinv (by rw [hf]; simp)
    cases he : h we with
    | none =>
      rw [server_locked_ub wq h env evs p we hf he] at hr
      cases hr
    | some e =>
      rw [server_locked_take wq h env evs p we e hf he] at hr
      cases hr
      constructor
      · intro _
        show 0 < (if wq.last = some we then _ else _ : workq_t).counter
        split <;> exact hc
      · intro h0
        exfalso
        apply h0
        show (if wq.last = some we then _ else _ : workq_t).counter = wq.counter
        split <;> rfl

theorem thread_step_strand (wq : workq_t) (h : Heap) (env : Env) (th : Thread) (o : Out)
    (hw : env.wait_ok) (hidle : wq.idle = 0) (hcnt : 0 ≤ wq.counter)
    (hpar : 1 ≤ wq.parallelism) (hinv : wq.first ≠ none → 0 < wq.counter)
    (hr : thread_step wq h env th = some (.ok o)) :
    (∃ st, st ≠ 0 ∧ o.next = .add_done st) ∨ (o.wq.first ≠ none → 0 < o.wq.counter) := by
  cases th with
  | add_locking item el =>
    simp only [thread_step, workq_add_locked, Option.some.injEq] at hr
    split at hr
    · rename_i hl
      cases hr
      exact Or.inl ⟨_, hl, rfl⟩
    · split at hr
      · cases hr
      · rename_i wq1 h1 hl
        obtain ⟨h1, h2, -, -, h5, -⟩ := add_link_fields wq h item wq1 _ hl
        have h3 : ¬ wq1.idle > 0 := by rw [h2, hidle]; decide
        simp only [h3, if_false] at hr
        split at hr
        · split at hr
          · rename_i hc
            cases hr
            exact Or.inl ⟨_, hc, rfl⟩
          · cases hr
            right; intro _
            show 0 < wq1.counter + 1
            omega
        · rename_i hlt
          cases hr
          right; intro _
          show 0 < wq1.counter
          omega
  | destroy_locking =>
    simp only [thread_step, workq_destroy_locked, workq_destroy_while, workq_destroy_release,
      Option.some.injEq] at hr
    repeat' split at hr
    all_goals cases hr
    all_goals exact Or.inr hinv
  | destroy_waiting =>
    simp only [thread_step, workq_destroy_wake, workq_destroy_while, workq_destroy_release,
      Option.some.injEq] at hr
    repeat' split at hr
    all_goals cases hr
    all_goals exact Or.inr hinv
  | destroy_unlocked =>
    simp only [thread_step, workq_destroy_final, Option.some.injEq] at hr
    cases hr
    exact Or.inr hinv
  | server_start =>
    simp only [thread_step, workq_server_begin, Option.some.injEq] at hr
    split at hr
    · cases hr; exact Or.inr hinv
    · exact Or.inr (server_locked_strand _ _ _ _ _ _ hinv hr).1
  | server_waiting =>
    simp only [thread_step, workq_server_wake, Option.some.injEq] at hr
    split at hr
    · exact Or.inr (server_locked_strand _ _ _ _ _ _ hinv hr).1
    · rename_i hne
      split at hr
      · rename_i hne0
        rcases hw with hw | hw
        · exact absurd hw hne0
        · exact absurd hw hne
      · exact Or.inr (server_locked_strand _ _ _ _ _ _ hinv hr).1
  | server_dequeued we t =>
    simp only [thread_step, workq_server_call, Option.some.injEq] at hr
    split at hr
    · cases hr
    · cases hr; exact Or.inr hinv
  | server_engine we t =>
    simp only [thread_step, workq_server_resume, Option.some.injEq] at hr
    split at hr
    · cases hr
    · split at hr
      · cases hr; exact Or.inr hinv
      · exact Or.inr (server_locked_strand _ _ _ _ _ _ hinv hr).1
  | add_done st => simp [thread_step] at hr
  | destroy_done st => simp [thread_step] at hr
  | server_done => simp [thread_step] at hr

theorem add_done_persist (s : Sys) (l : Label) (st : Int)
    (h : Thread.add_done st ∈ s.pool) : Thread.add_done st ∈ (step s l).pool := by
  cases l with
  | call_add el m =>
    simp only [step]
    split
    · exact h
    · exact List.mem_append_left _ h
  | call_destroy =>
    simp only [step]
    exact List.mem_append_left _ h
  | run tid env =>
    rcases step_run_cases s tid env with h1 | h1 | ⟨th, o, hth, hr, h1⟩
    · rw [h1]; exact h
    · rw [h1]; exact h
    · rw [h1]
      simp only [Sys.apply]
      obtain ⟨j, hj⟩ := List.mem_iff_get?.mp h
      have hjt : j ≠ tid := by
        intro hjt
        subst hjt
        rw [hth] at hj
        cases hj
        simp [thread_step] at hr
      exact List.get?_mem (get?_set_keep _ _ _ _ _ _ hjt hj)

theorem strandInv_step (N : Int) (s : Sys) (l : Label) (hN : 1 ≤ N) (hl : l.wait_ok)
    (hn : NumInv N s) (hs : StrandInv s) : StrandInv (step s l) := by
  rcases hs with ⟨st, hst, hmem⟩ | hs
  · exact Or.inl ⟨st, hst, add_done_persist s l st hmem⟩
  · cases l with
    | call_add el m =>
      simp only [step]
      split
      · exact Or.inr hs
      · exact Or.inr hs
    | call_destroy => exact Or.inr hs
    | run tid env =>
      rcases step_run_cases s tid env with h1 | h1 | ⟨th, o, hth, hr, h1⟩
      · rw [h1]; exact Or.inr hs
      · rw [h1]; exact Or.inr hs
      · rw [h1]
        obtain ⟨hp, hi, hlv, -⟩ := hn
        have hcnt : 0 ≤ s.wq.counter := le_trans (lives_nonneg s.pool) hlv
        rcases thread_step_strand _ _ _ _ _ hl hi hcnt (by rw [hp]; exact hN) hs hr with
          ⟨st, hst, hnx⟩ | h2
        · left
          refine ⟨st, hst, ?_⟩
          simp only [Sys.apply]
          have := get?_set_append s.pool (if o.spawn then [Thread.server_start] else [])
            tid th o.next hth
          rw [← hnx]
          exact List.get?_mem this
        · exact Or.inr h2

theorem strandInv_exec (N : Int) (hN : 1 ≤ N) :
    ∀ (ls : List Label), (∀ l ∈ ls, l.wait_ok) → ∀ (s : Sys), NumInv N s → StrandInv s →
      StrandInv (exec s ls) := by
  intro ls
  induction ls with
  | nil => intro _ s _ hs; exact hs
  | cons l ls ih =>
    intro hl s hn hs
    exact ih (fun x hx => hl x (List.mem_cons_of_mem _ hx)) (step s l)
      (numInv_step N s l hn) (strandInv_step N s l hN (hl l (List.mem_cons_self _ _)) hn hs)

theorem server_step_decrement (wq : workq_t) (h : Heap) (env : Env) (th : Thread) (o : Out)
    (hlive : th.live = true) (hr : thread_step wq h env th = some (.ok o))
    (hd : o.wq.counter ≠ wq.counter) :
    o.wq.first = none ∨ (th = .server_waiting ∧ env.wait ≠ 0 ∧ env.wait ≠ ETIMEDOUT) := by
  have key : ∀ p evs h1, workq_server_locked workq_server_fuel p wq h1 env evs = .ok o →
      o.wq.first = none := by
    intro p evs h1 hr1
    cases hf : wq.first with
    | none =>
      by_cases hq : wq.quit = 0
      · cases ht : p.timedout with
        | true =>
          rw [server_locked_retire wq h1 env evs p hf hq ht] at hr1
          cases hr1
          exact hf
        | false =>
          rw [server_locked_wait wq h1 env evs p hf hq ht] at hr1
          cases hr1
          exact hf
      · rw [server_locked_drain wq h1 env evs p hf hq] at hr1
        cases hr1
        exact hf
    | some we =>
      cases he : h1 we with
      | none =>
        rw [server_locked_ub wq h1 env evs p we hf he] at hr1
        cases hr1
      | some e =>
        rw [server_locked_take wq h1 env evs p we e hf he] at hr1
        cases hr1
        exfalso
        apply hd
        show (if wq.last = some we then _ else _ : workq_t).counter = wq.counter
        split <;> rfl
  cases th with
  | server_start =>
    simp only [thread_step, workq_server_begin, Option.some.injEq] at hr
    split at hr
    · cases hr; exact absurd rfl hd
    · exact Or.inl (key _ _ _ hr)
  | server_waiting =>
    simp only [thread_step, workq_server_wake, Option.some.injEq] at hr
    split at hr
    · exact Or.inl (key _ _ _ hr)
    · rename_i hne
      split at hr
      · rename_i hne0
        exact Or.inr ⟨rfl, hne0, hne⟩
      · exact Or.inl (key _ _ _ hr)
  | server_dequeued we t =>
    simp only [thread_step, workq_server_call, Option.some.injEq] at hr
    split at hr
    · cases hr
    · cases hr; exact absurd rfl hd
  | server_engine we t =>
    simp only [thread_step, workq_server_resume, Option.some.injEq] at hr
    split at hr
    · cases hr
    · split at hr
      · cases hr; exact absurd rfl hd
      · exact Or.inl (key _ _ _ hr)
  | add_locking item el => cases hlive
  | destroy_locking => cases hlive
  | destroy_waiting => cases hlive
  | destroy_unlocked => cases hlive
  | add_done st => cases hlive
  | destroy_done st => cases hlive
  | server_done => cases hlive

/-- C28 (amended): on a queue initialised with a bound of at least 1, as long as
no timed wait of a server has failed and every `workq_add` that has returned
has returned 0, a queue that is not empty has `counter > 0`; when no primitive
has failed at all, `counter` is the number of servers that have not returned.
A step of a server that changes `counter` leaves the queue empty, unless it
is the return after a failed `pthread_cond_timedwait`. -/
theorem C28_no_stranded_work (wq0 : workq_t) (N : Int) (engine : Nat) (env : Env)
    (hinit : (workq_init wq0 N engine env).1 = 0) (hN : 1 ≤ N) (ls : List Label) :
    ((∀ l ∈ ls, l.wait_ok) →
      (∀ st, Thread.add_done st ∈ (after_init wq0 N engine env ls).pool → st = 0) →
      (after_init wq0 N engine env ls).wq.first ≠ none →
      0 < (after_init wq0 N engine env ls).wq.counter) ∧
    ((∀ l ∈ ls, l.clean) →
      lives (after_init wq0 N engine env ls).pool =
        (after_init wq0 N engine env ls).wq.counter) ∧
    (∀ wq h e th o, th.live = true → thread_step wq h e th = some (.ok o) →
      o.wq.counter ≠ wq.counter →
      o.wq.first = none ∨ (th = .server_waiting ∧ e.wait ≠ 0 ∧ e.wait ≠ ETIMEDOUT)) := by
  refine ⟨?_, fun hc => (cleanInv_exec wq0 N engine env hinit ls hc).1,
    fun wq h e th o hlive hr hd => server_step_decrement wq h e th o hlive hr hd⟩
  intro hw hadd hf
  have h0 : StrandInv (Sys.start (workq_init wq0 N engine env).2.1) := by
    right
    rw [workq_init_ok _ _ _ _ hinit]
    intro h; exact absurd rfl h
  have := strandInv_exec N hN ls hw _ (numInv_start wq0 N engine env hinit) h0
  rcases this with ⟨st, hst, hmem⟩ | h1
  · exact absurd (hadd st hmem) hst
  · exact h1 hf

/-- Witness of C28: on a queue of bound 1 a second item is linked while the
server sleeps; `counter` is 1. -/
theorem C28_witness :
    0 < (after_init demo_wq 1 5 Env.ok sched_sleep_add).wq.counter :=
  (C28_no_stranded_work demo_wq 1 5 Env.ok (by decide) (by decide) sched_sleep_add).1
    (by decide)
    (fun st h => by
      have hp : (after_init demo_wq 1 5 Env.ok sched_sleep_add).pool =
          [.add_done 0, .server_waiting, .add_done 0] := by decide
      rw [hp] at h
      simp at h
      exact h)
    (by decide)

/-- Counterexample to C28 as stated: on a queue of bound 1 both calls of
`workq_add` have returned 0, the second item is linked while the server
sleeps, the timed wait of the server fails and the server decrements `counter`
to 0 and returns with the item in the queue. -/
theorem C28_counterexample :
    (after_init demo_wq 1 5 Env.ok sched_strand).pool =
      [.add_done 0, .server_done, .add_done 0] ∧
    (after_init demo_wq 1 5 Env.ok sched_strand).wq.first = some 101 ∧
    (after_init demo_wq 1 5 Env.ok sched_strand).wq.counter = 0 := by
  decide

theorem creates_append (a b : List (Nat × Event)) :
    creates (a ++ b) = creates a ++ creates b := by
  simp [creates, List.filterMap_append]

theorem creates_nil_of_not_mem (tid : Nat) (es : List Event)
    (h : ∀ st, Event.create st ∉ es) : creates (es.map fun e => (tid, e)) = [] := by
  induction es with
  | nil => rfl
  | cons e es ih =>
    have h1 : ∀ st, Event.create st ∉ es := fun st hm => h st (List.mem_cons_of_mem _ hm)
    have h2 := ih h1
    cases e
    case create st => exact absurd (List.mem_cons_self _ _) (h st)
    all_goals simpa [creates] using h2

theorem thread_step_zero (wq : workq_t) (h : Heap) (env : Env) (th : Thread) (o : Out)
    (hs : th.server = false) (hc : wq.counter = 0) (hi : wq.idle = 0)
    (hp : wq.parallelism ≤ 0) (hr : thread_step wq h env th = some (.ok o)) :
    o.wq.counter = 0 ∧ o.spawn = false ∧ o.next.server = false ∧
    (∀ st, Event.create st ∉ o.events) ∧ unlinks o.events = [] ∧ calls o.events = [] := by
  cases th with
  | add_locking item el =>
    simp only [thread_step, workq_add_locked, Option.some.injEq] at hr
    split at hr
    · cases hr; simp [Thread.server, unlinks, calls, hc]
    · split at hr
      · cases hr
      · rename_i wq1 h1 hl
        obtain ⟨g1, g2, -, -, g5, -⟩ := add_link_fields wq h item wq1 _ hl
        have h3 : ¬ wq1.idle > 0 := by rw [g2, hi]; decide
        have h4 : ¬ wq1.counter < wq1.parallelism := by rw [g5, g1, hc]; omega
        simp only [h3, h4, if_false] at hr
        cases hr
        simp [Thread.server, unlinks, calls, g5, hc]
  | destroy_locking =>
    simp only [thread_step, workq_destroy_locked, workq_destroy_while, workq_destroy_release,
      Option.some.injEq] at hr
    repeat' split at hr
    all_goals cases hr
    all_goals simp [Thread.server, unlinks, calls, hc]
  | destroy_waiting =>
    simp only [thread_step, workq_destroy_wake, workq_destroy_while, workq_destroy_release,
      Option.some.injEq] at hr
    repeat' split at hr
    all_goals cases hr
    all_goals simp [Thread.server, unlinks, calls, hc]
  | destroy_unlocked =>
    simp only [thread_step, workq_destroy_final, Option.some.injEq] at hr
    cases hr
    simp [Thread.server, unlinks, calls, hc]
  | server_start => cases hs
  | server_waiting => cases hs
  | server_dequeued we t => cases hs
  | server_engine we t => cases hs
  | add_done st => simp [thread_step] at hr
  | destroy_done st => simp [thread_step] at hr
  | server_done => cases hs

theorem zeroInv_step (s : Sys) (l : Label) (hs : ZeroInv s) : ZeroInv (step s l) := by
  obtain ⟨hc, hi, hp, hpool, hcr, htk, hen⟩ := hs
  cases l with
  | call_add el m =>
    simp only [step]
    split
    · exact ⟨hc, hi, hp, hpool, hcr, htk, hen⟩
    · have hev : ((workq_add_entry s.wq s.heap el m).2.2 = [] ∨
          ∃ r, (workq_add_entry s.wq s.heap el m).2.2 = [.malloc r]) ∧
          (workq_add_entry s.wq s.heap el m).1.server = false := by
        unfold workq_add_entry
        split
        · exact ⟨Or.inl rfl, rfl⟩
        · cases m
          · exact ⟨Or.inr ⟨_, rfl⟩, rfl⟩
          · exact ⟨Or.inr ⟨_, rfl⟩, rfl⟩
      refine ⟨hc, hi, hp, ?_, ?_, ?_, ?_⟩
      · intro t ht
        rcases List.mem_append.mp ht with ht | ht
        · exact hpool t ht
        · simp only [List.mem_singleton] at ht
          rw [ht]; exact hev.2
      · rw [creates_append, hcr]
        rcases hev.1 with h0 | ⟨r, h0⟩ <;> rw [h0] <;> rfl
      · rw [taken_append, htk]
        rcases hev.1 with h0 | ⟨r, h0⟩ <;> rw [h0] <;> rfl
      · rw [engined_append, hen]
        rcases hev.1 with h0 | ⟨r, h0⟩ <;> rw [h0] <;> rfl
  | call_destroy =>
    simp only [step]
    refine ⟨hc, hi, hp, ?_, hcr, htk, hen⟩
    intro t ht
    rcases List.mem_append.mp ht with ht | ht
    · exact hpool t ht
    · simp only [List.mem_singleton] at ht
      rw [ht]
      unfold workq_destroy_entry
      split <;> rfl
  | run tid env =>
    rcases step_run_cases s tid env with h | h | ⟨th, o, hth, hr, h⟩
    · rw [h]; exact ⟨hc, hi, hp, hpool, hcr, htk, hen⟩
    · rw [h]; exact ⟨hc, hi, hp, hpool, hcr, htk, hen⟩
    · rw [h]
      have hths : th.server = false := hpool th (List.get?_mem hth)
      obtain ⟨g1, g2, g3, g4, g5, g6⟩ := thread_step_zero _ _ _ _ _ hths hc hi hp hr
      obtain ⟨k1, k2, -⟩ := thread_step_num _ _ _ _ _ hr
      simp only [Sys.apply]
      refine ⟨g1, by rw [k2]; exact hi, by rw [k1]; exact hp, ?_, ?_, ?_, ?_⟩
      · intro t ht
        rw [g2] at ht
        simp only [Bool.false_eq_true, if_false, List.append_nil] at ht
        rcases List.mem_or_eq_of_mem_set ht with ht | ht
        · exact hpool t ht
        · rw [ht]; exact g3
      · rw [creates_append, hcr, creates_nil_of_not_mem tid _ g4]
        rfl
      · rw [taken_append, htk, g5]
        rfl
      · rw [engined_append, hen, g6]
        rfl

theorem zeroInv_exec (wq0 : workq_t) (N : Int) (engine : Nat) (env : Env)
    (hinit : (workq_init wq0 N engine env).1 = 0) (hN : N ≤ 0) (ls : List Label) :
    ZeroInv (after_init wq0 N engine env ls) := by
  unfold after_init
  refine exec_inv ZeroInv zeroInv_step ls _ ?_
  rw [workq_init_ok _ _ _ _ hinit]
  exact ⟨rfl, rfl, hN, fun t ht => by simp [Sys.start] at ht, rfl, rfl, rfl⟩

/-- C29: `workq_init` does not look at the bound: with `threads <= 0` it returns 0
and marks the queue valid whenever its four primitives succeed.  In every
state reachable afterwards `counter` is 0, no server exists, `pthread_create`
has never been called, nothing has been unlinked or given to the engine, and
every payload linked so far is still in the queue.  On the valid queue a
`workq_add` whose `malloc` and lock succeed returns 0, links its item at the
tail and creates nothing; `workq_destroy` passes its test, clears `valid`,
does not wait and, when its unlock and the three destroy calls succeed,
returns 0, leaving `wq->first` and the heap as they were. -/
theorem C29_nonpositive_bound (wq0 : workq_t) (N : Int) (engine : Nat) (env : Env)
    (hN : N ≤ 0) (hinit : (workq_init wq0 N engine env).1 = 0) (ls : List Label) :
    (∀ e : Env, e.attr_init = 0 → e.attr_setdetachstate = 0 → e.mutex_init = 0 →
      e.cond_init = 0 →
      (workq_init wq0 N engine e).1 = 0 ∧
      (workq_init wq0 N engine e).2.1 = ⟨none, none, WORKQ_VALID, 0, N, 0, 0, engine⟩) ∧
    ((after_init wq0 N engine env ls).wq.counter = 0 ∧
      (∀ t ∈ (after_init wq0 N engine env ls).pool, t.server = false) ∧
      creates (after_init wq0 N engine env ls).trace = [] ∧
      taken (after_init wq0 N engine env ls).trace = [] ∧
      engined (after_init wq0 N engine env ls).trace = [] ∧
      ∃ n, payloads (after_init wq0 N engine env ls).heap n
        (after_init wq0 N engine env ls).wq.first =
          some (linked (after_init wq0 N engine env ls).trace)) ∧
    ((after_init wq0 N engine env ls).wq.valid = WORKQ_VALID →
      (∀ (el item : Nat) (e : Env),
        (after_init wq0 N engine env ls).heap item = none → e.lock = 0 →
        ∃ o q, workq_add (after_init wq0 N engine env ls).wq
            (after_init wq0 N engine env ls).heap el (some item) e = .ok o ∧
          o.next = .add_done 0 ∧ o.spawn = false ∧ o.wq.counter = 0 ∧
          o.events = [.malloc (some item), .mutex_lock 0, .link el,
            .mutex_unlock e.unlock] ∧
          Chain (after_init wq0 N engine env ls).heap
            (after_init wq0 N engine env ls).wq.first q ∧
          Chain o.heap o.wq.first (q ++ [(item, el)])) ∧
      workq_destroy_entry (after_init wq0 N engine env ls).wq = .destroy_locking ∧
      (∀ e : Env, e.lock = 0 → e.unlock = 0 →
        workq_destroy_locked (after_init wq0 N engine env ls).wq
            (after_init wq0 N engine env ls).heap e =
          .ok ⟨{ (after_init wq0 N engine env ls).wq with valid := 0 },
            (after_init wq0 N engine env ls).heap, .destroy_unlocked, false,
            [.mutex_lock 0, .mutex_unlock 0]⟩) ∧
      (∀ (wq : workq_t) (h : Heap) (e : Env), e.mutex_destroy = 0 → e.cond_destroy = 0 →
        e.attr_destroy = 0 →
        workq_destroy_final wq h e =
          .ok ⟨wq, h, .destroy_done 0, false,
            [.mutex_destroy 0, .cond_destroy 0, .attr_destroy 0]⟩)) := by
  obtain ⟨hc, hi, hp, hpool, hcr, htk, hen⟩ := zeroInv_exec wq0 N engine env hinit hN ls
  have hI := hinv_exec wq0 N engine env hinit ls
  generalize after_init wq0 N engine env ls = s at hc hi hp hpool hcr htk hen hI ⊢
  refine ⟨?_, ⟨hc, hpool, hcr, htk, hen, ?_⟩, ?_⟩
  · intro e h1 h2 h3 h4
    simp [workq_init, h1, h2, h3, h4]
  · obtain ⟨n, ds, h1, h2⟩ := queue_payloads s hI
    rw [htk, List.nil_append] at h2
    exact ⟨n, by rw [h2]; exact h1⟩
  · intro hv
    refine ⟨?_, ?_, ?_, ?_⟩
    · intro el item e hfresh hlock
      obtain ⟨-, q, hch, hlast, hnd, -⟩ := hI
      have hnd1 : (q.map Prod.fst).Nodup :=
        Multiset.coe_nodup.mp (Multiset.nodup_add.mp hnd).1
      obtain ⟨wq1, h1, hlink, hc1, -, g1, g2, -, -, g5, -⟩ :=
        add_after_malloc s.wq s.heap el item q hfresh hch hlast hnd1
      have hi1 : ¬ wq1.idle > 0 := by rw [g2, hi]; decide
      have hlt1 : ¬ wq1.counter < wq1.parallelism := by rw [g5, g1, hc]; omega
      refine ⟨⟨wq1, h1, .add_done 0, false,
        [.malloc (some item), .mutex_lock 0, .link el, .mutex_unlock e.unlock]⟩, q,
        ?_, rfl, rfl, by rw [← hc, ← g5], rfl, hch, hc1⟩
      simp [workq_add, workq_add_entry, hv, workq_add_locked, hlock, hlink, hi1, hlt1]
    · simp [workq_destroy_entry, hv]
    · intro e hl hu
      have h0 : ¬ s.wq.counter > 0 := by rw [hc]; decide
      simp [workq_destroy_locked, workq_destroy_release, hl, hu, h0]
    · intro wq h e h1 h2 h3
      simp [workq_destroy_final, h1, h2, h3]

/-- Witness of C29: bound 0; one item is added and the queue is destroyed. -/
theorem C29_witness :
    (after_init demo_wq 0 5 Env.ok sched_zero).wq.counter = 0 ∧
    engined (after_init demo_wq 0 5 Env.ok sched_zero).trace = [] :=
  ⟨(C29_nonpositive_bound demo_wq 0 5 Env.ok (by decide) (by decide) sched_zero).2.1.1,
    (C29_nonpositive_bound demo_wq 0 5 Env.ok (by decide) (by decide)
      sched_zero).2.1.2.2.2.2.1⟩

/-- C30: on a valid queue, when the lock of `workq_destroy` fails it returns that
status with every field as it was; when `pthread_cond_broadcast` fails it
returns that status with `valid` cleared and `quit` set, having destroyed
nothing.  In every reachable state in which a call of `workq_destroy` is in
its wait, `valid` is cleared and `quit` is set, and when the wait fails the
call returns that status after an unlock, changing no field and destroying
nothing.  Once `valid` is cleared, every later `workq_destroy` and `workq_add`
returns `EINVAL`. -/
theorem C30_destroy_failure (wq0 : workq_t) (N : Int) (engine : Nat) (env : Env)
    (hinit : (workq_init wq0 N engine env).1 = 0) (ls : List Label) :
    (∀ (wq : workq_t) (h : Heap) (e : Env), wq.valid = WORKQ_VALID →
      workq_destroy_entry wq = .destroy_locking ∧
      (e.lock ≠ 0 →
        workq_destroy_locked wq h e =
          .ok ⟨wq, h, .destroy_done e.lock, false, [.mutex_lock e.lock]⟩) ∧
      (e.lock = 0 → wq.counter > 0 → wq.idle > 0 → e.broadcast ≠ 0 →
        workq_destroy_locked wq h e =
          .ok ⟨{ wq with valid := 0, quit := 1 }, h, .destroy_done e.broadcast, false,
            [.mutex_lock 0, .cond_broadcast e.broadcast, .mutex_unlock e.unlock]⟩)) ∧
    (∀ (tid : Nat) (e : Env),
      (after_init wq0 N engine env ls).pool.get? tid = some .destroy_waiting →
      e.wait ≠ 0 →
      (after_init wq0 N engine env ls).wq.valid = 0 ∧
      (after_init wq0 N engine env ls).wq.quit ≠ 0 ∧
      step (after_init wq0 N engine env ls) (.run tid e) =
        { after_init wq0 N engine env ls with
          pool := (after_init wq0 N engine env ls).pool.set tid (.destroy_done e.wait),
          trace := (after_init wq0 N engine env ls).trace ++
            [(tid, .cond_wake e.wait), (tid, .mutex_unlock e.unlock)] }) ∧
    (∀ s : Sys, s.wq.valid ≠ WORKQ_VALID → ∀ (ls2 : List Label) (el : Nat) (m : Option Nat),
      workq_destroy_entry (exec s ls2).wq = .destroy_done EINVAL ∧
      workq_add_entry (exec s ls2).wq (exec s ls2).heap el m =
        (.add_done EINVAL, (exec s ls2).heap, [])) := by
  refine ⟨?_, ?_, ?_⟩
  · intro wq h e hv
    refine ⟨by simp [workq_destroy_entry, hv], ?_, ?_⟩
    · intro hl
      simp [workq_destroy_locked, hl]
    · intro hl hc hi hb
      simp [workq_destroy_locked, hl, hc, hi, hb]
  · intro tid e hth hw
    have hq := rundownInv_exec wq0 N engine env ls ⟨tid, hth⟩
    obtain ⟨hv1, hv2⟩ := validInv_exec wq0 N engine env hinit ls
    generalize after_init wq0 N engine env ls = s at hth hq hv1 hv2 ⊢
    refine ⟨?_, hq, ?_⟩
    · rcases hv1 with hv | hv
      · have := hv2 hv _ (List.get?_mem hth)
        cases this
      · exact hv
    · simp only [step, hth, thread_step, workq_destroy_wake, hw, ne_eq, not_false_eq_true,
        if_true, Sys.apply]
      simp
  · intro s hv ls2 el m
    have h1 := valid_cleared_exec s ls2 hv
    exact ⟨by simp [workq_destroy_entry, h1], add_entry_invalid _ _ _ _ h1⟩

/-- Witness of C30: `workq_destroy` waits for the sleeping server and its
`pthread_cond_wait` fails with status 22. -/
theorem C30_witness :
    (after_init demo_wq 1 5 Env.ok sched_sleep_destroy).wq.valid = 0 ∧
    (after_init demo_wq 1 5 Env.ok sched_sleep_destroy).wq.quit ≠ 0 ∧
    step (after_init demo_wq 1 5 Env.ok sched_sleep_destroy) (.run 2 Env.wait_fails) =
      { after_init demo_wq 1 5 Env.ok sched_sleep_destroy with
        pool := (after_init demo_wq 1 5 Env.ok sched_sleep_destroy).pool.set 2
          (.destroy_done Env.wait_fails.wait),
        trace := (after_init demo_wq 1 5 Env.ok sched_sleep_destroy).trace ++
          [(2, .cond_wake Env.wait_fails.wait), (2, .mutex_unlock Env.wait_fails.unlock)] } :=
  (C30_destroy_failure demo_wq 1 5 Env.ok (by decide) sched_sleep_destroy).2.1 2
    Env.wait_fails (by decide) (by decide)

theorem destroyEnds_of_server (th : Thread) (es : List Event) (h : th.server = true) :
    DestroyEnds (some th) es := by
  cases th <;> trivial

theorem rundown_append (es new : List Event) (h : Rundown es)
    (hn : ∀ ev ∈ new, ev.status = 0) : Rundown (es ++ new) := by
  obtain ⟨⟨tl, rfl⟩, h2⟩ := h
  refine ⟨⟨tl ++ new, rfl⟩, fun ev hev => ?_⟩
  rcases List.mem_append.mp hev with h3 | h3
  · exact h2 ev h3
  · exact hn ev h3

theorem final_status_zero (e : Env)
    (hz : (if e.mutex_destroy ≠ 0 then e.mutex_destroy
      else if e.cond_destroy ≠ 0 then e.cond_destroy else e.attr_destroy) = 0) :
    e.mutex_destroy = 0 ∧ e.cond_destroy = 0 ∧ e.attr_destroy = 0 := by
  by_cases h1 : e.mutex_destroy = 0
  · by_cases h2 : e.cond_destroy = 0
    · simp [h1, h2] at hz
      exact ⟨h1, h2, hz⟩
    · simp [h1, h2] at hz
  · simp [h1] at hz

theorem thread_step_destroy (wq : workq_t) (h : Heap) (e : Env) (th : Thread) (o : Out)
    (es : List Event) (hr : thread_step wq h e th = some (.ok o))
    (hinv : DestroyEnds (some th) es) : DestroyEnds (some o.next) (es ++ o.events) := by
  cases th with
  | add_locking item el =>
    simp only [thread_step, workq_add_locked, Option.some.injEq] at hr
    repeat' split at hr
    all_goals cases hr
    all_goals trivial
  | destroy_locking =>
    have hes : es = [] := hinv
    subst hes
    simp only [thread_step, workq_destroy_locked, workq_destroy_while, workq_destroy_release,
      Option.some.injEq] at hr
    repeat' split at hr
    all_goals cases hr
    all_goals simp only [DestroyEnds, Rundown, List.nil_append, List.cons_append]
    all_goals first
      | (intro h0; simp_all)
      | (refine ⟨⟨_, rfl⟩, ?_⟩; simp [Event.status])
      | (refine ⟨⟨⟨_, rfl⟩, ?_⟩, [.mutex_lock 0], rfl⟩; simp [Event.status])
  | destroy_waiting =>
    have hrd : Rundown es := hinv
    simp only [thread_step, workq_destroy_wake, workq_destroy_while, workq_destroy_release,
      Option.some.injEq] at hr
    repeat' split at hr
    all_goals cases hr
    all_goals simp only [DestroyEnds]
    all_goals first
      | (intro h0; simp_all)
      | (exact rundown_append _ _ hrd (by simp [Event.status]))
      | (exact ⟨rundown_append _ _ hrd (by simp [Event.status]),
          es ++ [.cond_wake 0], by simp⟩)
  | destroy_unlocked =>
    obtain ⟨hrd, pre, hpre⟩ := (hinv : Rundown es ∧ ∃ pre, es = pre ++ [.mutex_unlock 0])
    simp only [thread_step, workq_destroy_final, Option.some.injEq] at hr
    cases hr
    intro hz
    obtain ⟨h1, h2, h3⟩ := final_status_zero e hz
    simp only [h1, h2, h3]
    exact ⟨rundown_append _ _ hrd (by simp [Event.status]), pre, by rw [hpre]; simp⟩
  | server_start =>
    simp only [thread_step, workq_server_begin, Option.some.injEq] at hr
    split at hr
    · cases hr; trivial
    · exact destroyEnds_of_server _ _ (server_locked_events _ _ _ _ _ _ hr).1
  | server_waiting =>
    simp only [thread_step, workq_server_wake, Option.some.injEq] at hr
    split at hr
    · exact destroyEnds_of_server _ _ (server_locked_events _ _ _ _ _ _ hr).1
    · split at hr
      · cases hr; trivial
      · exact destroyEnds_of_server _ _ (server_locked_events _ _ _ _ _ _ hr).1
  | server_dequeued we t =>
    simp only [thread_step, workq_server_call, Option.some.injEq] at hr
    split at hr
    · cases hr
    · cases hr; trivial
  | server_engine we t =>
    simp only [thread_step, workq_server_resume, Option.some.injEq] at hr
    split at hr
    · cases hr
    · split at hr
      · cases hr; trivial
      · exact destroyEnds_of_server _ _ (server_locked_events _ _ _ _ _ _ hr).1
  | add_done st => simp [thread_step] at hr
  | destroy_done st => simp [thread_step] at hr
  | server_done => simp [thread_step] at hr

theorem destroyEnds_other (pool pool1 l : List Thread) (j : Nat) (es : List Event)
    (hlen : pool1.length = pool.length)
    (hsame : j < pool.length → pool1.get? j = pool.get? j)
    (hl : ∀ x ∈ l, es = [] → DestroyEnds (some x) es)
    (he : DestroyEnds (pool.get? j) es) : DestroyEnds ((pool1 ++ l).get? j) es := by
  rcases Nat.lt_or_ge j pool.length with hj | hj
  · have h2 : j < pool1.length := by omega
    rw [List.get?_eq_getElem?, List.getElem?_append_left h2, ← List.get?_eq_getElem?,
      hsame hj]
    exact he
  · rw [List.get?_eq_none.mpr hj] at he
    cases hx : (pool1 ++ l).get? j with
    | none => exact he
    | some x =>
      rw [List.get?_eq_getElem?, List.getElem?_append_right (by omega)] at hx
      exact hl x (List.getElem?_mem hx) he

theorem destroyInv_step (s : Sys) (l : Label) (hs : DestroyInv s) :
    DestroyInv (step s l) := by
  cases l with
  | call_add el m =>
    simp only [step]
    split
    · exact hs
    · intro j
      have he := hs j
      have hplain : ∀ es, DestroyEnds (some (workq_add_entry s.wq s.heap el m).1) es := by
        intro es
        unfold workq_add_entry
        split
        · trivial
        · cases m <;> trivial
      simp only [thread_events_append]
      by_cases hj : j = s.pool.length
      · subst hj
        have h1 : (s.pool ++ [(workq_add_entry s.wq s.heap el m).1]).get? s.pool.length =
            some (workq_add_entry s.wq s.heap el m).1 := by
          simp [List.get?_eq_getElem?]
        rw [h1]
        exact hplain _
      · rw [thread_events_other _ _ hj, List.append_nil]
        exact destroyEnds_other s.pool s.pool _ j _ rfl (fun _ => rfl)
          (fun x hx _ => by
            simp only [List.mem_singleton] at hx
            subst hx
            exact hplain _) he
  | call_destroy =>
    simp only [step]
    intro j
    refine destroyEnds_other s.pool s.pool _ j _ rfl (fun _ => rfl) (fun x hx h0 => ?_) (hs j)
    simp only [List.mem_singleton] at hx
    subst hx
    unfold workq_destroy_entry
    split
    · intro hz
      exact absurd hz (by decide)
    · exact h0
  | run tid env =>
    rcases step_run_cases s tid env with h | h | ⟨th, o, hth, hr, h⟩
    · rw [h]; exact hs
    · rw [h]; exact hs
    · rw [h]
      intro j
      have he := hs j
      simp only [Sys.apply, thread_events_append]
      by_cases hj : j = tid
      · subst hj
        rw [thread_events_self, get?_set_append _ _ _ _ _ hth]
        rw [hth] at he
        exact thread_step_destroy _ _ _ _ _ _ hr he
      · rw [thread_events_other _ _ hj, List.append_nil]
        refine destroyEnds_other s.pool _ _ j _ (by simp) (fun hlt => ?_) (fun x hx _ => ?_) he
        · simp [List.get?_eq_getElem?, List.getElem?_set, hj, Ne.symm hj]
        · have : x = .server_start := by
            split at hx
            · simpa using hx
            · cases hx
          subst this
          trivial

theorem destroyInv_exec (wq0 : workq_t) (N : Int) (engine : Nat) (env : Env)
    (ls : List Label) : DestroyInv (after_init wq0 N engine env ls) := by
  unfold after_init
  refine exec_inv DestroyInv destroyInv_step ls _ ?_
  intro j
  show thread_events j [] = []
  rfl

/-- C16 (amended): no step of `workq_destroy` changes `wq->first`, `wq->last`
or the heap, so it neither unlinks nor frees a WorkItem.  It returns the
status of its lock, of `pthread_cond_broadcast`, of a `pthread_cond_wait` or
of its unlock when that status is not 0; otherwise it waits while
`counter > 0` and, past the unlock, its last step destroys the mutex, the
condition variable and the attribute object, each once, and returns 0 exactly
when the three calls return 0.  In every reachable state a call that has
returned 0 has had status 0 from every primitive it called, its lock first
and its unlock and the three destroy calls last.  The queue is empty from the
moment `workq_destroy` leaves its rundown (so when it returns 0) if no
primitive has failed, the bound is at least 1 and no `workq_add` is under way
at that moment. -/
theorem C16_destroy_leaves_queue (wq0 : workq_t) (N : Int) (engine : Nat) (env : Env)
    (hinit : (workq_init wq0 N engine env).1 = 0) (ls : List Label) :
    (∀ wq h e th o,
      (th = .destroy_locking ∨ th = .destroy_waiting ∨ th = .destroy_unlocked) →
      thread_step wq h e th = some (.ok o) →
      o.wq.first = wq.first ∧ o.wq.last = wq.last ∧ o.heap = h) ∧
    (∀ (wq : workq_t) (h : Heap) (e : Env),
      ∃ o, workq_destroy_locked wq h e = .ok o ∧
        o.next =
          (if e.lock ≠ 0 then .destroy_done e.lock
           else if wq.counter > 0 then
             (if wq.idle > 0 ∧ e.broadcast ≠ 0 then .destroy_done e.broadcast
              else .destroy_waiting)
           else if e.unlock ≠ 0 then .destroy_done e.unlock
           else .destroy_unlocked)) ∧
    (∀ (wq : workq_t) (h : Heap) (e : Env),
      ∃ o, workq_destroy_wake wq h e = .ok o ∧
        o.next =
          (if e.wait ≠ 0 then .destroy_done e.wait
           else if wq.counter > 0 then .destroy_waiting
           else if e.unlock ≠ 0 then .destroy_done e.unlock
           else .destroy_unlocked)) ∧
    (∀ wq h e, ∃ o, workq_destroy_final wq h e = .ok o ∧
      o.events = [.mutex_destroy e.mutex_destroy, .cond_destroy e.cond_destroy,
        .attr_destroy e.attr_destroy] ∧
      (o.next = .destroy_done 0 ↔
        (e.mutex_destroy = 0 ∧ e.cond_destroy = 0 ∧ e.attr_destroy = 0))) ∧
    (∀ tid, (after_init wq0 N engine env ls).pool.get? tid = some (.destroy_done 0) →
      (∃ tl, thread_events tid (after_init wq0 N engine env ls).trace =
        .mutex_lock 0 :: tl) ∧
      (∀ ev ∈ thread_events tid (after_init wq0 N engine env ls).trace, ev.status = 0) ∧
      ∃ pre, thread_events tid (after_init wq0 N engine env ls).trace =
        pre ++ [.mutex_unlock 0, .mutex_destroy 0, .cond_destroy 0, .attr_destroy 0]) ∧
    (∀ (tid : Nat) (e : Env) (ls2 : List Label), 1 ≤ N → (∀ l ∈ ls, l.clean) →
      e.clean →
      ((after_init wq0 N engine env ls).pool.get? tid = some .destroy_locking ∨
        (after_init wq0 N engine env ls).pool.get? tid = some .destroy_waiting) →
      (step (after_init wq0 N engine env ls) (.run tid e)).pool.get? tid =
        some .destroy_unlocked →
      (∀ t ∈ (step (after_init wq0 N engine env ls) (.run tid e)).pool,
        t.adding = false) →
      (exec (step (after_init wq0 N engine env ls) (.run tid e)) ls2).wq.first = none) := by
  refine ⟨destroy_keeps_queue, ?_, ?_, ?_, ?_, ?_⟩
  · intro wq h e
    simp only [workq_destroy_locked, workq_destroy_while, workq_destroy_release]
    by_cases h1 : e.lock = 0 <;> by_cases h2 : wq.counter > 0 <;>
      by_cases h3 : wq.idle > 0 <;> by_cases h4 : e.broadcast = 0 <;>
      by_cases h5 : e.unlock = 0 <;> simp [h1, h2, h3, h4, h5]
  · intro wq h e
    simp only [workq_destroy_wake, workq_destroy_while, workq_destroy_release]
    by_cases h1 : e.wait = 0 <;> by_cases h2 : wq.counter > 0 <;>
      by_cases h5 : e.unlock = 0 <;> simp [h1, h2, h5]
  · intro wq h e
    refine ⟨_, rfl, rfl, ?_⟩
    simp only [Thread.destroy_done.injEq]
    constructor
    · intro hz
      exact final_status_zero e hz
    · rintro ⟨h1, h2, h3⟩
      simp [h1, h2, h3]
  · intro tid hth
    have := destroyInv_exec wq0 N engine env ls tid
    rw [hth] at this
    obtain ⟨⟨h1, h2⟩, h3⟩ := this rfl
    exact ⟨h1, h2, h3⟩
  · intro tid e ls2 hN hc he hpre hpost hadd
    obtain ⟨hfz, hfirst⟩ := rundown_clean wq0 N engine env hinit ls tid e hN hc he hpre
      hpost hadd
    obtain ⟨-, f2, -, -⟩ := frozen_exec _ hfz ls2
    rw [f2]
    exact hfirst

/-- Witness of C16: bound 2, one caller adds 1, 2 and 3 and destroys the queue;
the servers have emptied the queue when `workq_destroy` returns 0, and every
primitive `workq_destroy` has called has returned 0. -/
theorem C16_witness :
    (exec (step (after_init demo_wq 2 5 Env.ok sched_work) (.run 5 Env.ok))
      [.run 5 Env.ok]).wq.first = none ∧
    (∀ ev ∈ thread_events 5 (after_init demo_wq 2 5 Env.ok sched_work_done).trace,
      ev.status = 0) :=
  ⟨(C16_destroy_leaves_queue demo_wq 2 5 Env.ok (by decide) sched_work).2.2.2.2.2 5 Env.ok
    [.run 5 Env.ok] (by decide) (by decide) (by decide) (by decide) (by decide) (by decide),
   ((C16_destroy_leaves_queue demo_wq 2 5 Env.ok (by decide) sched_work_done).2.2.2.2.1 5
    (by decide)).2.1⟩

/-- Counterexample to C16 as stated: on a queue of bound 0, `workq_add (7)` and
`workq_destroy` both return 0 and the item is still linked at `wq->first`; on
a queue of bound 1 on which `pthread_create` failed, `workq_destroy` returns 0
and the item is still linked. -/
theorem C16_counterexample :
    (after_init demo_wq 0 5 Env.ok sched_zero).pool = [.add_done 0, .destroy_done 0] ∧
    (after_init demo_wq 0 5 Env.ok sched_zero).wq.first = some 100 ∧
    (after_init demo_wq 0 5 Env.ok sched_zero).heap 100 = some ⟨none, 7⟩ ∧
    (after_init demo_wq 1 5 Env.ok sched_no_server).pool =
      [.add_done 11, .destroy_done 0] ∧
    (after_init demo_wq 1 5 Env.ok sched_no_server).wq.first = some 100 ∧
    (after_init demo_wq 1 5 Env.ok sched_no_server).heap 100 = some ⟨none, 7⟩ := by
  decide

theorem step_run_ok (s : Sys) (tid : Nat) (e : Env) (th : Thread) (o : Out)
    (hth : s.pool.get? tid = some th) (hr : thread_step s.wq s.heap e th = some (.ok o)) :
    step s (.run tid e) = s.apply tid (.ok o) := by
  simp only [step, hth, hr]

theorem enter_loop (wq : workq_t) (h : Heap) (e : Env) (th : Thread)
    (hent : th.entering = true) (hl : e.lock = 0) (hw : e.wait_ok) (hown : Owns h th) :
    ∃ p h1 evs, thread_step wq h e th =
        some (workq_server_locked workq_server_fuel p wq h1 e evs) ∧
      calls evs = [] ∧ unlinks evs = [] ∧ (∀ b, b ∉ th.held → h1 b = h b) := by
  cases th with
  | server_start =>
    refine ⟨.inner, h, [.mutex_lock 0], ?_, rfl, rfl, fun _ _ => rfl⟩
    simp [thread_step, workq_server_begin, hl]
  | server_waiting =>
    rcases hw with hw | hw
    · refine ⟨.inner, h, [.cond_wake 0], ?_, rfl, rfl, fun _ _ => rfl⟩
      have h1 : ¬ (0 : Int) = ETIMEDOUT := by decide
      simp [thread_step, workq_server_wake, hw, h1]
    · refine ⟨.take true, h, [.cond_wake e.wait], ?_, rfl, rfl, fun _ _ => rfl⟩
      simp [thread_step, workq_server_wake, hw]
  | server_engine we t =>
    obtain ⟨x, hx⟩ := hown
    refine ⟨.tests t, Function.update h we none, [.engine_ret, .free we, .mutex_lock 0], ?_,
      rfl, rfl, fun b hb => ?_⟩
    · simp [thread_step, workq_server_resume, hx, hl]
    · have hne : b ≠ we := by
        intro hbe
        apply hb
        simp [Thread.held, hbe]
      simp [Function.update, hne]
  | add_locking item el => cases hent
  | destroy_locking => cases hent
  | destroy_waiting => cases hent
  | destroy_unlocked => cases hent
  | server_dequeued we t => cases hent
  | add_done st => cases hent
  | destroy_done st => cases hent
  | server_done => cases hent

theorem held_outside_queue (s : Sys) (hI : s.HInv) (tid : Nat) (th : Thread)
    (hth : s.pool.get? tid = some th) (q : List (Nat × Nat))
    (hc : Chain s.heap s.wq.first q) : ∀ b ∈ q.map Prod.fst, b ∉ th.held := by
  obtain ⟨-, hI⟩ := hI
  obtain ⟨l1, l2, hp, -⟩ := pool_split s.pool tid _ hth
  have hI2 : HInv s.wq s.heap s.trace (th :: (l1 ++ l2)) :=
    hinv_perm _ _ _ _ _ (by rw [hp]; exact List.perm_middle) hI
  obtain ⟨q0, hch, -, hnd, -, -, -⟩ := hI2
  rw [holds_cons] at hnd
  intro b hb hheld
  obtain ⟨hq, -⟩ := held_apart _ _ _ b hnd hheld
  rw [chain_unique _ _ _ _ hc hch] at hb
  exact hq hb

theorem solo_drain (tid : Nat) (e : Env) (hl : e.lock = 0) (hu : e.unlock = 0)
    (hw : e.wait_ok) :
    ∀ (q : List (Nat × Nat)) (s : Sys) (th : Thread), s.HInv → s.wq.quit ≠ 0 →
      Chain s.heap s.wq.first q → s.pool.get? tid = some th → th.entering = true →
      (exec s (List.replicate (2 * q.length + 1) (.run tid e))).pool.get? tid =
        some .server_done ∧
      (exec s (List.replicate (2 * q.length + 1) (.run tid e))).wq.first = none ∧
      (exec s (List.replicate (2 * q.length + 1) (.run tid e))).wq.counter =
        s.wq.counter - 1 ∧
      engined (exec s (List.replicate (2 * q.length + 1) (.run tid e))).trace =
        engined s.trace ++ q.map Prod.snd ∧
      taken (exec s (List.replicate (2 * q.length + 1) (.run tid e))).trace =
        taken s.trace ++ q.map Prod.snd ∧
      (exec s (List.replicate (2 * q.length + 1) (.run tid e))).ub = false := by
  intro q
  induction q with
  | nil =>
    intro s th hI hq hc hth hent
    have hf : s.wq.first = none := hc
    have hown : Owns s.heap th := by
      obtain ⟨-, q0, -, -, -, ho, -⟩ := hI
      exact ho th (List.get?_mem hth)
    obtain ⟨p, h1, evs, hstep, hcalls, hunl, -⟩ := enter_loop s.wq s.heap e th hent hl hw hown
    rw [server_locked_drain s.wq h1 e evs p hf hq] at hstep
    have hs := step_run_ok s tid e th _ hth hstep
    have hex : exec s (List.replicate (2 * ([] : List (Nat × Nat)).length + 1)
        (Label.run tid e)) = step s (.run tid e) := rfl
    rw [hex, hs]
    simp only [Sys.apply, draining]
    refine ⟨get?_set_append _ _ _ _ _ hth, hf, trivial, ?_, ?_, hI.1⟩
    · rw [engined_append, calls_append, hcalls]
      split <;> simp [calls]
    · rw [taken_append, unlinks_append, hunl]
      split <;> simp [unlinks]
  | cons x q ih =>
    intro s th hI hq hc hth hent
    obtain ⟨a, d⟩ := x
    obtain ⟨hf, nxt, ha, hcq⟩ := hc
    have hown : Owns s.heap th := by
      obtain ⟨-, q0, -, -, -, ho, -⟩ := hI
      exact ho th (List.get?_mem hth)
    have hout := held_outside_queue s hI tid th hth ((a, d) :: q) ⟨hf, nxt, ha, hcq⟩
    obtain ⟨p, h1, evs, hstep, hcalls, hunl, hframe⟩ :=
      enter_loop s.wq s.heap e th hent hl hw hown
    have ha1 : h1 a = some ⟨nxt, d⟩ := by
      rw [hframe a (hout a (by simp))]
      exact ha
    rw [server_locked_take s.wq h1 e evs p a ⟨nxt, d⟩ hf ha1] at hstep
    simp only [hu, ne_eq, not_true_eq_false, if_false] at hstep
    have hs1 := step_run_ok s tid e th _ hth hstep
    have hI1 : (step s (.run tid e)).HInv := hinv_step s _ hI
    have hq1 : (step s (.run tid e)).wq.quit ≠ 0 := (quit_step s _ hq).1
    have hth1 : (step s (.run tid e)).pool.get? tid = some (.server_dequeued a p.carried) := by
      rw [hs1]
      exact get?_set_append _ _ _ _ _ hth
    have hheap1 : (step s (.run tid e)).heap = h1 := by rw [hs1]; rfl
    have hfirst1 : (step s (.run tid e)).wq.first = nxt := by
      rw [hs1]
      show (if s.wq.last = some a then _ else _ : workq_t).first = nxt
      split <;> rfl
    have hcnt1 : (step s (.run tid e)).wq.counter = s.wq.counter := by
      rw [hs1]
      show (if s.wq.last = some a then _ else _ : workq_t).counter = s.wq.counter
      split <;> rfl
    have heng1 : engined (step s (.run tid e)).trace = engined s.trace := by
      rw [hs1]
      simp only [Sys.apply]
      rw [engined_append, calls_append, hcalls]
      simp [calls]
    have htak1 : taken (step s (.run tid e)).trace = taken s.trace ++ [d] := by
      rw [hs1]
      simp only [Sys.apply]
      rw [taken_append, unlinks_append, hunl]
      simp [unlinks]
    have hex : exec s (List.replicate (2 * ((a, d) :: q).length + 1) (Label.run tid e)) =
        exec (step (step s (.run tid e)) (.run tid e))
          (List.replicate (2 * q.length + 1) (.run tid e)) := by
      have hlen : 2 * ((a, d) :: q).length + 1 = (2 * q.length + 1) + 1 + 1 := by
        simp only [List.length_cons]; omega
      rw [hlen, List.replicate_succ, List.replicate_succ]
      rfl
    rw [hex]
    generalize step s (.run tid e) = s1 at hI1 hq1 hth1 hheap1 hfirst1 hcnt1 heng1 htak1 ⊢
    have hstep2 : thread_step s1.wq s1.heap e (.server_dequeued a p.carried) =
        some (.ok ⟨s1.wq, s1.heap, .server_engine a p.carried, false,
          [.engine s1.wq.engine d]⟩) := by
      simp [thread_step, workq_server_call, hheap1, ha1]
    have hs2 := step_run_ok s1 tid e _ _ hth1 hstep2
    have hI2 : (step s1 (.run tid e)).HInv := hinv_step s1 _ hI1
    have hq2 : (step s1 (.run tid e)).wq.quit ≠ 0 := (quit_step s1 _ hq1).1
    have hth2 : (step s1 (.run tid e)).pool.get? tid = some (.server_engine a p.carried) := by
      rw [hs2]
      exact get?_set_append _ _ _ _ _ hth1
    have hc2 : Chain (step s1 (.run tid e)).heap (step s1 (.run tid e)).wq.first q := by
      rw [hs2]
      show Chain s1.heap s1.wq.first q
      rw [hheap1, hfirst1]
      refine chain_frame s.heap h1 q nxt (fun b hb => ?_) hcq
      exact hframe b (hout b (by simp [hb]))
    have hcnt2 : (step s1 (.run tid e)).wq.counter = s.wq.counter := by
      rw [hs2]; exact hcnt1
    have heng2 : engined (step s1 (.run tid e)).trace = engined s.trace ++ [d] := by
      rw [hs2]
      simp only [Sys.apply]
      rw [engined_append, heng1]
      simp [calls]
    have htak2 : taken (step s1 (.run tid e)).trace = taken s.trace ++ [d] := by
      rw [hs2]
      simp only [Sys.apply]
      rw [taken_append, htak1]
      simp [unlinks]
    obtain ⟨r1, r2, r3, r4, r5, r6⟩ := ih (step s1 (.run tid e)) _ hI2 hq2 hc2 hth2 rfl
    refine ⟨r1, r2, by rw [r3, hcnt2], ?_, ?_, r6⟩
    · rw [r4, heng2]; simp
    · rw [r5, htak2]; simp

/-- C23: from a state in which `quit` is set, `quit` stays set and no server
enters the timed wait: a server found in the wait later on was in it already.
A server takes the mutex at line 47, comes back from its wait or takes the
mutex again at line 105 after the engine has returned and the item is freed,
and is then in its loop; there, while the queue is not empty, it unlinks the
entry at `wq->first`, leaves `counter` as it is and, its unlock succeeding,
calls the engine on that entry; only with the queue empty does it take the
Draining exit.  So a server that runs alone from a well-formed state with the
queue `q` unlinks every entry of `q` in order, calls the engine on each, and
after `2 * length q + 1` steps has returned through the Draining exit with
the queue empty and `counter` one less. -/
theorem C23_rundown_serves_backlog (s : Sys) (hq : s.wq.quit ≠ 0) :
    (∀ ls, (exec s ls).wq.quit ≠ 0 ∧
      ∀ tid, (exec s ls).pool.get? tid = some .server_waiting →
        s.pool.get? tid = some .server_waiting) ∧
    ((∀ e, e.lock = 0 →
        thread_step s.wq s.heap e .server_start =
          some (workq_server_locked workq_server_fuel .inner s.wq s.heap e
            [.mutex_lock 0])) ∧
      (∀ e, e.wait = 0 →
        thread_step s.wq s.heap e .server_waiting =
          some (workq_server_locked workq_server_fuel .inner s.wq s.heap e
            [.cond_wake 0])) ∧
      (∀ e, e.wait = ETIMEDOUT →
        thread_step s.wq s.heap e .server_waiting =
          some (workq_server_locked workq_server_fuel (.take true) s.wq s.heap e
            [.cond_wake ETIMEDOUT])) ∧
      (∀ e we t x, e.lock = 0 → s.heap we = some x →
        thread_step s.wq s.heap e (.server_engine we t) =
          some (workq_server_locked workq_server_fuel (.tests t) s.wq
            (Function.update s.heap we none) e
            [.engine_ret, .free we, .mutex_lock 0]))) ∧
    (∀ h p evs env we e, s.wq.first = some we → h we = some e →
      ∃ o, workq_server_locked workq_server_fuel p s.wq h env evs = .ok o ∧
        o.wq.first = e.next ∧ o.wq.counter = s.wq.counter ∧ o.wq.quit = s.wq.quit ∧
        o.heap = h ∧
        o.events = evs ++ [.unlink e.data, .mutex_unlock env.unlock] ∧
        (env.unlock = 0 → o.next = .server_dequeued we p.carried) ∧
        (env.unlock ≠ 0 → o.next = .server_done)) ∧
    (∀ env we t e, s.heap we = some e →
      thread_step s.wq s.heap env (.server_dequeued we t) =
        some (.ok ⟨s.wq, s.heap, .server_engine we t, false,
          [.engine s.wq.engine e.data]⟩)) ∧
    (∀ h p evs env, s.wq.first = none →
      workq_server_locked workq_server_fuel p s.wq h env evs =
        .ok ⟨{ s.wq with counter := s.wq.counter - 1 }, h, .server_done, false,
          evs ++ (if s.wq.counter - 1 = 0 then
            [.cond_broadcast env.broadcast, .mutex_unlock env.unlock]
          else [.mutex_unlock env.unlock])⟩) ∧
    (s.HInv → ∀ (tid : Nat) (th : Thread) (q : List (Nat × Nat)) (e : Env),
      e.lock = 0 → e.unlock = 0 → e.wait_ok →
      Chain s.heap s.wq.first q → s.pool.get? tid = some th → th.entering = true →
      (exec s (List.replicate (2 * q.length + 1) (.run tid e))).pool.get? tid =
        some .server_done ∧
      (exec s (List.replicate (2 * q.length + 1) (.run tid e))).wq.first = none ∧
      (exec s (List.replicate (2 * q.length + 1) (.run tid e))).wq.counter =
        s.wq.counter - 1 ∧
      engined (exec s (List.replicate (2 * q.length + 1) (.run tid e))).trace =
        engined s.trace ++ q.map Prod.snd ∧
      taken (exec s (List.replicate (2 * q.length + 1) (.run tid e))).trace =
        taken s.trace ++ q.map Prod.snd ∧
      (exec s (List.replicate (2 * q.length + 1) (.run tid e))).ub = false) := by
  refine ⟨fun ls => quit_exec s ls hq, ⟨?_, ?_, ?_, ?_⟩, ?_, ?_, ?_, ?_⟩
  · intro e hl
    simp [thread_step, workq_server_begin, hl]
  · intro e hw
    have h1 : ¬ (0 : Int) = ETIMEDOUT := by decide
    simp [thread_step, workq_server_wake, hw, h1]
  · intro e hw
    simp [thread_step, workq_server_wake, hw]
  · intro e we t x hl hx
    simp [thread_step, workq_server_resume, hx, hl]
  · intro h p evs env we e hf he
    refine ⟨_, server_locked_take s.wq h env evs p we e hf he, ?_, ?_, ?_, rfl, rfl, ?_, ?_⟩
    · show (if s.wq.last = some we then _ else _ : workq_t).first = e.next
      split <;> rfl
    · show (if s.wq.last = some we then _ else _ : workq_t).counter = s.wq.counter
      split <;> rfl
    · show (if s.wq.last = some we then _ else _ : workq_t).quit = s.wq.quit
      split <;> rfl
    · intro hu
      simp [hu]
    · intro hu
      simp [hu]
  · intro env we t e he
    simp [thread_step, workq_server_call, he]
  · intro h p evs env hf
    exact server_locked_drain s.wq h env evs p hf hq
  · intro hI tid th q e hl hu hw hc hth hent
    exact solo_drain tid e hl hu hw q s th hI hq hc hth hent

/-- Witness of C23: `quit` is set with the payloads 1 and 2 in the queue of a
queue of bound 1 whose server has not yet run; the server, running alone,
gives 1 and then 2 to the engine and returns with the queue empty. -/
theorem C23_witness :
    (exec (after_init demo_wq 1 5 Env.ok sched_backlog)
      (List.replicate (2 * [(100, 1), (101, 2)].length + 1) (.run 1 Env.ok))).pool.get? 1 =
      some .server_done ∧
    (exec (after_init demo_wq 1 5 Env.ok sched_backlog)
      (List.replicate (2 * [(100, 1), (101, 2)].length + 1) (.run 1 Env.ok))).wq.first =
      none ∧
    (exec (after_init demo_wq 1 5 Env.ok sched_backlog)
      (List.replicate (2 * [(100, 1), (101, 2)].length + 1) (.run 1 Env.ok))).wq.counter =
      (after_init demo_wq 1 5 Env.ok sched_backlog).wq.counter - 1 ∧
    engined (exec (after_init demo_wq 1 5 Env.ok sched_backlog)
      (List.replicate (2 * [(100, 1), (101, 2)].length + 1) (.run 1 Env.ok))).trace =
      engined (after_init demo_wq 1 5 Env.ok sched_backlog).trace ++
        [(100, 1), (101, 2)].map Prod.snd ∧
    taken (exec (after_init demo_wq 1 5 Env.ok sched_backlog)
      (List.replicate (2 * [(100, 1), (101, 2)].length + 1) (.run 1 Env.ok))).trace =
      taken (after_init demo_wq 1 5 Env.ok sched_backlog).trace ++
        [(100, 1), (101, 2)].map Prod.snd ∧
    (exec (after_init demo_wq 1 5 Env.ok sched_backlog)
      (List.replicate (2 * [(100, 1), (101, 2)].length + 1) (.run 1 Env.ok))).ub = false :=
  (C23_rundown_serves_backlog (after_init demo_wq 1 5 Env.ok sched_backlog)
    (by decide)).2.2.2.2.2
    (hinv_exec demo_wq 1 5 Env.ok (by decide) sched_backlog) 1 .server_start
    [(100, 1), (101, 2)] Env.ok (by decide) (by decide) (by decide)
    ⟨by decide, some 101, by decide, by decide, none, by decide, rfl⟩
    (by decide) (by decide)

end Workq
